import Mathlib

/-!
Verification of the client-side AG-UI event-stream reconstruction engine
(`components/frontend/src/hooks/use-agui-stream.ts`).

The reducer `processEvent`, the snapshot normalizer `normalizeSnapshotMessages`,
the snapshot merger, and the reconnect backoff policy are translated below as
executable Lean functions over explicit state.  JavaScript `Map`s are modelled
as insertion-ordered association lists (`AList`), JavaScript string truthiness
(`x || y`) via `truthy` / `orElseStr`, and `crypto.randomUUID()` via a fresh-id
counter threaded through the state (`nextUuid`), which returns an identifier
distinct from every previously generated one.
-/

set_option linter.unusedVariables false

namespace AGUI

/-- Insertion-ordered association list: the model of a JavaScript `Map`. -/
abbrev AList (α : Type) := List (String × α)

/-- `Map.get`. -/
def aget {α : Type} (m : AList α) (k : String) : Option α :=
  (m.find? (fun p => p.1 == k)).map (·.2)

/-- `Map.has`. -/
def ahas {α : Type} (m : AList α) (k : String) : Bool :=
  m.any (fun p => p.1 == k)

/-- `Map.set`: replaces in place if present, else appends (JS insertion order). -/
def aset {α : Type} (m : AList α) (k : String) (v : α) : AList α :=
  if ahas m k then m.map (fun p => if p.1 == k then (k, v) else p) else m ++ [(k, v)]

/-- `Map.delete`. -/
def adel {α : Type} (m : AList α) (k : String) : AList α :=
  m.filter (fun p => p.1 != k)

/-- JavaScript string truthiness on an optional string: `null`, `undefined` and
`""` are falsy. -/
def truthy (o : Option String) : Option String :=
  match o with
  | some s => if s = "" then none else some s
  | none => none

/-- JavaScript `a || b` on strings. -/
def orElseStr (a b : String) : String := if a = "" then b else a

/-- `crypto.randomUUID()` modelled as a deterministic fresh-id supply. -/
def freshUuid (n : Nat) : String := "uuid-" ++ toString n

/-- Update the first element satisfying `p` (JS `Array.find` + in-place mutation,
or `findIndex` + element replacement). -/
def updateFirst {α : Type} (p : α → Bool) (f : α → α) : List α → List α
  | [] => []
  | x :: xs => if p x then f x :: xs else x :: updateFirst p f xs

/-- Remove the first element satisfying `p` (JS `findIndex` + `splice(idx, 1)`). -/
def removeFirst {α : Type} (p : α → Bool) : List α → List α
  | [] => []
  | x :: xs => if p x then xs else x :: removeFirst p xs

/-- Concatenation of a list of lists. -/
def listFlat {α : Type} : List (List α) → List α
  | [] => []
  | l :: ls => l ++ listFlat ls

/-- Insert an element at position `i` (JS `splice(i, 0, x)`). -/
def spliceAt {α : Type} (l : List α) (i : Nat) (x : α) : List α :=
  l.take i ++ x :: l.drop i

/-! ## Data model (`types/agui.ts`) -/

/-- `PlatformToolCall.status`. -/
inductive TCStatus where
  | pending
  | running
  | completed
  | error
deriving DecidableEq, Repr

/-- `FunctionCall` from `@ag-ui/core` (`{name, arguments}`). -/
structure FunctionCall where
  name : String
  arguments : String
deriving DecidableEq, Repr

/-- `PlatformToolCall` (the constant `type: 'function'` discriminator is omitted). -/
structure PlatformToolCall where
  id : String
  function : FunctionCall
  result : Option String := none
  status : Option TCStatus := none
  parentToolUseId : Option String := none
deriving DecidableEq, Repr

/-- `PlatformMessage` (roles are strings: "user" / "assistant" / "tool" / ...). -/
structure PlatformMessage where
  id : String
  role : String
  content : String
  name : Option String := none
  toolCalls : Option (List PlatformToolCall) := none
  toolCallId : Option String := none
  timestamp : String := ""
deriving DecidableEq, Repr

/-- The in-flight streaming text message (`AGUIClientState.currentMessage`). -/
structure CurrentMessage where
  id : Option String
  role : Option String
  content : String
  timestamp : String := ""
deriving DecidableEq, Repr

/-- The deprecated single in-flight tool call (`AGUIClientState.currentToolCall`). -/
structure CurrentToolCall where
  id : String
  name : String
  args : String
  parentToolUseId : Option String := none
deriving DecidableEq, Repr

/-- `PendingToolCall`: streaming record for a started-but-unfinished tool call. -/
structure PendingToolCall where
  id : String
  name : String
  args : String
  parentToolUseId : Option String := none
  parentMessageId : Option String := none
  timestamp : String := ""
deriving DecidableEq, Repr

/-- Values stored in the free-form `state` record: plain strings, plus the
`currentStep` object `{id, name, status}` written by STEP_STARTED. -/
inductive StVal where
  | str (s : String)
  | step (id name status : String)
deriving DecidableEq, Repr

/-- One RFC6902-style patch of a STATE_DELTA event. -/
structure StatePatch where
  op : String
  path : String
  value : StVal
deriving DecidableEq, Repr

/-- `PlatformActivity`. -/
structure PlatformActivity where
  id : String
  atype : String
  status : Option String := none
  progress : Option Nat := none
deriving DecidableEq, Repr

/-- `PlatformActivityPatch`. -/
structure PlatformActivityPatch where
  op : String
  activity : PlatformActivity
deriving DecidableEq, Repr

/-- `AGUIClientState.status`. -/
inductive ConnStatus where
  | idle
  | connecting
  | connected
  | error
  | completed
deriving DecidableEq, Repr

/-- The weakly-typed payload of a RAW event (`rawEvent.event || rawEvent.data`). -/
structure RawData where
  rtype : Option String := none
  hidden : Bool := false
  messageId : Option String := none
  traceId : Option String := none
  thinking : Option String := none
  role : Option String := none
  content : Option String := none
  id : Option String := none
deriving DecidableEq, Repr

/-- The closed set of typed event variants handled by the reducer, plus
`unknown` for every unrecognized `type` discriminator (default branch). -/
inductive Event where
  | runStarted (threadId runId timestamp : String)
  | runFinished (runId timestamp : String)
  | runError (message : String)
  | textStart (messageId : Option String) (role : String) (timestamp : String)
  | textContent (delta : String)
  | textEnd (timestamp : String)
  | toolStart (toolCallId toolCallName : String) (parentMessageId parentToolCallId : Option String)
      (timestamp : String)
  | toolArgs (toolCallId delta : String)
  | toolEnd (toolCallId timestamp : String)
  | toolResult (toolCallId content : String)
  | stateSnapshot (snapshot : AList StVal)
  | stateDelta (patches : List StatePatch)
  | messagesSnapshot (msgs : List PlatformMessage)
  | activitySnapshot (activities : Option (List PlatformActivity))
  | activityDelta (patches : List PlatformActivityPatch)
  | stepStarted (stepName : String)
  | stepFinished
  | raw (data : Option RawData) (timestamp : String)
  | meta (metaType : String) (messageId : Option String)
  | unknown (typeTag : String)
deriving DecidableEq, Repr

/-- `AGUIClientState`.  `hiddenMessageIds` models the `hiddenMessageIdsRef`
instance field, and `nextUuid` the `crypto.randomUUID()` supply. -/
structure AGUIClientState where
  threadId : Option String := none
  runId : Option String := none
  status : ConnStatus := .idle
  messages : List PlatformMessage := []
  state : AList StVal := []
  activities : List PlatformActivity := []
  currentMessage : Option CurrentMessage := none
  currentToolCall : Option CurrentToolCall := none
  pendingToolCalls : AList PendingToolCall := []
  pendingChildren : AList (List PlatformMessage) := []
  error : Option String := none
  messageFeedback : AList String := []
  hiddenMessageIds : List String := []
  nextUuid : Nat := 0
deriving DecidableEq, Repr

/-- `initialState`. -/
def initialState : AGUIClientState := {}

/-! ## Reducer branches (`processEvent` in `use-agui-stream.ts`) -/

/-- RUN_STARTED branch. -/
def runStartedStep (s : AGUIClientState) (threadId runId : String) : AGUIClientState :=
  { s with threadId := some threadId, runId := some runId, status := .connected, error := none }

/-- RUN_FINISHED branch: flush any pending streaming message. -/
def runFinishedStep (s : AGUIClientState) (timestamp : String) : AGUIClientState :=
  let s := { s with status := ConnStatus.completed }
  match s.currentMessage with
  | some cm =>
    if cm.content != "" then
      let idPick :=
        match truthy cm.id with
        | some i => (i, s.nextUuid)
        | none => (freshUuid s.nextUuid, s.nextUuid + 1)
      let msg : PlatformMessage :=
        { id := idPick.1, role := "assistant", content := cm.content, timestamp := timestamp }
      { s with messages := s.messages ++ [msg], currentMessage := none, nextUuid := idPick.2 }
    else { s with currentMessage := none }
  | none => { s with currentMessage := none }

/-- RUN_ERROR branch. -/
def runErrorStep (s : AGUIClientState) (message : String) : AGUIClientState :=
  { s with status := ConnStatus.error, error := some message }

/-- TEXT_MESSAGE_START branch. -/
def textStartStep (s : AGUIClientState) (messageId : Option String) (role timestamp : String) :
    AGUIClientState :=
  { s with
    currentMessage :=
      some ({ id := truthy messageId, role := some role, content := "",
              timestamp := timestamp }) }

/-- TEXT_MESSAGE_CONTENT branch: appends the delta, producing a new object. -/
def textContentStep (s : AGUIClientState) (delta : String) : AGUIClientState :=
  match s.currentMessage with
  | some cm => { s with currentMessage := some { cm with content := cm.content ++ delta } }
  | none => s

/-- TEXT_MESSAGE_END branch: hidden-set check, then dedup-by-id update-in-place
or commit of the accumulated streaming message. -/
def textEndStep (s : AGUIClientState) (timestamp : String) : AGUIClientState :=
  match s.currentMessage with
  | some cm =>
    if cm.content != "" then
      let idPick :=
        match truthy cm.id with
        | some i => (i, s.nextUuid)
        | none => (freshUuid s.nextUuid, s.nextUuid + 1)
      let messageId := idPick.1
      if s.hiddenMessageIds.contains messageId then
        { s with currentMessage := none, nextUuid := idPick.2 }
      else
        if s.messages.any (fun m => m.id == messageId) then
          let newMessages := updateFirst (fun m => m.id == messageId)
            (fun m => if m.content == cm.content then m else { m with content := cm.content })
            s.messages
          { s with messages := newMessages, currentMessage := none, nextUuid := idPick.2 }
        else
          let msg : PlatformMessage :=
            { id := messageId, role := orElseStr (cm.role.getD "") "assistant",
              content := cm.content, timestamp := timestamp }
          { s with messages := s.messages ++ [msg], currentMessage := none, nextUuid := idPick.2 }
    else { s with currentMessage := none }
  | none => { s with currentMessage := none }

/-- `messages.some(msg => msg.toolCalls?.some(tc => tc.id === tcid))`: the
existence check for an already-attached tool call id. -/
def committedTC (msgs : List PlatformMessage) (tcid : String) : Bool :=
  msgs.any (fun m => (m.toolCalls.getD []).any (fun tc => tc.id == tcid))

/-- TOOL_CALL_START branch: registers a pending tool call, resolving the
effective parent tool id (explicit `parent_tool_call_id`, else the
`parentMessageId`-matches-a-tool-call heuristic). -/
def toolStartStep (s : AGUIClientState) (toolCallId toolCallName : String)
    (parentMessageId parentToolCallId : Option String) (timestamp : String) : AGUIClientState :=
  let effectiveParentToolId :=
    match truthy parentToolCallId with
    | some p => some p
    | none =>
      match truthy parentMessageId with
      | some pm =>
        if ahas s.pendingToolCalls pm then some pm
        else if committedTC s.messages pm then some pm
        else none
      | none => none
  let pending : PendingToolCall :=
    { id := toolCallId, name := orElseStr toolCallName "unknown_tool", args := "",
      parentToolUseId := effectiveParentToolId, parentMessageId := parentMessageId,
      timestamp := timestamp }
  { s with
    pendingToolCalls := aset s.pendingToolCalls toolCallId pending,
    currentToolCall :=
      some ({ id := toolCallId, name := toolCallName, args := "",
              parentToolUseId := effectiveParentToolId }) }

/-- TOOL_CALL_ARGS branch. -/
def toolArgsStep (s : AGUIClientState) (toolCallId delta : String) : AGUIClientState :=
  let s :=
    match aget s.pendingToolCalls toolCallId with
    | some existing =>
      { s with
        pendingToolCalls :=
          aset s.pendingToolCalls toolCallId ({ existing with args := existing.args ++ delta }) }
    | none => s
  match s.currentToolCall with
  | some ctc =>
    if ctc.id == toolCallId then
      { s with currentToolCall := some ({ ctc with args := ctc.args ++ delta }) }
    else s
  | none => s

/-- Backward scan of committed messages for one whose tool-call list contains
`parentId`; appends the completed child there unless the child id already
exists (TOOL_CALL_END "search for parent tool in messages" loop). -/
def attachToParentLoop (toolCallId parentId : String) (ctc : PlatformToolCall) :
    List PlatformMessage → Option (List PlatformMessage)
  | [] => none
  | m :: rest =>
    match attachToParentLoop toolCallId parentId ctc rest with
    | some rest2 => some (m :: rest2)
    | none =>
      match m.toolCalls with
      | some tcs =>
        if tcs.any (fun tc => tc.id == parentId) then
          if tcs.any (fun tc => tc.id == toolCallId) then some (m :: rest)
          else some ({ m with toolCalls := some (tcs ++ [ctc]) } :: rest)
        else none
      | none => none

/-- Backward scan for the target assistant message (exact `parentMessageId`
match when present, else last assistant message); attaches the completed tool
call and flushes buffered children waiting on it (TOOL_CALL_END attachment
loop).  Returns the updated messages and pendingChildren. -/
def attachAssistantLoop (toolCallId : String) (ctc : PlatformToolCall)
    (pendingChildren : AList (List PlatformMessage)) (pmid : Option String) :
    List PlatformMessage → Option (List PlatformMessage × AList (List PlatformMessage))
  | [] => none
  | m :: rest =>
    match attachAssistantLoop toolCallId ctc pendingChildren pmid rest with
    | some (rest2, pc2) => some (m :: rest2, pc2)
    | none =>
      let isTarget :=
        match pmid with
        | some pm => m.id == pm
        | none => m.role == "assistant"
      if isTarget then
        let existingToolCalls := m.toolCalls.getD []
        if existingToolCalls.any (fun tc => tc.id == toolCallId) then
          some (m :: rest, pendingChildren)
        else
          let pendingForThisTool := (aget pendingChildren toolCallId).getD []
          let childToolCalls := listFlat (pendingForThisTool.map (fun c => c.toolCalls.getD []))
          let m2 := { m with toolCalls := some (existingToolCalls ++ [ctc] ++ childToolCalls) }
          let pc2 :=
            if pendingForThisTool.length > 0 then adel pendingChildren toolCallId
            else pendingChildren
          some (m2 :: rest, pc2)
      else none

/-- TOOL_CALL_END fallback attachment: target assistant message, else a
standalone tool-role message. -/
def toolEndAttachAssistant (s : AGUIClientState) (toolCallId : String)
    (completedToolCall : PlatformToolCall) (parentMessageId : Option String)
    (timestamp : String) : AGUIClientState :=
  match attachAssistantLoop toolCallId completedToolCall s.pendingChildren
      (truthy parentMessageId) s.messages with
  | some (msgs2, pc2) =>
    { s with messages := msgs2, pendingChildren := pc2, currentToolCall := none }
  | none =>
    let toolMessage : PlatformMessage :=
      { id := freshUuid s.nextUuid, role := "tool", content := "",
        toolCallId := some toolCallId, toolCalls := some [completedToolCall],
        timestamp := timestamp }
    { s with messages := s.messages ++ [toolMessage], currentToolCall := none,
             nextUuid := s.nextUuid + 1 }

/-- TOOL_CALL_END branch. -/
def toolEndStep (s : AGUIClientState) (eToolCallId timestamp : String) : AGUIClientState :=
  let idPick :=
    match truthy (some eToolCallId) with
    | some t => (t, s.nextUuid)
    | none =>
      match s.currentToolCall with
      | some ctc =>
        if ctc.id != "" then (ctc.id, s.nextUuid) else (freshUuid s.nextUuid, s.nextUuid + 1)
      | none => (freshUuid s.nextUuid, s.nextUuid + 1)
  let toolCallId := idPick.1
  let s := { s with nextUuid := idPick.2 }
  let pendingTool := aget s.pendingToolCalls toolCallId
  let toolCallName :=
    orElseStr (match pendingTool with | some p => p.name | none => "")
      (orElseStr (match s.currentToolCall with | some c => c.name | none => "") "unknown_tool")
  let toolCallArgs :=
    orElseStr (match pendingTool with | some p => p.args | none => "")
      (match s.currentToolCall with | some c => c.args | none => "")
  let parentToolUseId :=
    match truthy (pendingTool.bind (fun p => p.parentToolUseId)) with
    | some p => some p
    | none => truthy (s.currentToolCall.bind (fun c => c.parentToolUseId))
  let parentMessageId := pendingTool.bind (fun p => p.parentMessageId)
  let toolAlreadyExists := committedTC s.messages toolCallId
  if toolAlreadyExists then
    let s := { s with pendingToolCalls := adel s.pendingToolCalls toolCallId }
    match s.currentToolCall with
    | some ctc => if ctc.id == toolCallId then { s with currentToolCall := none } else s
    | none => s
  else
    let completedToolCall : PlatformToolCall :=
      { id := toolCallId, function := { name := toolCallName, arguments := toolCallArgs },
        result := none, status := some TCStatus.completed, parentToolUseId := parentToolUseId }
    let s := { s with pendingToolCalls := adel s.pendingToolCalls toolCallId }
    match parentToolUseId with
    | some parentId =>
      if ahas s.pendingToolCalls parentId then
        let childMsg : PlatformMessage :=
          { id := freshUuid s.nextUuid, role := "tool", content := "",
            toolCallId := some toolCallId, toolCalls := some [completedToolCall] }
        let pending := (aget s.pendingChildren parentId).getD []
        let s := { s with
          pendingChildren := aset s.pendingChildren parentId (pending ++ [childMsg]),
          nextUuid := s.nextUuid + 1 }
        match s.currentToolCall with
        | some ctc => if ctc.id == toolCallId then { s with currentToolCall := none } else s
        | none => s
      else
        match attachToParentLoop toolCallId parentId completedToolCall s.messages with
        | some msgs2 =>
          let s := { s with messages := msgs2 }
          match s.currentToolCall with
          | some ctc => if ctc.id == toolCallId then { s with currentToolCall := none } else s
          | none => s
        | none => toolEndAttachAssistant s toolCallId completedToolCall parentMessageId timestamp
    | none => toolEndAttachAssistant s toolCallId completedToolCall parentMessageId timestamp

/-- Sets `result` and marks a tool call `completed` (TOOL_CALL_RESULT update). -/
def updateTCResult (content : String) (tc : PlatformToolCall) : PlatformToolCall :=
  { tc with result := some content, status := some TCStatus.completed }

/-- Backward scan of committed messages for a tool call with the given id
(TOOL_CALL_RESULT "search in committed messages first" loop). -/
def resultAttachLoop (toolCallId content : String) :
    List PlatformMessage → Option (List PlatformMessage)
  | [] => none
  | m :: rest =>
    match resultAttachLoop toolCallId content rest with
    | some rest2 => some (m :: rest2)
    | none =>
      match m.toolCalls with
      | some tcs =>
        if tcs.any (fun tc => tc.id == toolCallId) then
          let tcs2 := updateFirst (fun tc => tc.id == toolCallId) (updateTCResult content) tcs
          some ({ m with toolCalls := some tcs2 } :: rest)
        else none
      | none => none

/-- Forward scan of one buffered-children list (TOOL_CALL_RESULT inner loop). -/
def resultChildUpdate (toolCallId content : String) :
    List PlatformMessage → Option (List PlatformMessage)
  | [] => none
  | c :: cs =>
    match c.toolCalls with
    | some tcs =>
      if tcs.any (fun tc => tc.id == toolCallId) then
        let tcs2 := updateFirst (fun tc => tc.id == toolCallId) (updateTCResult content) tcs
        some ({ c with toolCalls := some tcs2 } :: cs)
      else
        match resultChildUpdate toolCallId content cs with
        | some cs2 => some (c :: cs2)
        | none => none
    | none =>
      match resultChildUpdate toolCallId content cs with
      | some cs2 => some (c :: cs2)
      | none => none

/-- Forward scan of the pendingChildren map in insertion order
(TOOL_CALL_RESULT "search in pendingChildren" loop). -/
def resultChildLoop (toolCallId content : String) :
    AList (List PlatformMessage) → Option (AList (List PlatformMessage))
  | [] => none
  | (k, children) :: rest =>
    match resultChildUpdate toolCallId content children with
    | some children2 => some ((k, children2) :: rest)
    | none =>
      match resultChildLoop toolCallId content rest with
      | some rest2 => some ((k, children) :: rest2)
      | none => none

/-- TOOL_CALL_RESULT branch: committed messages first, then buffered children,
else a soft no-op. -/
def toolResultStep (s : AGUIClientState) (toolCallId content : String) : AGUIClientState :=
  if toolCallId != "" then
    match resultAttachLoop toolCallId content s.messages with
    | some msgs2 => { s with messages := msgs2 }
    | none =>
      if s.pendingChildren.length > 0 then
        match resultChildLoop toolCallId content s.pendingChildren with
        | some pc2 => { s with pendingChildren := pc2 }
        | none => s
      else s
  else s

/-- STATE_DELTA branch. -/
def stateDeltaStep (s : AGUIClientState) (patches : List StatePatch) : AGUIClientState :=
  let st := patches.foldl (fun st patch =>
    let key := if patch.path.startsWith "/" then patch.path.drop 1 else patch.path
    if patch.op == "add" || patch.op == "replace" then aset st key patch.value
    else if patch.op == "remove" then adel st key
    else st) s.state
  { s with state := st }

/-- ACTIVITY_SNAPSHOT branch. -/
def activitySnapshotStep (s : AGUIClientState) (activities : Option (List PlatformActivity)) :
    AGUIClientState :=
  match activities with
  | some a => { s with activities := a }
  | none => s

/-- ACTIVITY_DELTA branch. -/
def activityDeltaStep (s : AGUIClientState) (patches : List PlatformActivityPatch) :
    AGUIClientState :=
  let acts := patches.foldl (fun acts patch =>
    if patch.op == "add" then acts ++ [patch.activity]
    else if patch.op == "update" then
      if acts.any (fun a => a.id == patch.activity.id) then
        updateFirst (fun a => a.id == patch.activity.id) (fun _ => patch.activity) acts
      else acts
    else if patch.op == "remove" then removeFirst (fun a => a.id == patch.activity.id) acts
    else acts) s.activities
  { s with activities := acts }

/-- STEP_STARTED branch. -/
def stepStartedStep (s : AGUIClientState) (stepName : String) : AGUIClientState :=
  { s with state := aset s.state "currentStep" (StVal.step stepName stepName "running") }

/-- STEP_FINISHED branch. -/
def stepFinishedStep (s : AGUIClientState) : AGUIClientState :=
  { s with state := adel s.state "currentStep" }

/-- RAW branch: message metadata (hidden ids), trace ids, thinking blocks,
user echoes and generic embedded messages. -/
def rawStep (s : AGUIClientState) (data : Option RawData) (timestamp : String) :
    AGUIClientState :=
  match data with
  | none => s
  | some rd =>
    if rd.rtype == some "message_metadata" && rd.hidden then
      match truthy rd.messageId with
      | some mid =>
        { s with
          hiddenMessageIds :=
            if s.hiddenMessageIds.contains mid then s.hiddenMessageIds
            else s.hiddenMessageIds ++ [mid],
          messages := s.messages.filter (fun m => m.id != mid) }
      | none => s
    else if rd.rtype == some "langfuse_trace" && (truthy rd.traceId).isSome then
      s
    else if rd.rtype == some "thinking_block" then
      let msg : PlatformMessage :=
        { id := freshUuid s.nextUuid, role := "assistant", content := rd.thinking.getD "",
          timestamp := timestamp }
      { s with messages := s.messages ++ [msg], nextUuid := s.nextUuid + 1 }
    else
      match rd.role, truthy rd.content with
      | some "user", some c =>
        let idPick :=
          match truthy rd.id with
          | some i => (i, s.nextUuid)
          | none => (freshUuid s.nextUuid, s.nextUuid + 1)
        if s.messages.any (fun m => m.id == idPick.1) ||
            s.hiddenMessageIds.contains idPick.1 then
          { s with nextUuid := idPick.2 }
        else
          { s with
            messages := s.messages ++
              [{ id := idPick.1, role := "user", content := c, timestamp := timestamp }],
            nextUuid := idPick.2 }
      | some r, some c =>
        if r != "" then
          let idPick :=
            match truthy rd.id with
            | some i => (i, s.nextUuid)
            | none => (freshUuid s.nextUuid, s.nextUuid + 1)
          { s with
            messages := s.messages ++
              [{ id := idPick.1, role := r, content := c, timestamp := timestamp }],
            nextUuid := idPick.2 }
        else s
      | _, _ => s

/-- META branch: thumbs_up / thumbs_down feedback. -/
def metaStep (s : AGUIClientState) (metaType : String) (messageId : Option String) :
    AGUIClientState :=
  match truthy messageId with
  | some mid =>
    if metaType == "thumbs_up" || metaType == "thumbs_down" then
      { s with messageFeedback := aset s.messageFeedback mid metaType }
    else s
  | none => s

/-! ## Snapshot normalization (`normalizeSnapshotMessages`) -/

/-- Step 1: collect parent tool call ids from assistant messages. -/
def collectParentToolCallIds (messages : List PlatformMessage) : List String :=
  listFlat (messages.map (fun m =>
    if m.role == "assistant" then
      (m.toolCalls.getD []).filterMap (fun tc => if tc.id != "" then some tc.id else none)
    else []))

/-- Step 2: map each parent tool call id to the index of its result message. -/
def buildParentResultIndex (parentIds : List String) (messages : List PlatformMessage) :
    AList Nat :=
  messages.enum.foldl (fun acc p =>
    match truthy p.2.toolCallId with
    | some t => if p.2.role == "tool" && parentIds.contains t then aset acc t p.1 else acc
    | none => acc) []

/-- One iteration of the step-3 nesting loop at index `i`. -/
def normStep (parentIds : List String) (pri : AList Nat)
    (acc : List PlatformMessage × List Nat) (i : Nat) : List PlatformMessage × List Nat :=
  let msgs := acc.1
  let removed := acc.2
  match msgs[i]? with
  | none => acc
  | some m =>
    if m.role == "tool" then
      match truthy m.toolCallId with
      | some tcid =>
        if parentIds.contains tcid then
          if msgs.any (fun am =>
              am.role == "assistant" && (am.toolCalls.getD []).any (fun tc => tc.id == tcid)) then
            let msgs2 := updateFirst
              (fun am =>
                am.role == "assistant" && (am.toolCalls.getD []).any (fun tc => tc.id == tcid))
              (fun am =>
                let tcs2 := updateFirst (fun tc => tc.id == tcid)
                  (fun tc =>
                    { tc with
                      result := some m.content,
                      status := if tc.status.isNone then some TCStatus.completed else tc.status })
                  (am.toolCalls.getD [])
                { am with toolCalls := some tcs2 })
              msgs
            (msgs2, removed ++ [i])
          else (msgs, removed)
        else
          let best := pri.foldl (fun (b : Option (String × Nat)) p =>
            if p.2 > i && (match b with | some q => decide (p.2 < q.2) | none => true) then some p
            else b) none
          match best with
          | none => (msgs, removed)
          | some bp =>
            let bestParentId := bp.1
            let isAfterAssistant := (msgs.take i).any (fun am =>
              am.role == "assistant" &&
              (am.toolCalls.getD []).any (fun tc => tc.id == bestParentId))
            if isAfterAssistant then
              if msgs.any (fun am =>
                  am.role == "assistant" &&
                  (am.toolCalls.getD []).any (fun tc => tc.id == bestParentId)) then
                let msgs2 := updateFirst
                  (fun am =>
                    am.role == "assistant" &&
                    (am.toolCalls.getD []).any (fun tc => tc.id == bestParentId))
                  (fun am =>
                    let tcs := am.toolCalls.getD []
                    if tcs.any (fun tc => tc.id == tcid) then am
                    else
                      let child : PlatformToolCall :=
                        { id := tcid,
                          function := { name := orElseStr (m.name.getD "") "tool",
                                        arguments := "" },
                          result := some m.content, status := some TCStatus.completed,
                          parentToolUseId := some bestParentId }
                      { am with toolCalls := some (tcs ++ [child]) })
                  msgs
                (msgs2, removed ++ [i])
              else (msgs, removed)
            else (msgs, removed)
      | none => (msgs, removed)
    else (msgs, removed)

/-- `normalizeSnapshotMessages`: nests flat child tool-result messages under
their parent tool calls so snapshot-restored sessions match live-streamed ones. -/
def normalizeSnapshotMessages (snapshotMessages : List PlatformMessage) :
    List PlatformMessage :=
  let messages := snapshotMessages
  let parentIds := collectParentToolCallIds messages
  if parentIds.isEmpty then messages
  else
    let pri := buildParentResultIndex parentIds messages
    let res := (List.range messages.length).foldl (normStep parentIds pri) (messages, [])
    (res.1.enum.filter (fun p => !(res.2.contains p.1))).map (fun p => p.2)

/-! ## Snapshot merge (MESSAGES_SNAPSHOT branch) -/

/-- Merge one snapshot tool call with its streamed counterpart, preferring
streamed names/arguments over generic snapshot placeholders and keeping
`parentToolUseId` from whichever side has it. -/
def mergeTCUpdate (existingTC snapshotTC : PlatformToolCall) : PlatformToolCall :=
  let snapshotTC :=
    if existingTC.function.name != "" && existingTC.function.name != "tool" &&
        (snapshotTC.function.name == "" || snapshotTC.function.name == "tool") then
      { snapshotTC with function := { snapshotTC.function with name := existingTC.function.name } }
    else snapshotTC
  let snapshotTC :=
    if existingTC.function.arguments != "" && snapshotTC.function.arguments == "" then
      { snapshotTC with function :=
          { snapshotTC.function with arguments := existingTC.function.arguments } }
    else snapshotTC
  if (truthy existingTC.parentToolUseId).isSome && (truthy snapshotTC.parentToolUseId).isNone then
    { snapshotTC with parentToolUseId := existingTC.parentToolUseId }
  else snapshotTC

/-- Merge tool-call arrays of an assistant message (snapshot copy as base,
streamed entries merged in / appended). -/
def mergeToolCalls (snapshotTCs existingTCs : List PlatformToolCall) :
    List PlatformToolCall :=
  existingTCs.foldl (fun acc existingTC =>
    if acc.any (fun tc => tc.id == existingTC.id) then
      updateFirst (fun tc => tc.id == existingTC.id) (fun tc => mergeTCUpdate existingTC tc) acc
    else acc ++ [existingTC]) snapshotTCs

/-- `new Map(normalizedMessages.map(m => [m.id, m]))`. -/
def buildSnapshotMap (msgs : List PlatformMessage) : AList PlatformMessage :=
  msgs.foldl (fun acc m => aset acc m.id m) []

/-- Update existing messages in place with their snapshot versions. -/
def mergeExisting (snapshotMap : AList PlatformMessage) (messages : List PlatformMessage) :
    List PlatformMessage :=
  messages.map (fun msg =>
    match aget snapshotMap msg.id with
    | none => msg
    | some snapshotVersion =>
      if msg.role == "assistant" && !(msg.toolCalls.getD []).isEmpty &&
          !(snapshotVersion.toolCalls.getD []).isEmpty then
        { snapshotVersion with
          toolCalls :=
            some (mergeToolCalls (snapshotVersion.toolCalls.getD []) (msg.toolCalls.getD [])) }
      else snapshotVersion)

/-- Insert new snapshot messages before the next already-known snapshot
message, else append (MESSAGES_SNAPSHOT insertion loop). -/
def mergeInsert : List PlatformMessage → List PlatformMessage → List String →
    List PlatformMessage
  | [], merged, _ => merged
  | m :: rest, merged, ids =>
    if ids.contains m.id then mergeInsert rest merged ids
    else
      let merged2 :=
        match rest.find? (fun n => ids.contains n.id) with
        | some n =>
          match merged.findIdx? (fun x => x.id == n.id) with
          | some idx => spliceAt merged idx m
          | none => merged ++ [m]
        | none => merged ++ [m]
      mergeInsert rest merged2 (ids ++ [m.id])

/-- Recover non-placeholder tool names from standalone tool messages and the
pending-tool-call map. -/
def buildToolNameMap (merged : List PlatformMessage)
    (pendingToolCalls : AList PendingToolCall) : AList String :=
  let m1 := merged.foldl (fun acc msg =>
    if msg.role == "tool" then
      (msg.toolCalls.getD []).foldl (fun acc tc =>
        if tc.id != "" && tc.function.name != "" && tc.function.name != "tool" &&
            tc.function.name != "unknown_tool" then
          aset acc tc.id tc.function.name
        else acc) acc
    else acc) []
  pendingToolCalls.foldl (fun acc p =>
    if p.2.name != "" && p.2.name != "tool" && p.2.name != "unknown_tool" then
      aset acc p.1 p.2.name
    else acc) m1

/-- Apply recovered names to placeholder-named nested tool calls. -/
def applyToolNames (toolNameMap : AList String) (merged : List PlatformMessage) :
    List PlatformMessage :=
  merged.map (fun msg =>
    if msg.role == "assistant" then
      match msg.toolCalls with
      | some tcs =>
        { msg with toolCalls := some (tcs.map (fun tc =>
            if tc.function.name == "" || tc.function.name == "tool" ||
                tc.function.name == "unknown_tool" then
              match aget toolNameMap tc.id with
              | some nm => { tc with function := { tc.function with name := nm } }
              | none => tc
            else tc)) }
      | none => msg
    else msg)

/-- All tool call ids nested inside assistant messages. -/
def collectNestedToolCallIds (merged : List PlatformMessage) : List String :=
  listFlat (merged.map (fun msg =>
    if msg.role == "assistant" then (msg.toolCalls.getD []).map (fun tc => tc.id) else []))

/-- Drop standalone tool-role messages whose tool call is now nested. -/
def dropRedundantToolMessages (merged : List PlatformMessage) : List PlatformMessage :=
  let nested := collectNestedToolCallIds merged
  merged.filter (fun msg =>
    if msg.role != "tool" then true
    else if (match truthy msg.toolCallId with
             | some t => nested.contains t
             | none => false) then false
    else if (msg.toolCalls.getD []).any (fun tc => nested.contains tc.id) then false
    else true)

/-- MESSAGES_SNAPSHOT branch: hidden filter, normalization, in-place merge,
positional insertion, name recovery, redundant-message cleanup, and
buffered-children reset. -/
def messagesSnapshotStep (s : AGUIClientState) (snapshotMsgs : List PlatformMessage) :
    AGUIClientState :=
  let visibleMessages := snapshotMsgs.filter (fun m => !(s.hiddenMessageIds.contains m.id))
  let normalizedMessages := normalizeSnapshotMessages visibleMessages
  let snapshotMap := buildSnapshotMap normalizedMessages
  let existingIds := s.messages.map (fun m => m.id)
  let merged := mergeExisting snapshotMap s.messages
  let merged := mergeInsert normalizedMessages merged existingIds
  let toolNameMap := buildToolNameMap merged s.pendingToolCalls
  let merged := applyToolNames toolNameMap merged
  { s with messages := dropRedundantToolMessages merged, pendingChildren := [] }

/-! ## The reducer -/

/-- `processEvent`: the conversation reducer, one normalized event at a time.
The final `unknown` case is the reducer's default branch. -/
def processEvent (s : AGUIClientState) (event : Event) : AGUIClientState :=
  match event with
  | .runStarted threadId runId _ts => runStartedStep s threadId runId
  | .runFinished _runId ts => runFinishedStep s ts
  | .runError msg => runErrorStep s msg
  | .textStart mid role ts => textStartStep s mid role ts
  | .textContent delta => textContentStep s delta
  | .textEnd ts => textEndStep s ts
  | .toolStart id nm pm ptc ts => toolStartStep s id nm pm ptc ts
  | .toolArgs id delta => toolArgsStep s id delta
  | .toolEnd id ts => toolEndStep s id ts
  | .toolResult id content => toolResultStep s id content
  | .stateSnapshot snap => { s with state := snap }
  | .stateDelta patches => stateDeltaStep s patches
  | .messagesSnapshot msgs => messagesSnapshotStep s msgs
  | .activitySnapshot acts => activitySnapshotStep s acts
  | .activityDelta patches => activityDeltaStep s patches
  | .stepStarted nm => stepStartedStep s nm
  | .stepFinished => stepFinishedStep s
  | .raw data ts => rawStep s data ts
  | .meta mt mid => metaStep s mt mid
  | .unknown _ => s

/-- Folding a whole event sequence through the reducer. -/
def processEvents (s : AGUIClientState) (events : List Event) : AGUIClientState :=
  events.foldl processEvent s

/-! ## Channel manager backoff (`connect` in `use-agui-stream.ts`) -/

/-- `BASE_RECONNECT_DELAY = 1000` (1 second base). -/
def BASE_RECONNECT_DELAY : Nat := 1000

/-- `MAX_RECONNECT_DELAY = 30000` (30 seconds cap). -/
def MAX_RECONNECT_DELAY : Nat := 30000

/-- `eventSource.onerror`: increment the attempt counter and compute the
scheduled reconnect delay `min(base * 2^(attempt-1), cap)`. -/
def onErrorStep (attempts : Nat) : Nat × Nat :=
  let a := attempts + 1
  (a, min (BASE_RECONNECT_DELAY * 2 ^ (a - 1)) MAX_RECONNECT_DELAY)

/-- `eventSource.onopen`: reset the attempt counter. -/
def onOpenStep (_attempts : Nat) : Nat := 0

/-- The delays scheduled by `n` consecutive transport errors with no
intervening successful open, starting from a given attempt counter. -/
def delaysFrom (attempts : Nat) : Nat → List Nat
  | 0 => []
  | n + 1 =>
    let r := onErrorStep attempts
    r.2 :: delaysFrom r.1 n

/-! ## Run controller (`sendMessage`) -/

/-- The synchronous optimistic insertion performed by `sendMessage` before any
network round-trip: appends a user message with a client-generated id and an
immediate timestamp, marking the conversation connected. -/
def sendMessageOptimistic (s : AGUIClientState) (content uuid timestamp : String) :
    AGUIClientState :=
  { s with status := ConnStatus.connected, error := none,
           messages := s.messages ++
             [{ id := uuid, role := "user", content := content, timestamp := timestamp }] }

/-! ## Observation functions used in the statements -/

/-- The first tool-call entry with the given id across all committed messages. -/
def findTC (msgs : List PlatformMessage) (tcid : String) : Option PlatformToolCall :=
  (listFlat (msgs.map (fun m => m.toolCalls.getD []))).find? (fun tc => tc.id == tcid)

/-- How many tool-call entries with the given id exist across all messages. -/
def countTC (msgs : List PlatformMessage) (tcid : String) : Nat :=
  ((listFlat (msgs.map (fun m => m.toolCalls.getD []))).filter (fun tc => tc.id == tcid)).length

/-- How many tool-call entries with the given id and `parentToolUseId` exist. -/
def countTCP (msgs : List PlatformMessage) (tcid pid : String) : Nat :=
  ((listFlat (msgs.map (fun m => m.toolCalls.getD []))).filter
    (fun tc => tc.id == tcid && tc.parentToolUseId == some pid)).length

/-- Does any buffered-children entry contain a tool call with this id? -/
def pcHasTC (pc : AList (List PlatformMessage)) (tcid : String) : Bool :=
  pc.any (fun p => p.2.any (fun c => (c.toolCalls.getD []).any (fun tc => tc.id == tcid)))

/-- The first tool-call entry with the given id inside the buffered children. -/
def pcFindTC (pc : AList (List PlatformMessage)) (tcid : String) : Option PlatformToolCall :=
  (listFlat (pc.map (fun p => listFlat (p.2.map (fun c => c.toolCalls.getD []))))).find?
    (fun tc => tc.id == tcid)

/-- Is some tool call with this id committed with status pending or running? -/
def hasPendRunTC (msgs : List PlatformMessage) (tcid : String) : Bool :=
  msgs.any (fun m => (m.toolCalls.getD []).any (fun tc =>
    tc.id == tcid && (tc.status == some TCStatus.pending || tc.status == some TCStatus.running)))

/-- Every tool call buffered in `pendingChildren` carries status `completed`
(an invariant of all states reachable from `initialState`). -/
def pcCompletedInv (s : AGUIClientState) : Bool :=
  s.pendingChildren.all (fun p => p.2.all (fun c =>
    (c.toolCalls.getD []).all (fun tc => tc.status == some TCStatus.completed)))

/-- Event-kind discriminator for the MESSAGES_SNAPSHOT branch. -/
def isMsgsSnapshot : Event → Bool
  | .messagesSnapshot _ => true
  | _ => false

/-- Index of the first message with the given id. -/
def idxOfId (msgs : List PlatformMessage) (i : String) : Option Nat :=
  msgs.findIdx? (fun m => m.id == i)

/-- The C4 ordering claim, as stated, instantiated at one state and one
snapshot: no message already present in the state ends up positioned after a
message that was absent from the state and appears earlier in the snapshot
order. -/
def c4ClaimHolds (s : AGUIClientState) (snap : List PlatformMessage) : Bool :=
  let r := processEvent s (Event.messagesSnapshot snap)
  s.messages.all (fun o =>
    snap.all (fun n =>
      if s.messages.any (fun m => m.id == n.id) then true
      else
        match idxOfId snap n.id, idxOfId snap o.id,
            idxOfId r.messages n.id, idxOfId r.messages o.id with
        | some ni, some oi, some nri, some ori => !(decide (ni < oi) && decide (nri < ori))
        | _, _, _, _ => true))

/-! ## Association-list lemmas -/

theorem aget_nil {α : Type} (k : String) : aget ([] : AList α) k = none := rfl

theorem ahas_eq_false_iff {α : Type} (m : AList α) (k : String) :
    ahas m k = false ↔ ∀ p ∈ m, p.1 ≠ k := by
  simp [ahas]

theorem aget_cons {α : Type} (p : String × α) (rest : AList α) (k : String) :
    aget (p :: rest) k = if p.1 = k then some p.2 else aget rest k := by
  by_cases h : p.1 = k
  · simp [aget, List.find?_cons_of_pos _ (show ((fun q : String × α => q.1 == k) p) by simp [h]), h]
  · simp [aget, List.find?_cons_of_neg _ (show ¬ ((fun q : String × α => q.1 == k) p) by simp [h]), h]

theorem ahas_cons {α : Type} (p : String × α) (rest : AList α) (k : String) :
    ahas (p :: rest) k = (p.1 == k || ahas rest k) := by
  simp [ahas]

theorem adel_cons {α : Type} (p : String × α) (rest : AList α) (k : String) :
    adel (p :: rest) k = if p.1 = k then adel rest k else p :: adel rest k := by
  by_cases h : p.1 = k <;> simp [adel, List.filter_cons, h]

theorem aget_eq_none_of_ahas_false {α : Type} {m : AList α} {k : String}
    (h : ahas m k = false) : aget m k = none := by
  rw [ahas_eq_false_iff] at h
  simp only [aget, Option.map_eq_none']
  rw [List.find?_eq_none]
  intro p hp
  simpa using h p hp

theorem aget_map_set {α : Type} (m : AList α) (k k2 : String) (v : α) :
    aget (m.map fun p => if p.1 == k2 then (k2, v) else p) k =
      (if k = k2 then (if ahas m k2 then some v else none) else aget m k) := by
  induction m with
  | nil => by_cases hk : k = k2 <;> simp [aget, ahas, hk]
  | cons p rest ih =>
    by_cases hp : p.1 = k2
    · by_cases hk : k = k2
      · subst hk
        simp [hp, aget_cons, ahas_cons]
      · have hpk : ¬ p.1 = k := by rw [hp]; exact Ne.symm hk
        simp only [List.map_cons, hp, if_true, beq_self_eq_true]
        rw [aget_cons, if_neg (show ¬ (k2, v).1 = k from fun hh => hk hh.symm), ih]
        simp [hk, aget_cons, hpk]
    · simp only [List.map_cons, show (p.1 == k2) = false by simp [hp], Bool.false_eq_true,
        if_false]
      rw [aget_cons]
      by_cases hpk : p.1 = k
      · have hkk : ¬ k = k2 := by rw [← hpk]; exact hp
        simp [hpk, hkk, aget_cons]
      · rw [if_neg hpk, ih]
        by_cases hkk : k = k2
        · subst hkk
          simp [ahas_cons, show (p.1 == k) = false by simp [hpk]]
        · simp [hkk, aget_cons, hpk]

theorem aget_aset_self {α : Type} (m : AList α) (k : String) (v : α) :
    aget (aset m k v) k = some v := by
  unfold aset
  split
  · rename_i h
    rw [aget_map_set]
    simp [h]
  · rename_i h
    have hnone : aget m k = none := aget_eq_none_of_ahas_false (by simpa using h)
    simp only [aget] at hnone ⊢
    rw [List.find?_append]
    have hfm : List.find? (fun p => p.1 == k) m = none := by
      cases hx : List.find? (fun p => p.1 == k) m
      · rfl
      · rw [hx] at hnone; simp at hnone
    simp [hfm, List.find?]

theorem aget_aset_ne {α : Type} (m : AList α) (k k2 : String) (v : α) (h : k ≠ k2) :
    aget (aset m k2 v) k = aget m k := by
  unfold aset
  split
  · rw [aget_map_set]
    simp [h]
  · simp only [aget]
    rw [List.find?_append]
    have hc : ((k2, v).1 == k) = false := by simp [Ne.symm h]
    have hone : List.find? (fun p => p.1 == k) [(k2, v)] = none := by
      simp [List.find?, hc]
    rw [hone]
    cases List.find? (fun p => p.1 == k) m <;> simp

theorem aget_adel_self {α : Type} (m : AList α) (k : String) :
    aget (adel m k) k = none := by
  simp only [aget, adel, Option.map_eq_none']
  rw [List.find?_eq_none]
  intro p hp
  rcases List.mem_filter.mp hp with ⟨_, hne⟩
  simpa using hne

theorem aget_adel_ne {α : Type} (m : AList α) (k k2 : String) (h : k ≠ k2) :
    aget (adel m k2) k = aget m k := by
  induction m with
  | nil => rfl
  | cons p rest ih =>
    rw [adel_cons]
    by_cases hp : p.1 = k2
    · have hpk : ¬ p.1 = k := by rw [hp]; exact Ne.symm h
      rw [if_pos hp, ih, aget_cons, if_neg hpk]
    · rw [if_neg hp, aget_cons, aget_cons, ih]

theorem adel_of_aget_none {α : Type} {m : AList α} {k : String}
    (h : aget m k = none) : adel m k = m := by
  simp only [aget, Option.map_eq_none'] at h
  rw [List.find?_eq_none] at h
  apply List.filter_eq_self.mpr
  intro p hp
  simpa using h p hp

theorem adel_map_set {α : Type} (m : AList α) (k : String) (v : α) :
    adel (m.map fun p => if p.1 == k then (k, v) else p) k = adel m k := by
  induction m with
  | nil => rfl
  | cons p rest ih =>
    by_cases hp : p.1 = k
    · simp only [List.map_cons, show (p.1 == k) = true by simp [hp], if_true]
      rw [adel_cons, adel_cons, if_pos rfl, if_pos hp]
      exact ih
    · simp only [List.map_cons, show (p.1 == k) = false by simp [hp], Bool.false_eq_true,
        if_false]
      rw [adel_cons, adel_cons, if_neg hp, if_neg hp, ih]

theorem adel_aset_self {α : Type} (m : AList α) (k : String) (v : α) :
    adel (aset m k v) k = adel m k := by
  unfold aset
  split
  · exact adel_map_set m k v
  · rw [show adel (m ++ [(k, v)]) k = adel m k ++ adel [(k, v)] k from List.filter_append _ _]
    rw [show adel [(k, v)] k = [] by simp [adel]]
    simp

theorem ahas_map_set {α : Type} (m : AList α) (k k2 : String) (v : α) :
    ahas (m.map fun p => if p.1 == k2 then (k2, v) else p) k = ahas m k := by
  induction m with
  | nil => rfl
  | cons p rest ih =>
    by_cases hp : p.1 = k2
    · simp only [List.map_cons, show (p.1 == k2) = true by simp [hp], if_true, ahas_cons, ih]
      rw [hp]
    · simp only [List.map_cons, show (p.1 == k2) = false by simp [hp], Bool.false_eq_true,
        if_false, ahas_cons, ih]

theorem ahas_aset {α : Type} (m : AList α) (k k2 : String) (v : α) :
    ahas (aset m k2 v) k = ((k == k2) || ahas m k) := by
  unfold aset
  split
  · rename_i h
    rw [ahas_map_set]
    by_cases hk : k = k2
    · subst hk
      simp [h]
    · simp [hk]
  · simp only [ahas, List.any_append, List.any_cons, List.any_nil, Bool.or_false]
    by_cases hk : k = k2
    · subst hk; simp
    · simp only [show ((k2, v).1 == k) = false by simp [Ne.symm hk], Bool.or_false,
        show (k == k2) = false by simp [hk], Bool.false_or]

theorem ahas_adel {α : Type} (m : AList α) (k k2 : String) :
    ahas (adel m k2) k = (!(k == k2) && ahas m k) := by
  induction m with
  | nil => simp [adel, ahas]
  | cons p rest ih =>
    rw [adel_cons]
    by_cases hp : p.1 = k2
    · rw [if_pos hp, ih, ahas_cons]
      by_cases hk : k = k2
      · simp [hk]
      · have : (p.1 == k) = false := by rw [hp]; simp [Ne.symm hk]
        simp [this]
    · rw [if_neg hp, ahas_cons, ahas_cons, ih]
      by_cases hpk : p.1 = k
      · have hk2 : ¬ k = k2 := by rw [← hpk]; exact hp
        simp [hpk, hk2]
      · simp [show (p.1 == k) = false by simp [hpk]]

/-! ## Backoff lemma -/

theorem delaysFrom_getElem (n a k : Nat) (h : k < n) :
    (delaysFrom a n)[k]? =
      some (min (BASE_RECONNECT_DELAY * 2 ^ (a + k)) MAX_RECONNECT_DELAY) := by
  induction n generalizing a k with
  | zero => omega
  | succ n ih =>
    cases k with
    | zero => simp [delaysFrom, onErrorStep]
    | succ k =>
      have h2 : k < n := by omega
      simp only [delaysFrom, onErrorStep, List.getElem?_cons_succ]
      rw [show a + (k + 1) = a + 1 + k by omega]
      exact ih (a + 1) k h2

/-! ## Claim C5 -/

/-- C5: for consecutive transport errors with no intervening successful open
starting from a reset attempt counter, the n-th scheduled reconnect delay is
`min(1000 * 2^(n-1), 30000)` milliseconds; three consecutive errors yield
exactly 1000ms, 2000ms, 4000ms; and a successful open resets the counter to
zero, so the next error again yields 1000ms. -/
theorem c5_backoff_sequence (n : Nat) (h : 1 ≤ n) :
    (delaysFrom 0 n)[n - 1]? =
      some (min (BASE_RECONNECT_DELAY * 2 ^ (n - 1)) MAX_RECONNECT_DELAY) ∧
    delaysFrom 0 3 = [1000, 2000, 4000] ∧
    (∀ a, onOpenStep a = 0 ∧ delaysFrom (onOpenStep a) 1 = [1000]) := by
  refine ⟨?_, by decide, fun a => ⟨rfl, rfl⟩⟩
  have hk : n - 1 < n := by omega
  simpa using delaysFrom_getElem n 0 (n - 1) hk

/-- Witness for C5 at n = 3. -/
theorem c5_witness :
    (delaysFrom 0 3)[3 - 1]? =
      some (min (BASE_RECONNECT_DELAY * 2 ^ (3 - 1)) MAX_RECONNECT_DELAY) ∧
    delaysFrom 0 3 = [1000, 2000, 4000] ∧
    (∀ a, onOpenStep a = 0 ∧ delaysFrom (onOpenStep a) 1 = [1000]) :=
  c5_backoff_sequence 3 (by decide)

/-! ## Claim C8 -/

/-- C8: an event whose type matches none of the handled event kinds reaches
the reducer's default branch, which returns a state equal to the previous
state in every field (messages, activities, state, pendingToolCalls,
pendingChildren, currentMessage, feedback, status, error). -/
theorem c8_unknown_event_preserves_state (s : AGUIClientState) (tag : String) :
    processEvent s (Event.unknown tag) = s := rfl

/-! ## Claim C9 -/

/-- C9: when `currentMessage` is null or its accumulated content is empty, a
text-end event commits nothing: the state is unchanged except that
`currentMessage` is null afterwards; in particular the messages list is
untouched. -/
theorem c9_textEnd_empty_noop (s : AGUIClientState) (ts : String)
    (h : s.currentMessage = none ∨ ∃ cm, s.currentMessage = some cm ∧ cm.content = "") :
    processEvent s (Event.textEnd ts) = { s with currentMessage := none } := by
  rcases h with h | ⟨cm, hcm, hc⟩
  · simp [processEvent, textEndStep, h]
  · simp [processEvent, textEndStep, hcm, hc]

/-- Witness for C9 at the initial state (whose `currentMessage` is null). -/
theorem c9_witness :
    processEvent initialState (Event.textEnd "t") =
      { initialState with currentMessage := none } :=
  c9_textEnd_empty_noop initialState "t" (Or.inl rfl)

/-! ## Counterexamples for C1-C4 -/

/-- C1 counterexample: when the first tool-end application buffered the child
into `pendingChildren` (parent still pending), re-applying the same tool-end
event is NOT a no-op: the duplicate-delivery check only consults committed
messages, so the second application commits a duplicate standalone copy of the
tool call. -/
theorem c1_counterexample :
    (let s1 := processEvents initialState
       [Event.toolStart "P" "parent_tool" none none "t0",
        Event.toolStart "C" "child_tool" none (some "P") "t1",
        Event.toolEnd "C" "t2"]
     processEvent s1 (Event.toolEnd "C" "t3") ≠ s1) := by decide

/-- C2 counterexample: a sequence of two messages-snapshot events from the
initial state drives tool call `t1` from status `completed` back to `pending`:
the second snapshot carries a regressed status for `t1`, and the in-place merge
adopts the snapshot's status (it only preserves streamed names and arguments). -/
theorem c2_counterexample :
    (let s1 := processEvent initialState (Event.messagesSnapshot
       [{ id := "m1", role := "assistant", content := "",
          toolCalls := some [{ id := "t1", function := { name := "search", arguments := "" } }] },
        { id := "r1", role := "tool", content := "res", toolCallId := some "t1" }])
     let s2 := processEvent s1 (Event.messagesSnapshot
       [{ id := "m1", role := "assistant", content := "",
          toolCalls := some [{ id := "t1", function := { name := "search", arguments := "" },
                               status := some TCStatus.pending }] }])
     (findTC s1.messages "t1").map (fun tc => tc.status) = some (some TCStatus.completed) ∧
     (findTC s2.messages "t1").map (fun tc => tc.status) = some (some TCStatus.pending)) := by
  decide

/-- C3 counterexample: in a conversation state with no assistant message (e.g.
the initial state), the sequence tool-start(P), tool-start(C, parent=P),
tool-end(C) [buffered], tool-end(P) commits P as a standalone tool message via
the fallback path, which does not flush buffered children: C appears zero
times in the resulting messages and stays buffered in `pendingChildren`. -/
theorem c3_counterexample :
    (let sf := processEvents initialState
       [Event.toolStart "P" "parent_tool" none none "t0",
        Event.toolStart "C" "child_tool" none (some "P") "t1",
        Event.toolEnd "C" "t2", Event.toolEnd "P" "t3"]
     countTCP sf.messages "C" "P" = 0 ∧ pcHasTC sf.pendingChildren "C" = true) := by decide

/-- C4 counterexample: merging the snapshot [N(user), O(assistant)] into a
state that already contains O places the previously-known message O after the
previously-unknown message N, which appears earlier in the snapshot order —
exactly what the claim says never happens (and exactly the behavior the
insertion rule is designed to produce for late user echoes). -/
theorem c4_counterexample :
    c4ClaimHolds { initialState with
        messages := [{ id := "O", role := "assistant", content := "reply" }] }
      [{ id := "N", role := "user", content := "hi" },
       { id := "O", role := "assistant", content := "reply" }] = false := by decide

/-! ## Claim C1 -/

theorem textEnd_cm_none (s : AGUIClientState) (ts : String) :
    (textEndStep s ts).currentMessage = none := by
  unfold textEndStep
  repeat' (first | dsimp only | split)

theorem textEnd_of_cm_none (s : AGUIClientState) (ts : String) (h : s.currentMessage = none) :
    textEndStep s ts = s := by
  unfold textEndStep
  rw [h]
  cases s
  simp_all

theorem toolEnd_pendingToolCalls (s : AGUIClientState) (id ts : String) (h : id ≠ "") :
    (toolEndStep s id ts).pendingToolCalls = adel s.pendingToolCalls id := by
  have htr : truthy (some id) = some id := by simp [truthy, h]
  unfold toolEndStep toolEndAttachAssistant
  rw [htr]
  repeat' (first | dsimp only | split)

theorem toolEnd_ctc (s : AGUIClientState) (id ts : String) (h : id ≠ "") :
    ∀ c, (toolEndStep s id ts).currentToolCall = some c → c.id ≠ id := by
  have htr : truthy (some id) = some id := by simp [truthy, h]
  unfold toolEndStep toolEndAttachAssistant
  rw [htr]
  intro c
  repeat' (first | dsimp only | split)
  all_goals intro hc
  all_goals simp_all

theorem toolEnd_noop (s : AGUIClientState) (id ts : String) (hid : id ≠ "")
    (h1 : committedTC s.messages id = true)
    (h2 : aget s.pendingToolCalls id = none)
    (h3 : ∀ c, s.currentToolCall = some c → c.id ≠ id) :
    toolEndStep s id ts = s := by
  have htr : truthy (some id) = some id := by simp [truthy, hid]
  have hdel : adel s.pendingToolCalls id = s.pendingToolCalls := adel_of_aget_none h2
  unfold toolEndStep
  rw [htr]
  dsimp only
  rw [if_pos h1, hdel]
  cases hctc : s.currentToolCall with
  | none =>
    dsimp only
    cases s
    simp_all
  | some c =>
    have hfalse : (c.id == id) = false := by simpa using h3 c hctc
    simp only [hfalse, Bool.false_eq_true, if_false]
    cases s
    simp_all

theorem textEnd_idem (s : AGUIClientState) (ts : String) :
    textEndStep (textEndStep s ts) ts = textEndStep s ts :=
  textEnd_of_cm_none _ ts (textEnd_cm_none s ts)

theorem toolEnd_idem (s : AGUIClientState) (id ts : String) (hid : id ≠ "")
    (h1 : committedTC (toolEndStep s id ts).messages id = true) :
    toolEndStep (toolEndStep s id ts) id ts = toolEndStep s id ts := by
  apply toolEnd_noop _ id ts hid h1
  · rw [toolEnd_pendingToolCalls s id ts hid]
    exact aget_adel_self _ _
  · exact toolEnd_ctc s id ts hid

/-- C1 (corrected): applying the same text-end event twice always produces a
state identical to applying it once; applying the same tool-end event twice
produces a state identical to applying it once whenever the first application
left the tool call committed in `messages`.  (In the buffered case — parent
still pending — the duplicate is NOT dropped: see the counterexample.) -/
theorem c1_duplicate_delivery_amended :
    (∀ s ts, processEvent (processEvent s (Event.textEnd ts)) (Event.textEnd ts) =
        processEvent s (Event.textEnd ts)) ∧
    (∀ s id ts, id ≠ "" →
        committedTC (processEvent s (Event.toolEnd id ts)).messages id = true →
        processEvent (processEvent s (Event.toolEnd id ts)) (Event.toolEnd id ts) =
          processEvent s (Event.toolEnd id ts)) :=
  ⟨fun s ts => textEnd_idem s ts, fun s id ts hid h1 => toolEnd_idem s id ts hid h1⟩

/-- Witness for C1 at a concrete committed tool call. -/
theorem c1_witness :
    processEvent (processEvent
        (processEvent initialState (Event.toolStart "t1" "search" none none "a"))
        (Event.toolEnd "t1" "b")) (Event.toolEnd "t1" "b") =
      processEvent (processEvent initialState (Event.toolStart "t1" "search" none none "a"))
        (Event.toolEnd "t1" "b") :=
  c1_duplicate_delivery_amended.2
    (processEvent initialState (Event.toolStart "t1" "search" none none "a"))
    "t1" "b" (by decide) (by decide)

/-! ## Claim C7 -/

/-- Per-message tool-call occurrence count. -/
def mcountTC (m : PlatformMessage) (tcid : String) : Nat :=
  ((m.toolCalls.getD []).filter (fun tc => tc.id == tcid)).length

theorem countTC_nil (tcid : String) : countTC [] tcid = 0 := rfl

theorem countTC_cons (m : PlatformMessage) (msgs : List PlatformMessage) (tcid : String) :
    countTC (m :: msgs) tcid = mcountTC m tcid + countTC msgs tcid := by
  simp [countTC, mcountTC, listFlat, List.filter_append]

theorem findTC_cons (m : PlatformMessage) (msgs : List PlatformMessage) (tcid : String) :
    findTC (m :: msgs) tcid =
      ((m.toolCalls.getD []).find? (fun tc => tc.id == tcid)).or (findTC msgs tcid) := by
  simp [findTC, listFlat, List.find?_append]

theorem find?_eq_none_of_filter_len_zero {α : Type} {l : List α} {p : α → Bool}
    (h : (l.filter p).length = 0) : l.find? p = none := by
  rw [List.find?_eq_none]
  intro x hx hpx
  have : x ∈ l.filter p := List.mem_filter.mpr ⟨hx, hpx⟩
  rw [List.length_eq_zero] at h
  rw [h] at this
  cases this

theorem any_eq_false_of_filter_len_zero {α : Type} {l : List α} {p : α → Bool}
    (h : (l.filter p).length = 0) : l.any p = false := by
  rw [List.any_eq_false]
  intro x hx hpx
  have : x ∈ l.filter p := List.mem_filter.mpr ⟨hx, hpx⟩
  rw [List.length_eq_zero] at h
  rw [h] at this
  cases this

theorem any_eq_true_of_filter_len_pos {α : Type} {l : List α} {p : α → Bool}
    (h : 0 < (l.filter p).length) : l.any p = true := by
  rw [List.any_eq_true]
  cases hf : l.filter p with
  | nil => rw [hf] at h; simp at h
  | cons x xs =>
    have hx : x ∈ l.filter p := by rw [hf]; exact List.mem_cons_self x xs
    rcases List.mem_filter.mp hx with ⟨h1, h2⟩
    exact ⟨x, h1, h2⟩

theorem updateFirst_find? {α : Type} {p : α → Bool} {f : α → α} {l : List α} {x : α}
    (hf : l.find? p = some x) (hp : ∀ y, p y = true → p (f y) = true) :
    (updateFirst p f l).find? p = some (f x) := by
  induction l with
  | nil => simp [List.find?] at hf
  | cons a rest ih =>
    by_cases ha : p a = true
    · rw [List.find?_cons_of_pos _ ha] at hf
      injection hf with hf2
      subst hf2
      rw [updateFirst, if_pos ha]
      exact List.find?_cons_of_pos _ (hp a ha)
    · have ha2 : ¬ p a = true := ha
      rw [List.find?_cons_of_neg _ ha2] at hf
      rw [updateFirst, if_neg (by simp_all)]
      rw [List.find?_cons_of_neg _ (by simp_all)]
      exact ih hf

theorem updateTCResult_id (content : String) (tc : PlatformToolCall) :
    (updateTCResult content tc).id = tc.id := rfl

theorem resultAttachLoop_none (id c : String) (msgs : List PlatformMessage)
    (h : countTC msgs id = 0) : resultAttachLoop id c msgs = none := by
  induction msgs with
  | nil => rfl
  | cons m rest ih =>
    rw [countTC_cons] at h
    have h1 : mcountTC m id = 0 := by omega
    have h2 : countTC rest id = 0 := by omega
    rw [resultAttachLoop, ih h2]
    cases htc : m.toolCalls with
    | none => rfl
    | some tcs =>
      have : tcs.any (fun tc => tc.id == id) = false := by
        apply any_eq_false_of_filter_len_zero
        simpa [mcountTC, htc] using h1
      simp [this]

theorem resultAttachLoop_one (id c : String) (msgs : List PlatformMessage)
    (h : countTC msgs id = 1) :
    ∃ msgs2, resultAttachLoop id c msgs = some msgs2 ∧
      findTC msgs2 id = (findTC msgs id).map (updateTCResult c) ∧
      msgs2.map (fun m => m.id) = msgs.map (fun m => m.id) := by
  induction msgs with
  | nil => simp [countTC, listFlat] at h
  | cons m rest ih =>
    rw [countTC_cons] at h
    by_cases hrest : countTC rest id = 1
    · have h1 : mcountTC m id = 0 := by omega
      rcases ih hrest with ⟨rest2, hloop, hfind, hids⟩
      refine ⟨m :: rest2, ?_, ?_, ?_⟩
      · rw [resultAttachLoop, hloop]
      · rw [findTC_cons, findTC_cons, hfind]
        have hnone : (m.toolCalls.getD []).find? (fun tc => tc.id == id) = none := by
          apply find?_eq_none_of_filter_len_zero
          simpa [mcountTC] using h1
        rw [hnone]
        simp
      · simp [hids]
    · have h1 : mcountTC m id = 1 := by omega
      have h2 : countTC rest id = 0 := by omega
      have hloopr : resultAttachLoop id c rest = none := resultAttachLoop_none id c rest h2
      cases htc : m.toolCalls with
      | none => simp [mcountTC, htc] at h1
      | some tcs =>
        have hany : tcs.any (fun tc => tc.id == id) = true := by
          apply any_eq_true_of_filter_len_pos
          simp only [mcountTC, htc, Option.getD_some] at h1
          omega
        have hfindsome : ∃ x, tcs.find? (fun tc => tc.id == id) = some x := by
          rcases List.any_eq_true.mp hany with ⟨x, hx, hpx⟩
          cases hfx : tcs.find? (fun tc => tc.id == id) with
          | none =>
            rw [List.find?_eq_none] at hfx
            exact absurd hpx (hfx x hx)
          | some y => exact ⟨y, rfl⟩
        rcases hfindsome with ⟨x, hx⟩
        set tcs2 := updateFirst (fun tc => tc.id == id) (updateTCResult c) tcs with htcs2
        refine ⟨{ m with toolCalls := some tcs2 } :: rest, ?_, ?_, ?_⟩
        · rw [resultAttachLoop, hloopr, htc]
          simp [hany]
        · rw [findTC_cons, findTC_cons]
          have hrestnone : findTC rest id = none := by
            simp only [findTC]
            apply find?_eq_none_of_filter_len_zero
            simpa [countTC] using h2
          rw [hrestnone]
          simp only [htc, Option.getD_some]
          rw [updateFirst_find? hx (fun y hy => by
            simpa [updateTCResult] using hy)]
          rw [hx]
          simp
        · simp

/-- Occurrence count of a tool call id inside the buffered-children map. -/
def pcCountTC (pc : AList (List PlatformMessage)) (tcid : String) : Nat :=
  ((listFlat (pc.map (fun p => listFlat (p.2.map (fun c => c.toolCalls.getD []))))).filter
    (fun tc => tc.id == tcid)).length

theorem pcCountTC_cons (k : String) (children : List PlatformMessage)
    (rest : AList (List PlatformMessage)) (tcid : String) :
    pcCountTC ((k, children) :: rest) tcid = countTC children tcid + pcCountTC rest tcid := by
  simp [pcCountTC, countTC, listFlat, List.filter_append]

theorem pcFindTC_cons (k : String) (children : List PlatformMessage)
    (rest : AList (List PlatformMessage)) (tcid : String) :
    pcFindTC ((k, children) :: rest) tcid =
      (findTC children tcid).or (pcFindTC rest tcid) := by
  simp [pcFindTC, findTC, listFlat, List.find?_append]

theorem findTC_eq_none_of_countTC_zero {msgs : List PlatformMessage} {tcid : String}
    (h : countTC msgs tcid = 0) : findTC msgs tcid = none := by
  simp only [findTC]
  apply find?_eq_none_of_filter_len_zero
  simpa [countTC] using h

theorem resultChildUpdate_none (id c : String) (children : List PlatformMessage)
    (h : countTC children id = 0) : resultChildUpdate id c children = none := by
  induction children with
  | nil => rfl
  | cons m rest ih =>
    rw [countTC_cons] at h
    have h1 : mcountTC m id = 0 := by omega
    have h2 : countTC rest id = 0 := by omega
    cases htc : m.toolCalls with
    | none => rw [resultChildUpdate, htc, ih h2]
    | some tcs =>
      have hany : tcs.any (fun tc => tc.id == id) = false := by
        apply any_eq_false_of_filter_len_zero
        simpa [mcountTC, htc] using h1
      rw [resultChildUpdate, htc]
      simp only [hany, Bool.false_eq_true, if_false]
      rw [ih h2]

theorem resultChildUpdate_one (id c : String) (children : List PlatformMessage)
    (h : countTC children id = 1) :
    ∃ ch2, resultChildUpdate id c children = some ch2 ∧
      findTC ch2 id = (findTC children id).map (updateTCResult c) := by
  induction children with
  | nil => simp [countTC, listFlat] at h
  | cons m rest ih =>
    rw [countTC_cons] at h
    cases htc : m.toolCalls with
    | none =>
      have h1 : mcountTC m id = 0 := by simp [mcountTC, htc]
      have h2 : countTC rest id = 1 := by omega
      rcases ih h2 with ⟨cs2, hloop, hfind⟩
      refine ⟨m :: cs2, ?_, ?_⟩
      · rw [resultChildUpdate, htc, hloop]
      · rw [findTC_cons, findTC_cons, hfind, htc]
        simp [List.find?]
    | some tcs =>
      by_cases hone : mcountTC m id = 1
      · have h2 : countTC rest id = 0 := by omega
        have hany : tcs.any (fun tc => tc.id == id) = true := by
          apply any_eq_true_of_filter_len_pos
          simp only [mcountTC, htc, Option.getD_some] at hone
          omega
        have hfindsome : ∃ x, tcs.find? (fun tc => tc.id == id) = some x := by
          rcases List.any_eq_true.mp hany with ⟨x, hx, hpx⟩
          cases hfx : tcs.find? (fun tc => tc.id == id) with
          | none =>
            rw [List.find?_eq_none] at hfx
            exact absurd hpx (hfx x hx)
          | some y => exact ⟨y, rfl⟩
        rcases hfindsome with ⟨x, hx⟩
        set tcs2 := updateFirst (fun tc => tc.id == id) (updateTCResult c) tcs with htcs2
        refine ⟨{ m with toolCalls := some tcs2 } :: rest, ?_, ?_⟩
        · rw [resultChildUpdate, htc]
          simp [hany]
        · rw [findTC_cons, findTC_cons]
          rw [findTC_eq_none_of_countTC_zero h2]
          simp only [htc, Option.getD_some]
          rw [updateFirst_find? hx (fun y hy => by simpa [updateTCResult] using hy)]
          rw [hx]
          simp
      · have h1 : mcountTC m id = 0 := by omega
        have h2 : countTC rest id = 1 := by omega
        have hany : tcs.any (fun tc => tc.id == id) = false := by
          apply any_eq_false_of_filter_len_zero
          simpa [mcountTC, htc] using h1
        rcases ih h2 with ⟨cs2, hloop, hfind⟩
        refine ⟨m :: cs2, ?_, ?_⟩
        · rw [resultChildUpdate, htc]
          simp only [hany, Bool.false_eq_true, if_false]
          rw [hloop]
        · rw [findTC_cons, findTC_cons, hfind]
          have hnone : (m.toolCalls.getD []).find? (fun tc => tc.id == id) = none := by
            apply find?_eq_none_of_filter_len_zero
            simpa [mcountTC] using h1
          rw [hnone]
          simp

theorem resultChildLoop_none (id c : String) (pc : AList (List PlatformMessage))
    (h : pcCountTC pc id = 0) : resultChildLoop id c pc = none := by
  induction pc with
  | nil => rfl
  | cons p rest ih =>
    rcases p with ⟨k, children⟩
    rw [pcCountTC_cons] at h
    have h1 : countTC children id = 0 := by omega
    have h2 : pcCountTC rest id = 0 := by omega
    rw [resultChildLoop, resultChildUpdate_none id c children h1, ih h2]

theorem resultChildLoop_one (id c : String) (pc : AList (List PlatformMessage))
    (h : pcCountTC pc id = 1) :
    ∃ pc2, resultChildLoop id c pc = some pc2 ∧
      pcFindTC pc2 id = (pcFindTC pc id).map (updateTCResult c) := by
  induction pc with
  | nil => simp [pcCountTC, listFlat] at h
  | cons p rest ih =>
    rcases p with ⟨k, children⟩
    rw [pcCountTC_cons] at h
    by_cases hone : countTC children id = 1
    · have h2 : pcCountTC rest id = 0 := by omega
      rcases resultChildUpdate_one id c children hone with ⟨ch2, hupd, hfind⟩
      refine ⟨(k, ch2) :: rest, ?_, ?_⟩
      · rw [resultChildLoop, hupd]
      · rw [pcFindTC_cons, pcFindTC_cons, hfind]
        have hrest : pcFindTC rest id = none := by
          simp only [pcFindTC]
          apply find?_eq_none_of_filter_len_zero
          simpa [pcCountTC] using h2
        rw [hrest]
        cases findTC children id <;> simp
    · have h1 : countTC children id = 0 := by omega
      have h2 : pcCountTC rest id = 1 := by omega
      rcases ih h2 with ⟨pc2, hloop, hfind⟩
      refine ⟨(k, children) :: pc2, ?_, ?_⟩
      · rw [resultChildLoop, resultChildUpdate_none id c children h1, hloop]
      · rw [pcFindTC_cons, pcFindTC_cons, hfind]
        rw [findTC_eq_none_of_countTC_zero h1]
        simp

/-- C7: a tool-result event resolves by id in committed messages first (attach
result, mark completed, touching nothing else), then in the buffered
pendingChildren map (same update there), and otherwise leaves the state
entirely unchanged — a soft no-op, not an error. -/
theorem c7_toolResult_resolution (s : AGUIClientState) (id content : String) (hid : id ≠ "") :
    (countTC s.messages id = 1 →
      ∃ msgs2, processEvent s (Event.toolResult id content) = { s with messages := msgs2 } ∧
        findTC msgs2 id = (findTC s.messages id).map (updateTCResult content) ∧
        msgs2.map (fun m => m.id) = s.messages.map (fun m => m.id)) ∧
    (countTC s.messages id = 0 → pcCountTC s.pendingChildren id = 1 →
      ∃ pc2, processEvent s (Event.toolResult id content) = { s with pendingChildren := pc2 } ∧
        pcFindTC pc2 id = (pcFindTC s.pendingChildren id).map (updateTCResult content)) ∧
    (countTC s.messages id = 0 → pcCountTC s.pendingChildren id = 0 →
      processEvent s (Event.toolResult id content) = s) := by
  have hbid : (id != "") = true := by simpa using hid
  refine ⟨?_, ?_, ?_⟩
  · intro h1
    rcases resultAttachLoop_one id content s.messages h1 with ⟨msgs2, hloop, hfind, hids⟩
    refine ⟨msgs2, ?_, hfind, hids⟩
    show toolResultStep s id content = _
    unfold toolResultStep
    rw [if_pos hbid, hloop]
  · intro h1 h2
    have hlen : s.pendingChildren.length > 0 := by
      cases hpc : s.pendingChildren with
      | nil => rw [hpc] at h2; simp [pcCountTC, listFlat] at h2
      | cons a l => simp [hpc]
    rcases resultChildLoop_one id content s.pendingChildren h2 with ⟨pc2, hloop2, hfind2⟩
    refine ⟨pc2, ?_, hfind2⟩
    show toolResultStep s id content = _
    unfold toolResultStep
    rw [if_pos hbid, resultAttachLoop_none id content s.messages h1, if_pos hlen, hloop2]
  · intro h1 h2
    show toolResultStep s id content = s
    unfold toolResultStep
    rw [if_pos hbid, resultAttachLoop_none id content s.messages h1]
    by_cases hl : s.pendingChildren.length > 0
    · rw [if_pos hl, resultChildLoop_none id content s.pendingChildren h2]
    · rw [if_neg hl]

/-- Witness for C7: a committed tool call receives its result. -/
theorem c7_witness :
    (let s : AGUIClientState := { initialState with
        messages := [{ id := "m1", role := "assistant", content := "",
                       toolCalls := some [{ id := "t1",
                                            function := { name := "f", arguments := "" } }] }] }
     ∃ msgs2, processEvent s (Event.toolResult "t1" "out") = { s with messages := msgs2 } ∧
        findTC msgs2 "t1" = (findTC s.messages "t1").map (updateTCResult "out") ∧
        msgs2.map (fun m => m.id) = s.messages.map (fun m => m.id)) :=
  (c7_toolResult_resolution _ "t1" "out" (by decide)).1 (by decide)

/-! ## Claim C3 -/

theorem listFlat_append {α : Type} (a b : List (List α)) :
    listFlat (a ++ b) = listFlat a ++ listFlat b := by
  induction a with
  | nil => rfl
  | cons x xs ih => simp [listFlat, ih]

theorem countTC_append (l1 l2 : List PlatformMessage) (tcid : String) :
    countTC (l1 ++ l2) tcid = countTC l1 tcid + countTC l2 tcid := by
  simp [countTC, List.map_append, listFlat_append, List.filter_append]

theorem countTCP_append (l1 l2 : List PlatformMessage) (tcid pid : String) :
    countTCP (l1 ++ l2) tcid pid = countTCP l1 tcid pid + countTCP l2 tcid pid := by
  simp [countTCP, List.map_append, listFlat_append, List.filter_append]

theorem countTCP_cons (m : PlatformMessage) (msgs : List PlatformMessage) (tcid pid : String) :
    countTCP (m :: msgs) tcid pid =
      ((m.toolCalls.getD []).filter
        (fun tc => tc.id == tcid && tc.parentToolUseId == some pid)).length +
      countTCP msgs tcid pid := by
  simp [countTCP, listFlat, List.filter_append]

theorem committedTC_false_of_countTC_zero {msgs : List PlatformMessage} {tcid : String}
    (h : countTC msgs tcid = 0) : committedTC msgs tcid = false := by
  induction msgs with
  | nil => rfl
  | cons m rest ih =>
    rw [countTC_cons] at h
    have h1 : mcountTC m tcid = 0 := by omega
    have h2 : countTC rest tcid = 0 := by omega
    simp only [committedTC, List.any_cons, Bool.or_eq_false_iff]
    constructor
    · exact any_eq_false_of_filter_len_zero (by simpa [mcountTC] using h1)
    · simpa [committedTC] using ih h2

theorem countTCP_zero_of_countTC_zero {msgs : List PlatformMessage} {tcid pid : String}
    (h : countTC msgs tcid = 0) : countTCP msgs tcid pid = 0 := by
  simp only [countTCP]
  have hconj : ∀ l : List PlatformToolCall,
      l.filter (fun tc => tc.id == tcid && tc.parentToolUseId == some pid) =
        (l.filter (fun tc => tc.id == tcid)).filter
          (fun tc => tc.parentToolUseId == some pid) := by
    intro l
    rw [List.filter_filter]
    apply List.filter_congr
    intro tc _
    rw [Bool.and_comm]
  rw [hconj]
  simp only [countTC] at h
  rw [List.length_eq_zero] at h
  rw [h]
  rfl

theorem filter_conj_len_zero {l : List PlatformToolCall} {tcid pid : String}
    (h : (l.filter (fun tc => tc.id == tcid)).length = 0) :
    (l.filter (fun tc => tc.id == tcid && tc.parentToolUseId == some pid)).length = 0 := by
  have hconj : l.filter (fun tc => tc.id == tcid && tc.parentToolUseId == some pid) =
      (l.filter (fun tc => tc.id == tcid)).filter
        (fun tc => tc.parentToolUseId == some pid) := by
    rw [List.filter_filter]
    apply List.filter_congr
    intro tc _
    rw [Bool.and_comm]
  rw [hconj]
  rw [List.length_eq_zero] at h
  rw [h]
  rfl

theorem pcHasTC_of_adel {pc : AList (List PlatformMessage)} {k tcid : String}
    (h : pcHasTC (adel pc k) tcid = true) : pcHasTC pc tcid = true := by
  simp only [pcHasTC, List.any_eq_true] at h ⊢
  rcases h with ⟨p, hp, hf⟩
  exact ⟨p, List.mem_of_mem_filter hp, hf⟩

theorem attachAssistantLoop_none_of_no_target (tid : String) (ctc : PlatformToolCall)
    (pc : AList (List PlatformMessage)) (l : List PlatformMessage)
    (h : l.any (fun m => m.role == "assistant") = false) :
    attachAssistantLoop tid ctc pc none l = none := by
  induction l with
  | nil => rfl
  | cons m rest ih =>
    simp only [List.any_cons, Bool.or_eq_false_iff] at h
    rw [attachAssistantLoop, ih (by simpa using h.2)]
    simp [h.1]

theorem attachAssistantLoop_last (tid : String) (ctc : PlatformToolCall)
    (pc : AList (List PlatformMessage)) (l : List PlatformMessage)
    (hA : l.any (fun m => m.role == "assistant") = true) :
    ∃ l₁ a l₂, l = l₁ ++ a :: l₂ ∧ (a.role == "assistant") = true ∧
      (l₂.any (fun m => m.role == "assistant")) = false ∧
      attachAssistantLoop tid ctc pc none l =
        (if (a.toolCalls.getD []).any (fun tc => tc.id == tid) then some (l, pc)
         else
           some (l₁ ++ ({ a with toolCalls := some ((a.toolCalls.getD []) ++ [ctc] ++
               listFlat (((aget pc tid).getD []).map (fun c => c.toolCalls.getD []))) }) :: l₂,
             if ((aget pc tid).getD []).length > 0 then adel pc tid else pc)) := by
  induction l with
  | nil => simp at hA
  | cons m rest ih =>
    by_cases hrest : rest.any (fun m => m.role == "assistant") = true
    · rcases ih hrest with ⟨l₁, a, l₂, hdec, ha, hlast, hloop⟩
      refine ⟨m :: l₁, a, l₂, by rw [hdec, List.cons_append], ha, hlast, ?_⟩
      by_cases hdup : ((a.toolCalls.getD []).any (fun tc => tc.id == tid)) = true
      · rw [if_pos hdup] at hloop
        rw [attachAssistantLoop, hloop, if_pos hdup]
      · rw [if_neg hdup] at hloop
        rw [attachAssistantLoop, hloop, if_neg hdup]
        rfl
    · have hm : (m.role == "assistant") = true := by
        simp only [List.any_cons, hrest, Bool.or_false] at hA
        exact hA
      have hnone : attachAssistantLoop tid ctc pc none rest = none :=
        attachAssistantLoop_none_of_no_target tid ctc pc rest (by simpa using hrest)
      refine ⟨[], m, rest, rfl, hm, by simpa using hrest, ?_⟩
      rw [attachAssistantLoop, hnone]
      dsimp only
      rw [hm]
      by_cases hdup : ((m.toolCalls.getD []).any (fun tc => tc.id == tid)) = true
      · rw [if_pos hdup, if_pos rfl]
        rw [if_pos hdup]
      · rw [if_neg hdup, if_pos rfl]
        rw [if_neg hdup]
        rfl

/-- The completed tool call constructed by TOOL_CALL_END. -/
def completedTC (tcid nm args : String) (parent : Option String) : PlatformToolCall :=
  { id := tcid, function := { name := nm, arguments := args },
    result := none, status := some TCStatus.completed, parentToolUseId := parent }

/-- The buffered child message constructed when the parent is still pending. -/
def bufferedChildMsg (uuid tcid : String) (tc : PlatformToolCall) : PlatformMessage :=
  { id := uuid, role := "tool", content := "", toolCallId := some tcid,
    toolCalls := some [tc] }

/-- The standalone tool message committed when no assistant message is found. -/
def standaloneToolMsg (uuid tcid ts : String) (tc : PlatformToolCall) : PlatformMessage :=
  { id := uuid, role := "tool", content := "", toolCallId := some tcid,
    toolCalls := some [tc], timestamp := ts }

theorem bufferedChildMsg_toolCalls (uuid tcid : String) (tc : PlatformToolCall) :
    (bufferedChildMsg uuid tcid tc).toolCalls = some [tc] := rfl

theorem toolEnd_buffered (s : AGUIClientState) (id ts pid : String) (pt : PendingToolCall)
    (c : CurrentToolCall)
    (hid : id ≠ "")
    (hpt : aget s.pendingToolCalls id = some pt)
    (hpid : truthy pt.parentToolUseId = some pid)
    (hcomm : committedTC s.messages id = false)
    (hpend : ahas (adel s.pendingToolCalls id) pid = true)
    (hctc : s.currentToolCall = some c) (hcid : c.id = id) :
    toolEndStep s id ts =
      { s with
        pendingToolCalls := adel s.pendingToolCalls id,
        pendingChildren := aset s.pendingChildren pid
          (((aget s.pendingChildren pid).getD []) ++
            [bufferedChildMsg (freshUuid s.nextUuid) id
              (completedTC id (orElseStr pt.name (orElseStr c.name "unknown_tool"))
                (orElseStr pt.args c.args) (some pid))]),
        nextUuid := s.nextUuid + 1,
        currentToolCall := none } := by
  have htr : truthy (some id) = some id := by simp [truthy, hid]
  unfold toolEndStep
  rw [htr]
  dsimp only
  rw [hpt, hctc]
  dsimp only [Option.bind]
  rw [hpid]
  dsimp only
  rw [if_neg (by simp [hcomm]), if_pos hpend, if_pos (show (c.id == id) = true by simp [hcid])]
  rfl

theorem toolEnd_attach_noparent (s : AGUIClientState) (id ts : String) (pt : PendingToolCall)
    (hid : id ≠ "")
    (hpt : aget s.pendingToolCalls id = some pt)
    (hpid : truthy pt.parentToolUseId = none)
    (hpm : pt.parentMessageId = none)
    (hctc : s.currentToolCall = none)
    (hcomm : committedTC s.messages id = false) :
    toolEndStep s id ts =
      (match attachAssistantLoop id
          (completedTC id (orElseStr pt.name (orElseStr "" "unknown_tool"))
            (orElseStr pt.args "") none)
          s.pendingChildren none s.messages with
       | some (msgs2, pc2) =>
         { s with pendingToolCalls := adel s.pendingToolCalls id,
                  messages := msgs2, pendingChildren := pc2, currentToolCall := none }
       | none =>
         { s with pendingToolCalls := adel s.pendingToolCalls id,
                  messages := s.messages ++
                    [standaloneToolMsg (freshUuid s.nextUuid) id ts
                      (completedTC id (orElseStr pt.name (orElseStr "" "unknown_tool"))
                        (orElseStr pt.args "") none)],
                  currentToolCall := none,
                  nextUuid := s.nextUuid + 1 }) := by
  have htr : truthy (some id) = some id := by simp [truthy, hid]
  unfold toolEndStep toolEndAttachAssistant
  rw [htr]
  dsimp only
  rw [hpt, hctc]
  dsimp only [Option.bind]
  rw [hpid, hpm]
  dsimp only
  rw [if_neg (by simp [hcomm])]
  rfl

theorem toolStart_noparent (s : AGUIClientState) (tcid nm ts : String) :
    toolStartStep s tcid nm none none ts =
      { s with
        pendingToolCalls := aset s.pendingToolCalls tcid
          ⟨tcid, orElseStr nm "unknown_tool", "", none, none, ts⟩,
        currentToolCall := some ⟨tcid, nm, "", none⟩ } := rfl

theorem toolStart_withparent (s : AGUIClientState) (tcid nm pid ts : String) (hp : pid ≠ "") :
    toolStartStep s tcid nm none (some pid) ts =
      { s with
        pendingToolCalls := aset s.pendingToolCalls tcid
          ⟨tcid, orElseStr nm "unknown_tool", "", some pid, none, ts⟩,
        currentToolCall := some ⟨tcid, nm, "", some pid⟩ } := by
  have htr : truthy (some pid) = some pid := by simp [truthy, hp]
  unfold toolStartStep
  rw [htr]

/-- C3 (corrected): from any state containing an assistant message (and in
which P, C are fresh), the sequence tool-start(P), tool-start(C, parent=P),
tool-end(C) [buffered since P is pending], tool-end(P) yields exactly one
tool-call entry with id C, that entry carries parentToolUseId P, and C is not
retained in pendingChildren.  (Without an assistant message the flush does not
happen: see the counterexample.) -/
theorem c3_buffered_child_flush_amended (s : AGUIClientState)
    (P C pn cn t0 t1 t2 t3 : String)
    (hPC : P ≠ C) (hP : P ≠ "") (hC : C ≠ "")
    (hPm : countTC s.messages P = 0)
    (hCm : countTC s.messages C = 0)
    (hPc : aget s.pendingChildren P = none)
    (hCc : pcHasTC s.pendingChildren C = false)
    (hA : s.messages.any (fun m => m.role == "assistant") = true) :
    countTC (processEvents s
      [Event.toolStart P pn none none t0, Event.toolStart C cn none (some P) t1,
       Event.toolEnd C t2, Event.toolEnd P t3]).messages C = 1 ∧
    countTCP (processEvents s
      [Event.toolStart P pn none none t0, Event.toolStart C cn none (some P) t1,
       Event.toolEnd C t2, Event.toolEnd P t3]).messages C P = 1 ∧
    pcHasTC (processEvents s
      [Event.toolStart P pn none none t0, Event.toolStart C cn none (some P) t1,
       Event.toolEnd C t2, Event.toolEnd P t3]).pendingChildren C = false := by
  have hcommP : committedTC s.messages P = false := committedTC_false_of_countTC_zero hPm
  have hcommC : committedTC s.messages C = false := committedTC_false_of_countTC_zero hCm
  have h12 : toolStartStep (toolStartStep s P pn none none t0) C cn none (some P) t1 =
      { s with
        pendingToolCalls :=
          aset (aset s.pendingToolCalls P ⟨P, orElseStr pn "unknown_tool", "", none, none, t0⟩)
            C ⟨C, orElseStr cn "unknown_tool", "", some P, none, t1⟩,
        currentToolCall := some ⟨C, cn, "", some P⟩ } := by
    rw [toolStart_noparent, toolStart_withparent _ _ _ _ _ hP]
  have h3 := toolEnd_buffered
    ({ s with
       pendingToolCalls :=
         aset (aset s.pendingToolCalls P ⟨P, orElseStr pn "unknown_tool", "", none, none, t0⟩)
           C ⟨C, orElseStr cn "unknown_tool", "", some P, none, t1⟩,
       currentToolCall := some ⟨C, cn, "", some P⟩ })
    C t2 P ⟨C, orElseStr cn "unknown_tool", "", some P, none, t1⟩ ⟨C, cn, "", some P⟩
    hC (aget_aset_self _ _ _) (by simp [truthy, hP])
    hcommC
    (by rw [ahas_adel, ahas_aset, ahas_aset]
        simp [hPC])
    rfl rfl
  dsimp only at h3
  rw [hPc] at h3
  simp only [Option.getD_none, List.nil_append] at h3
  have h4 := toolEnd_attach_noparent
    ({ s with
       pendingToolCalls :=
         adel (aset (aset s.pendingToolCalls P ⟨P, orElseStr pn "unknown_tool", "", none, none, t0⟩)
           C ⟨C, orElseStr cn "unknown_tool", "", some P, none, t1⟩) C,
       pendingChildren := aset s.pendingChildren P
         [bufferedChildMsg (freshUuid s.nextUuid) C
           (completedTC C (orElseStr (orElseStr cn "unknown_tool") (orElseStr cn "unknown_tool"))
             (orElseStr "" "") (some P))],
       nextUuid := s.nextUuid + 1,
       currentToolCall := none })
    P t3 ⟨P, orElseStr pn "unknown_tool", "", none, none, t0⟩
    hP
    (by rw [aget_adel_ne _ _ _ hPC, aget_aset_ne _ _ _ _ hPC]
        exact aget_aset_self _ _ _)
    rfl rfl rfl
    hcommP
  dsimp only at h4
  obtain ⟨l₁, a, l₂, hdec, ha, hlast, hloop⟩ :=
    attachAssistantLoop_last P
      (completedTC P (orElseStr (orElseStr pn "unknown_tool") (orElseStr "" "unknown_tool"))
        (orElseStr "" "") none)
      (aset s.pendingChildren P
        [bufferedChildMsg (freshUuid s.nextUuid) C
          (completedTC C (orElseStr (orElseStr cn "unknown_tool") (orElseStr cn "unknown_tool"))
            (orElseStr "" "") (some P))])
      s.messages hA
  have hCparts : countTC l₁ C + (mcountTC a C + countTC l₂ C) = 0 := by
    rw [← countTC_cons, ← countTC_append, ← hdec]
    exact hCm
  have hPparts : countTC l₁ P + (mcountTC a P + countTC l₂ P) = 0 := by
    rw [← countTC_cons, ← countTC_append, ← hdec]
    exact hPm
  have hdup : ((a.toolCalls.getD []).any (fun tc => tc.id == P)) = false := by
    apply any_eq_false_of_filter_len_zero
    have : mcountTC a P = 0 := by omega
    simpa [mcountTC] using this
  rw [if_neg (by simp [hdup])] at hloop
  rw [aget_aset_self] at hloop
  simp only [Option.getD_some, bufferedChildMsg_toolCalls, List.map_cons, List.map_nil, listFlat,
    List.append_nil, List.length_cons, List.length_nil] at hloop
  rw [if_pos (by omega), adel_aset_self] at hloop
  have hfinal : processEvents s
      [Event.toolStart P pn none none t0, Event.toolStart C cn none (some P) t1,
       Event.toolEnd C t2, Event.toolEnd P t3] =
      toolEndStep (toolEndStep
        (toolStartStep (toolStartStep s P pn none none t0) C cn none (some P) t1) C t2) P t3 :=
    rfl
  rw [hfinal, h12, h3, h4, hloop]
  dsimp only
  have hl1C : countTC l₁ C = 0 := by omega
  have hl2C : countTC l₂ C = 0 := by omega
  have haC : mcountTC a C = 0 := by omega
  refine ⟨?_, ?_, ?_⟩
  · rw [countTC_append, countTC_cons, hl1C, hl2C]
    simp only [mcountTC] at haC
    rw [List.length_eq_zero] at haC
    simp [mcountTC, List.filter_append, haC, completedTC, hPC, Ne.symm hPC]
  · rw [countTCP_append, countTCP_cons]
    have hl1CP : countTCP l₁ C P = 0 := countTCP_zero_of_countTC_zero hl1C
    have hl2CP : countTCP l₂ C P = 0 := countTCP_zero_of_countTC_zero hl2C
    rw [hl1CP, hl2CP]
    simp only [mcountTC] at haC
    have haCP := @filter_conj_len_zero _ C P haC
    rw [List.length_eq_zero] at haCP
    simp [List.filter_append, haCP, completedTC, hPC, Ne.symm hPC]
  · cases hx : pcHasTC (adel s.pendingChildren P) C
    · rfl
    · exact absurd (pcHasTC_of_adel hx) (by simp [hCc])

/-- Witness for C3 at a concrete state with one assistant message. -/
theorem c3_witness :
    countTC (processEvents { initialState with
        messages := [{ id := "m1", role := "assistant", content := "hi" }] }
      [Event.toolStart "P" "p" none none "a", Event.toolStart "C" "c" none (some "P") "b",
       Event.toolEnd "C" "d", Event.toolEnd "P" "e"]).messages "C" = 1 ∧
    countTCP (processEvents { initialState with
        messages := [{ id := "m1", role := "assistant", content := "hi" }] }
      [Event.toolStart "P" "p" none none "a", Event.toolStart "C" "c" none (some "P") "b",
       Event.toolEnd "C" "d", Event.toolEnd "P" "e"]).messages "C" "P" = 1 ∧
    pcHasTC (processEvents { initialState with
        messages := [{ id := "m1", role := "assistant", content := "hi" }] }
      [Event.toolStart "P" "p" none none "a", Event.toolStart "C" "c" none (some "P") "b",
       Event.toolEnd "C" "d", Event.toolEnd "P" "e"]).pendingChildren "C" = false :=
  c3_buffered_child_flush_amended _ "P" "C" "p" "c" "a" "b" "d" "e"
    (by decide) (by decide) (by decide) (by decide) (by decide) rfl rfl (by decide)

theorem updateFirst_map_id (p : PlatformMessage → Bool) (f : PlatformMessage → PlatformMessage)
    (hf : ∀ y, (f y).id = y.id) (l : List PlatformMessage) :
    (updateFirst p f l).map (fun m => m.id) = l.map (fun m => m.id) := by
  induction l with
  | nil => rfl
  | cons x xs ih =>
    by_cases hx : p x = true
    · rw [updateFirst, if_pos hx]
      simp [hf, ih]
    · rw [updateFirst, if_neg hx]
      simp [ih]

theorem normStep_ids (pids : List String) (pri : AList Nat)
    (acc : List PlatformMessage × List Nat) (i : Nat) :
    (normStep pids pri acc i).1.map (fun m => m.id) = acc.1.map (fun m => m.id) := by
  unfold normStep
  repeat' (first | dsimp only | split)
  all_goals first
    | rfl
    | (apply updateFirst_map_id; intro y; rfl)
    | (apply updateFirst_map_id; intro y; dsimp only; split <;> rfl)

theorem normFold_ids (pids : List String) (pri : AList Nat)
    (idxs : List Nat) (acc : List PlatformMessage × List Nat) :
    (idxs.foldl (normStep pids pri) acc).1.map (fun m => m.id) =
      acc.1.map (fun m => m.id) := by
  induction idxs generalizing acc with
  | nil => rfl
  | cons i rest ih =>
    rw [List.foldl_cons, ih, normStep_ids]

theorem keepIdx_mem {l : List PlatformMessage} {rm : List Nat} {m : PlatformMessage}
    (h : m ∈ (l.enum.filter (fun p => !(rm.contains p.1))).map (fun p => p.2)) : m ∈ l := by
  have hsub : ((l.enum.filter (fun p => !(rm.contains p.1))).map
      (fun p : Nat × PlatformMessage => p.2)).Sublist (l.enum.map (fun p => p.2)) :=
    (List.filter_sublist _).map _
  have : m ∈ l.enum.map (fun p : Nat × PlatformMessage => p.2) := hsub.mem h
  simpa [List.enum_map_snd] using this

theorem normalize_mem (l : List PlatformMessage) (m : PlatformMessage)
    (h : m ∈ normalizeSnapshotMessages l) : m.id ∈ l.map (fun x => x.id) := by
  unfold normalizeSnapshotMessages at h
  dsimp only at h
  split at h
  · exact List.mem_map_of_mem _ h
  · have hm : m ∈ ((List.range l.length).foldl
        (normStep (collectParentToolCallIds l) (buildParentResultIndex (collectParentToolCallIds l) l))
        (l, [])).1 := keepIdx_mem h
    have hid := normFold_ids (collectParentToolCallIds l)
      (buildParentResultIndex (collectParentToolCallIds l) l) (List.range l.length) (l, [])
    have : m.id ∈ (((List.range l.length).foldl
        (normStep (collectParentToolCallIds l) (buildParentResultIndex (collectParentToolCallIds l) l))
        (l, [])).1.map (fun x => x.id)) := List.mem_map_of_mem _ hm
    rw [hid] at this
    exact this

theorem spliceAt_mem {α : Type} {x y : α} {l : List α} {i : Nat}
    (h : x ∈ spliceAt l i y) : x = y ∨ x ∈ l := by
  simp only [spliceAt, List.mem_append, List.mem_cons] at h
  rcases h with h | h | h
  · exact Or.inr (List.mem_of_mem_take h)
  · exact Or.inl h
  · exact Or.inr (List.mem_of_mem_drop h)

theorem mergeInsert_mem {toIns merged : List PlatformMessage} {ids : List String}
    {m : PlatformMessage} (h : m ∈ mergeInsert toIns merged ids) :
    m ∈ merged ∨ m ∈ toIns := by
  induction toIns generalizing merged ids with
  | nil => exact Or.inl h
  | cons x rest ih =>
    rw [mergeInsert] at h
    split at h
    · rcases ih h with h2 | h2
      · exact Or.inl h2
      · exact Or.inr (List.mem_cons_of_mem _ h2)
    · rcases ih h with h2 | h2
      · split at h2
        · split at h2
          · rcases spliceAt_mem h2 with h3 | h3
            · exact Or.inr (by rw [h3]; exact List.mem_cons_self _ _)
            · exact Or.inl h3
          · rcases List.mem_append.mp h2 with h3 | h3
            · exact Or.inl h3
            · exact Or.inr (by simp at h3; rw [h3]; exact List.mem_cons_self _ _)
        · rcases List.mem_append.mp h2 with h3 | h3
          · exact Or.inl h3
          · exact Or.inr (by simp at h3; rw [h3]; exact List.mem_cons_self _ _)
      · exact Or.inr (List.mem_cons_of_mem _ h2)

theorem buildSnapshotMap_aux (l : List PlatformMessage) (acc : AList PlatformMessage) :
    ∀ k v, aget (l.foldl (fun acc m => aset acc m.id m) acc) k = some v →
      aget acc k = some v ∨ (v ∈ l ∧ v.id = k) := by
  induction l generalizing acc with
  | nil => intro k v h; exact Or.inl h
  | cons m rest ih =>
    intro k v h
    rw [List.foldl_cons] at h
    rcases ih (aset acc m.id m) k v h with h2 | h2
    · by_cases hk : k = m.id
      · subst hk
        rw [aget_aset_self] at h2
        injection h2 with h3
        exact Or.inr ⟨by rw [← h3]; exact List.mem_cons_self _ _, by rw [← h3]⟩
      · rw [aget_aset_ne _ _ _ _ hk] at h2
        exact Or.inl h2
    · exact Or.inr ⟨List.mem_cons_of_mem _ h2.1, h2.2⟩

theorem buildSnapshotMap_spec (l : List PlatformMessage) (k : String) (v : PlatformMessage)
    (h : aget (buildSnapshotMap l) k = some v) : v ∈ l ∧ v.id = k := by
  rcases buildSnapshotMap_aux l [] k v h with h2 | h2
  · simp [aget] at h2
  · exact h2

theorem mergeExisting_ids (sm : AList PlatformMessage)
    (hsm : ∀ k v, aget sm k = some v → v.id = k) (msgs : List PlatformMessage) :
    (mergeExisting sm msgs).map (fun m => m.id) = msgs.map (fun m => m.id) := by
  unfold mergeExisting
  rw [List.map_map]
  apply List.map_congr_left
  intro msg _
  dsimp only [Function.comp]
  cases hget : aget sm msg.id with
  | none => rfl
  | some sv =>
    have hids := hsm _ _ hget
    dsimp only
    split <;> simp [hids]

theorem applyToolNames_ids (tm : AList String) (l : List PlatformMessage) :
    (applyToolNames tm l).map (fun m => m.id) = l.map (fun m => m.id) := by
  unfold applyToolNames
  rw [List.map_map]
  apply List.map_congr_left
  intro msg _
  dsimp only [Function.comp]
  split
  · split <;> rfl
  · rfl

/-- C10: every snapshot message whose id is in the hidden set is excluded
before normalization and merging, and consequently no hidden-id message that
was not already present ever enters the messages list via a snapshot merge. -/
theorem c10_hidden_never_enters (s : AGUIClientState) (snap : List PlatformMessage)
    (hid : String) (h1 : hid ∈ s.hiddenMessageIds) (h2 : ∀ m ∈ s.messages, m.id ≠ hid) :
    (∀ m ∈ snap.filter (fun m => !(s.hiddenMessageIds.contains m.id)), m.id ≠ hid) ∧
    (∀ m ∈ (processEvent s (Event.messagesSnapshot snap)).messages, m.id ≠ hid) := by
  have hvis : ∀ m ∈ snap.filter (fun m => !(s.hiddenMessageIds.contains m.id)), m.id ≠ hid := by
    intro m hm heq
    rcases List.mem_filter.mp hm with ⟨_, hq⟩
    rw [heq] at hq
    simp [h1] at hq
  refine ⟨hvis, ?_⟩
  intro m hm
  simp only [processEvent, messagesSnapshotStep] at hm
  unfold dropRedundantToolMessages at hm
  dsimp only at hm
  have hm2 := List.mem_of_mem_filter hm
  have h4 := List.mem_map_of_mem (fun m : PlatformMessage => m.id) hm2
  rw [applyToolNames_ids] at h4
  rcases List.mem_map.mp h4 with ⟨y, hy, hyid⟩
  have hyid2 : y.id = m.id := hyid
  rcases mergeInsert_mem hy with hmerged | hnorm
  · have h5 := List.mem_map_of_mem (fun m : PlatformMessage => m.id) hmerged
    rw [mergeExisting_ids _ (fun k v h => (buildSnapshotMap_spec _ k v h).2)] at h5
    rcases List.mem_map.mp h5 with ⟨orig, horig, hoid⟩
    have hoid2 : orig.id = y.id := hoid
    rw [← hyid2, ← hoid2]
    exact h2 orig horig
  · have h6 := normalize_mem _ _ hnorm
    rcases List.mem_map.mp h6 with ⟨vm, hvm, hvid⟩
    have hvid2 : vm.id = y.id := hvid
    rw [← hyid2, ← hvid2]
    exact hvis vm hvm


def c10s : AGUIClientState := { initialState with hiddenMessageIds := ["h77"] }

def c10hm : PlatformMessage :=
  { id := "h77", role := "user", content := "secret" }

theorem c10_witness :
    ("h77" ∈ c10s.hiddenMessageIds ∧ ∀ m ∈ c10s.messages, m.id ≠ "h77") ∧
    ((∀ m ∈ [c10hm].filter (fun m => !(c10s.hiddenMessageIds.contains m.id)),
        m.id ≠ "h77") ∧
     (∀ m ∈ (processEvent c10s (Event.messagesSnapshot [c10hm])).messages,
        m.id ≠ "h77")) :=
  ⟨⟨by decide, by decide⟩,
   c10_hidden_never_enters c10s [c10hm] "h77" (by decide) (by decide)⟩

/-! ## C2: tool-call status monotonicity outside snapshot merges -/

/-- A tool call with this id whose status is pending or running. -/
def tcPR (tcid : String) (tc : PlatformToolCall) : Bool :=
  tc.id == tcid && (tc.status == some TCStatus.pending || tc.status == some TCStatus.running)

/-- A message holding a pending/running tool call with this id. -/
def mPR (tcid : String) (m : PlatformMessage) : Bool :=
  (m.toolCalls.getD []).any (tcPR tcid)

/-- Every tool call of this message carries status `completed`. -/
def mAllCompleted (c : PlatformMessage) : Bool :=
  (c.toolCalls.getD []).all (fun tc => tc.status == some TCStatus.completed)

theorem hasPendRunTC_eq_any (msgs : List PlatformMessage) (tcid : String) :
    hasPendRunTC msgs tcid = msgs.any (mPR tcid) := rfl

theorem bor_elim {a b : Bool} (h : (a || b) = true) : a = true ∨ b = true := by
  simp only [Bool.or_eq_true] at h
  exact h

theorem any_updateFirst_congr {α : Type} (p q : α → Bool) (f : α → α)
    (hf : ∀ y, q (f y) = q y) (l : List α) : (updateFirst p f l).any q = l.any q := by
  induction l with
  | nil => rfl
  | cons x xs ih =>
    by_cases hx : p x = true
    · rw [updateFirst, if_pos hx, List.any_cons, List.any_cons, hf]
    · rw [updateFirst, if_neg hx, List.any_cons, List.any_cons, ih]

theorem any_updateFirst_imp {α : Type} (p q : α → Bool) (f : α → α)
    (hf : ∀ y, q (f y) = false) (l : List α) :
    (updateFirst p f l).any q = true → l.any q = true := by
  induction l with
  | nil => exact fun h => h
  | cons x xs ih =>
    by_cases hx : p x = true
    · rw [updateFirst, if_pos hx, List.any_cons, List.any_cons, hf]
      intro h
      simp only [Bool.false_or] at h
      simp [h]
    · rw [updateFirst, if_neg hx, List.any_cons, List.any_cons]
      intro h
      simp only [Bool.or_eq_true] at h ⊢
      rcases h with h1 | h2
      · exact Or.inl h1
      · exact Or.inr (ih h2)

theorem any_filter_imp {α : Type} (p q : α → Bool) (l : List α) :
    (l.filter p).any q = true → l.any q = true := by
  intro h
  rcases List.any_eq_true.mp h with ⟨x, hx, hq⟩
  exact List.any_eq_true.mpr ⟨x, List.mem_of_mem_filter hx, hq⟩

theorem listFlat_any {α : Type} (q : α → Bool) (ll : List (List α)) :
    (listFlat ll).any q = ll.any (fun l => l.any q) := by
  induction ll with
  | nil => rfl
  | cons l ls ih => rw [listFlat, List.any_append, List.any_cons, ih]

theorem any_tcPR_false_of_all_completed (tcid : String) (tcs : List PlatformToolCall)
    (h : tcs.all (fun tc => tc.status == some TCStatus.completed) = true) :
    tcs.any (tcPR tcid) = false := by
  rw [List.any_eq_false]
  intro tc htc
  have hc := List.all_eq_true.mp h tc htc
  simp only [beq_iff_eq] at hc
  simp [tcPR, hc]

theorem all_snd_aget {α : Type} (q : α → Bool) (l : AList α)
    (h : l.all (fun pr => q pr.2) = true) (k : String) (v : α)
    (hg : aget l k = some v) : q v = true := by
  rcases Option.map_eq_some'.mp hg with ⟨pr, hfind, hv⟩
  have hq : q pr.2 = true := List.all_eq_true.mp h pr (List.mem_of_find?_eq_some hfind)
  have hv2 : pr.2 = v := hv
  rw [hv2] at hq
  exact hq

theorem pcChildTC_any_false (tcid : String) (pc : AList (List PlatformMessage)) (k : String)
    (hpc : pc.all (fun p => p.2.all mAllCompleted) = true) :
    (listFlat (((aget pc k).getD []).map (fun c => c.toolCalls.getD []))).any
      (tcPR tcid) = false := by
  cases hget : aget pc k with
  | none => rfl
  | some v =>
    have hv : v.all mAllCompleted = true := all_snd_aget (fun w => w.all mAllCompleted) _ hpc k v hget
    rw [Option.getD_some, listFlat_any, List.any_eq_false]
    intro lx hlx
    rcases List.mem_map.mp hlx with ⟨c, hc, hcl⟩
    have hcc : mAllCompleted c = true := List.all_eq_true.mp hv c hc
    have hfalse := any_tcPR_false_of_all_completed tcid (c.toolCalls.getD []) hcc
    subst hcl
    simp [hfalse]

theorem attachToParentLoop_mPR (toolCallId parentId tcid : String)
    (ctc : PlatformToolCall) (hctc : tcPR tcid ctc = false) :
    ∀ l msgs2, attachToParentLoop toolCallId parentId ctc l = some msgs2 →
      msgs2.any (mPR tcid) = true → l.any (mPR tcid) = true := by
  intro l
  induction l with
  | nil =>
    intro msgs2 h
    simp [attachToParentLoop] at h
  | cons m rest ih =>
    intro msgs2 h hany
    rw [attachToParentLoop] at h
    cases hrec : attachToParentLoop toolCallId parentId ctc rest with
    | some rest2 =>
      rw [hrec] at h
      dsimp only at h
      injection h with h
      subst h
      rw [List.any_cons] at hany ⊢
      rcases bor_elim hany with h1 | h2
      · simp [h1]
      · simp [ih rest2 hrec h2]
    | none =>
      rw [hrec] at h
      dsimp only at h
      cases htc : m.toolCalls with
      | none =>
        rw [htc] at h
        exact absurd h (by simp)
      | some tcs =>
        rw [htc] at h
        dsimp only at h
        by_cases hpar : tcs.any (fun tc => tc.id == parentId) = true
        · rw [if_pos hpar] at h
          by_cases hdup : tcs.any (fun tc => tc.id == toolCallId) = true
          · rw [if_pos hdup] at h
            injection h with h
            subst h
            exact hany
          · rw [if_neg hdup] at h
            injection h with h
            subst h
            rw [List.any_cons] at hany ⊢
            rcases bor_elim hany with h1 | h2
            · have h1' : (tcs ++ [ctc]).any (tcPR tcid) = true := h1
              rw [List.any_append] at h1'
              rcases bor_elim h1' with ha | hb
              · have hm : mPR tcid m = true := by
                  simp only [mPR, htc, Option.getD_some]
                  exact ha
                simp [hm]
              · simp only [List.any_cons, List.any_nil, Bool.or_false] at hb
                rw [hctc] at hb
                exact Bool.noConfusion hb
            · simp [h2]
        · rw [if_neg hpar] at h
          exact absurd h (by simp)

theorem attachTargetCase_mPR (toolCallId tcid : String) (ctc : PlatformToolCall)
    (pc : AList (List PlatformMessage)) (m : PlatformMessage)
    (rest msgs2 : List PlatformMessage) (pc2 : AList (List PlatformMessage)) (cond : Bool)
    (hctc : tcPR tcid ctc = false)
    (hpc : pc.all (fun p => p.2.all mAllCompleted) = true)
    (h : (if cond then
            if (m.toolCalls.getD []).any (fun tc => tc.id == toolCallId) then
              some (m :: rest, pc)
            else
              some (({ m with toolCalls := some (m.toolCalls.getD [] ++ [ctc] ++
                  listFlat (((aget pc toolCallId).getD []).map
                    (fun c => c.toolCalls.getD []))) }) :: rest,
                if ((aget pc toolCallId).getD []).length > 0 then adel pc toolCallId else pc)
          else none) = some (msgs2, pc2))
    (hany : msgs2.any (mPR tcid) = true) :
    (m :: rest).any (mPR tcid) = true := by
  by_cases htgt : cond = true
  · rw [if_pos htgt] at h
    by_cases hdup : (m.toolCalls.getD []).any (fun tc => tc.id == toolCallId) = true
    · rw [if_pos hdup] at h
      injection h with h
      injection h with h1 h2
      subst h1
      exact hany
    · rw [if_neg hdup] at h
      injection h with h
      injection h with h1 h2
      subst h1
      rw [List.any_cons] at hany ⊢
      rcases bor_elim hany with hx | hx
      · have h1' : (m.toolCalls.getD [] ++ [ctc] ++
            listFlat (((aget pc toolCallId).getD []).map
              (fun c => c.toolCalls.getD []))).any (tcPR tcid) = true := hx
        rw [List.any_append, List.any_append] at h1'
        rcases bor_elim h1' with hy | hy
        · rcases bor_elim hy with hz | hz
          · have hm : mPR tcid m = true := hz
            simp [hm]
          · simp only [List.any_cons, List.any_nil, Bool.or_false] at hz
            rw [hctc] at hz
            exact Bool.noConfusion hz
        · rw [pcChildTC_any_false tcid pc toolCallId hpc] at hy
          exact Bool.noConfusion hy
      · simp [hx]
  · rw [if_neg htgt] at h
    exact absurd h (by simp)

theorem attachAssistantLoop_cons (toolCallId : String) (ctc : PlatformToolCall)
    (pc : AList (List PlatformMessage)) (pmid : Option String) (m : PlatformMessage)
    (rest : List PlatformMessage) :
    attachAssistantLoop toolCallId ctc pc pmid (m :: rest) =
      match attachAssistantLoop toolCallId ctc pc pmid rest with
      | some (rest2, pc2) => some (m :: rest2, pc2)
      | none =>
        if (match pmid with
            | some pm => m.id == pm
            | none => m.role == "assistant") then
          if (m.toolCalls.getD []).any (fun tc => tc.id == toolCallId) then
            some (m :: rest, pc)
          else
            some (({ m with toolCalls := some (m.toolCalls.getD [] ++ [ctc] ++
                listFlat (((aget pc toolCallId).getD []).map (fun c => c.toolCalls.getD []))) })
              :: rest,
              if ((aget pc toolCallId).getD []).length > 0 then adel pc toolCallId else pc)
        else none := rfl

theorem attachAssistantLoop_mPR (toolCallId tcid : String) (ctc : PlatformToolCall)
    (pc : AList (List PlatformMessage)) (pmid : Option String)
    (hctc : tcPR tcid ctc = false)
    (hpc : pc.all (fun p => p.2.all mAllCompleted) = true) :
    ∀ l msgs2 pc2, attachAssistantLoop toolCallId ctc pc pmid l = some (msgs2, pc2) →
      msgs2.any (mPR tcid) = true → l.any (mPR tcid) = true := by
  intro l
  induction l with
  | nil =>
    intro msgs2 pc2 h
    simp [attachAssistantLoop] at h
  | cons m rest ih =>
    intro msgs2 pc2 h hany
    rw [attachAssistantLoop_cons] at h
    cases hrec : attachAssistantLoop toolCallId ctc pc pmid rest with
    | some p =>
      obtain ⟨rest2, pcr⟩ := p
      rw [hrec] at h
      dsimp only at h
      injection h with h
      injection h with h1 h2
      subst h1
      rw [List.any_cons] at hany ⊢
      rcases bor_elim hany with hx | hx
      · simp [hx]
      · simp [ih rest2 pcr hrec hx]
    | none =>
      rw [hrec] at h
      dsimp only at h
      exact attachTargetCase_mPR toolCallId tcid ctc pc m rest msgs2 pc2 _ hctc hpc h hany

theorem resultAttachLoop_mPR (toolCallId content tcid : String) :
    ∀ l msgs2, resultAttachLoop toolCallId content l = some msgs2 →
      msgs2.any (mPR tcid) = true → l.any (mPR tcid) = true := by
  intro l
  induction l with
  | nil =>
    intro msgs2 h
    simp [resultAttachLoop] at h
  | cons m rest ih =>
    intro msgs2 h hany
    rw [resultAttachLoop] at h
    cases hrec : resultAttachLoop toolCallId content rest with
    | some rest2 =>
      rw [hrec] at h
      dsimp only at h
      injection h with h
      subst h
      rw [List.any_cons] at hany ⊢
      rcases bor_elim hany with h1 | h2
      · simp [h1]
      · simp [ih rest2 hrec h2]
    | none =>
      rw [hrec] at h
      dsimp only at h
      cases htc : m.toolCalls with
      | none =>
        rw [htc] at h
        exact absurd h (by simp)
      | some tcs =>
        rw [htc] at h
        dsimp only at h
        by_cases hfound : tcs.any (fun tc => tc.id == toolCallId) = true
        · rw [if_pos hfound] at h
          injection h with h
          subst h
          rw [List.any_cons] at hany ⊢
          rcases bor_elim hany with h1 | h2
          · have h1' : (updateFirst (fun tc => tc.id == toolCallId)
                (updateTCResult content) tcs).any (tcPR tcid) = true := h1
            have h1'' := any_updateFirst_imp _ _ _
              (fun y => by simp [tcPR, updateTCResult]) tcs h1'
            have hm : mPR tcid m = true := by
              simp only [mPR, htc, Option.getD_some]
              exact h1''
            simp [hm]
          · simp [h2]
        · rw [if_neg hfound] at h
          exact absurd h (by simp)

theorem runFinishedStep_mPR (s : AGUIClientState) (ts tcid : String) :
    hasPendRunTC (runFinishedStep s ts).messages tcid = true →
    hasPendRunTC s.messages tcid = true := by
  rw [runFinishedStep]
  repeat' (first | dsimp only | split)
  all_goals intro h
  all_goals
    first
    | exact h
    | (rw [hasPendRunTC_eq_any, List.any_append] at h
       rcases bor_elim h with h1 | h2
       · exact h1
       · exact absurd h2 (by simp [mPR]))

theorem textEndStep_mPR (s : AGUIClientState) (ts tcid : String) :
    hasPendRunTC (textEndStep s ts).messages tcid = true →
    hasPendRunTC s.messages tcid = true := by
  rw [textEndStep]
  repeat' (first | dsimp only | split)
  all_goals intro h
  all_goals
    first
    | exact h
    | (rw [hasPendRunTC_eq_any, List.any_append] at h
       rcases bor_elim h with h1 | h2
       · exact h1
       · exact absurd h2 (by simp [mPR]))
    | (rw [hasPendRunTC_eq_any,
         any_updateFirst_congr _ _ _ (fun y => by dsimp only [mPR]; split <;> rfl)] at h
       exact h)

theorem toolResultStep_mPR (s : AGUIClientState) (id content tcid : String) :
    hasPendRunTC (toolResultStep s id content).messages tcid = true →
    hasPendRunTC s.messages tcid = true := by
  rw [toolResultStep]
  repeat' (first | dsimp only | split)
  all_goals intro h
  all_goals
    first
    | exact h
    | (rw [hasPendRunTC_eq_any] at h ⊢
       exact resultAttachLoop_mPR id content tcid s.messages _ (by assumption) h)

theorem rawStep_mPR (s : AGUIClientState) (data : Option RawData) (ts tcid : String) :
    hasPendRunTC (rawStep s data ts).messages tcid = true →
    hasPendRunTC s.messages tcid = true := by
  cases data with
  | none => exact fun h => h
  | some rd =>
    rw [rawStep]
    repeat' (first | dsimp only | split)
    all_goals intro h
    all_goals
      first
      | exact h
      | (rw [hasPendRunTC_eq_any] at h ⊢
         exact any_filter_imp _ _ _ h)
      | (rw [hasPendRunTC_eq_any, List.any_append] at h
         rcases bor_elim h with h1 | h2
         · exact h1
         · exact absurd h2 (by simp [mPR]))

theorem toolEndAttachAssistant_mPR (s : AGUIClientState) (toolCallId : String)
    (ctc : PlatformToolCall) (pmid : Option String) (ts tcid : String) :
    hasPendRunTC (toolEndAttachAssistant s toolCallId ctc pmid ts).messages tcid = true →
    tcPR tcid ctc = false →
    s.pendingChildren.all (fun p => p.2.all mAllCompleted) = true →
    hasPendRunTC s.messages tcid = true := by
  intro h0 hctc hpc
  revert h0
  rw [toolEndAttachAssistant]
  cases hloop : attachAssistantLoop toolCallId ctc s.pendingChildren (truthy pmid)
      s.messages with
  | some p =>
    obtain ⟨msgs2, pc2⟩ := p
    dsimp only
    intro h
    exact attachAssistantLoop_mPR toolCallId tcid ctc s.pendingChildren (truthy pmid)
      hctc hpc s.messages msgs2 pc2 hloop h
  | none =>
    dsimp only
    intro h
    rw [hasPendRunTC_eq_any, List.any_append] at h
    rcases bor_elim h with h1 | h2
    · exact h1
    · simp only [List.any_cons, List.any_nil, Bool.or_false] at h2
      have h2' : ([ctc].any (tcPR tcid)) = true := h2
      simp only [List.any_cons, List.any_nil, Bool.or_false] at h2'
      rw [hctc] at h2'
      exact Bool.noConfusion h2'

theorem toolEndStep_mPR (s : AGUIClientState) (eid ts tcid : String)
    (hpc : pcCompletedInv s = true) :
    hasPendRunTC (toolEndStep s eid ts).messages tcid = true →
    hasPendRunTC s.messages tcid = true := by
  rw [toolEndStep]
  repeat' (first | dsimp only [Option.bind] | split)
  all_goals intro h
  all_goals
    first
    | exact h
    | (rw [hasPendRunTC_eq_any] at h ⊢
       refine attachToParentLoop_mPR _ _ tcid _ ?_ s.messages _ (by assumption) h
       simp [tcPR])
    | (have hh := toolEndAttachAssistant_mPR _ _ _ _ _ tcid h (by simp [tcPR]) hpc
       exact hh)

/-- C2 (amended): for every event other than a messages snapshot, in any state
whose buffered pendingChildren all carry status `completed`, no tool call with a
given id is pending or running in the committed messages afterwards unless one
already was before — so outside snapshot merges a tool call's status never
regresses from completed/error back to pending/running.  A messages-snapshot
merge CAN regress status: the in-place merge keeps only the snapshot entry's
status (see the counterexample). -/
theorem c2_status_monotone_amended (s : AGUIClientState) (e : Event) (tcid : String)
    (hpc : pcCompletedInv s = true) (hsnap : isMsgsSnapshot e = false) :
    hasPendRunTC (processEvent s e).messages tcid = true →
    hasPendRunTC s.messages tcid = true := by
  cases e with
  | runStarted a b c => exact fun h => h
  | runFinished a ts =>
    dsimp only [processEvent]
    exact runFinishedStep_mPR s ts tcid
  | runError m => exact fun h => h
  | textStart a b c =>
    dsimp only [processEvent, textStartStep]
    exact fun h => h
  | textContent d =>
    dsimp only [processEvent]
    rw [textContentStep]
    repeat' (first | dsimp only | split)
    all_goals exact fun h => h
  | textEnd ts =>
    dsimp only [processEvent]
    exact textEndStep_mPR s ts tcid
  | toolStart a b c d ts =>
    dsimp only [processEvent, toolStartStep]
    exact fun h => h
  | toolArgs a d =>
    dsimp only [processEvent]
    rw [toolArgsStep]
    repeat' (first | dsimp only | split)
    all_goals exact fun h => h
  | toolEnd id ts =>
    dsimp only [processEvent]
    exact toolEndStep_mPR s id ts tcid hpc
  | toolResult id content =>
    dsimp only [processEvent]
    exact toolResultStep_mPR s id content tcid
  | stateSnapshot snap => exact fun h => h
  | stateDelta patches => exact fun h => h
  | messagesSnapshot msgs => exact absurd hsnap (by simp [isMsgsSnapshot])
  | activitySnapshot acts =>
    cases acts with
    | none => exact fun h => h
    | some a => exact fun h => h
  | activityDelta patches => exact fun h => h
  | stepStarted nm => exact fun h => h
  | stepFinished => exact fun h => h
  | raw data ts =>
    dsimp only [processEvent]
    exact rawStep_mPR s data ts tcid
  | meta mt mid =>
    dsimp only [processEvent]
    rw [metaStep]
    repeat' (first | dsimp only | split)
    all_goals exact fun h => h
  | unknown t => exact fun h => h

def c2wtc : PlatformToolCall :=
  { id := "t1", function := { name := "f", arguments := "" },
    status := some TCStatus.running }

def c2wm : PlatformMessage :=
  { id := "m1", role := "assistant", content := "hi", toolCalls := some [c2wtc] }

def c2ws : AGUIClientState :=
  { initialState with messages := [c2wm] }

theorem c2_witness : hasPendRunTC c2ws.messages "t1" = true :=
  c2_status_monotone_amended c2ws (Event.textContent "x") "t1" (by decide) (by decide)
    (by decide)

/-! ## C6: optimistic send, then snapshot echo merge -/

/-- Everything of a message except its tool calls (the normalization loop and
name recovery only rewire tool calls). -/
def msgCore (m : PlatformMessage) : String × String × String := (m.id, m.role, m.content)

theorem updateFirst_map_proj {α β : Type} (g : α → β) (p : α → Bool) (f : α → α)
    (hf : ∀ y, g (f y) = g y) (l : List α) :
    (updateFirst p f l).map g = l.map g := by
  induction l with
  | nil => rfl
  | cons x xs ih =>
    by_cases hx : p x = true
    · rw [updateFirst, if_pos hx]
      simp [hf, ih]
    · rw [updateFirst, if_neg hx]
      simp [ih]

theorem normStep_core (pids : List String) (pri : AList Nat)
    (acc : List PlatformMessage × List Nat) (i : Nat) :
    (normStep pids pri acc i).1.map msgCore = acc.1.map msgCore := by
  unfold normStep
  repeat' (first | dsimp only | split)
  all_goals first
    | rfl
    | (apply updateFirst_map_proj; intro y; rfl)
    | (apply updateFirst_map_proj; intro y; dsimp only; split <;> rfl)

theorem normFold_core (pids : List String) (pri : AList Nat)
    (idxs : List Nat) (acc : List PlatformMessage × List Nat) :
    (idxs.foldl (normStep pids pri) acc).1.map msgCore = acc.1.map msgCore := by
  induction idxs generalizing acc with
  | nil => rfl
  | cons i rest ih =>
    rw [List.foldl_cons, ih, normStep_core]

theorem normStep_removed (orig : List PlatformMessage) (pids : List String) (pri : AList Nat)
    (acc : List PlatformMessage × List Nat) (i : Nat)
    (hcore : acc.1.map msgCore = orig.map msgCore)
    (hrm : ∀ j ∈ acc.2, (orig[j]?).map (fun m => m.role) = some "tool") :
    ∀ j ∈ (normStep pids pri acc i).2,
      (orig[j]?).map (fun m => m.role) = some "tool" := by
  intro j hj
  have hkey : ∀ m : PlatformMessage, acc.1[i]? = some m → (m.role == "tool") = true →
      (orig[i]?).map (fun mm => mm.role) = some "tool" := by
    intro m hm hrole
    have h1 : (acc.1.map msgCore)[i]? = (orig.map msgCore)[i]? := by rw [hcore]
    rw [List.getElem?_map, List.getElem?_map, hm] at h1
    cases ho : orig[i]? with
    | none =>
      rw [ho] at h1
      exact absurd h1 (by simp)
    | some mo =>
      rw [ho] at h1
      simp only [Option.map_some'] at h1
      injection h1 with h2
      have hrole2 : m.role = mo.role := congrArg (fun c => c.2.1) h2
      simp only [Option.map_some']
      rw [← hrole2]
      simp only [beq_iff_eq] at hrole
      rw [hrole]
  unfold normStep at hj
  dsimp only at hj
  cases hacc : acc.1[i]? with
  | none =>
    rw [hacc] at hj
    exact hrm j hj
  | some m =>
    rw [hacc] at hj
    dsimp only at hj
    by_cases hrole : (m.role == "tool") = true
    · rw [if_pos hrole] at hj
      repeat' (first | dsimp only at hj | split at hj)
      all_goals first
        | exact hrm j hj
        | (rcases List.mem_append.mp hj with hj2 | hj2
           · exact hrm j hj2
           · simp only [List.mem_singleton] at hj2
             subst hj2
             exact hkey m hacc hrole)
    · rw [if_neg hrole] at hj
      exact hrm j hj

theorem normFold_removed (orig : List PlatformMessage) (pids : List String) (pri : AList Nat)
    (idxs : List Nat) (acc : List PlatformMessage × List Nat)
    (hcore : acc.1.map msgCore = orig.map msgCore)
    (hrm : ∀ j ∈ acc.2, (orig[j]?).map (fun m => m.role) = some "tool") :
    ∀ j ∈ (idxs.foldl (normStep pids pri) acc).2,
      (orig[j]?).map (fun m => m.role) = some "tool" := by
  induction idxs generalizing acc with
  | nil => exact hrm
  | cons i rest ih =>
    rw [List.foldl_cons]
    exact ih (normStep pids pri acc i) (by rw [normStep_core, hcore])
      (normStep_removed orig pids pri acc i hcore hrm)

theorem keepIdx_mem_of_not_removed {l : List PlatformMessage} {rm : List Nat} {k : Nat}
    {m : PlatformMessage} (hm : l[k]? = some m) (hk : ¬ k ∈ rm) :
    m ∈ (l.enum.filter (fun p => !(rm.contains p.1))).map (fun p => p.2) := by
  have henum : (k, m) ∈ l.enum := List.mem_enum_iff_getElem?.mpr hm
  have hfil : (k, m) ∈ l.enum.filter (fun p => !(rm.contains p.1)) :=
    List.mem_filter.mpr ⟨henum, by simpa using hk⟩
  exact List.mem_map_of_mem _ hfil

theorem normalize_keeps_nontool (l : List PlatformMessage) (e : PlatformMessage)
    (he : e ∈ l) (hrole : e.role ≠ "tool") :
    ∃ e2, e2 ∈ normalizeSnapshotMessages l ∧ msgCore e2 = msgCore e := by
  unfold normalizeSnapshotMessages
  dsimp only
  split
  · exact ⟨e, he, rfl⟩
  · rcases List.mem_iff_getElem?.mp he with ⟨k, hk⟩
    have hcore := normFold_core (collectParentToolCallIds l)
      (buildParentResultIndex (collectParentToolCallIds l) l) (List.range l.length) (l, [])
    have hrem := normFold_removed l (collectParentToolCallIds l)
      (buildParentResultIndex (collectParentToolCallIds l) l) (List.range l.length) (l, [])
      rfl (by intro j hj; cases hj)
    have h1 : (((List.range l.length).foldl (normStep (collectParentToolCallIds l)
        (buildParentResultIndex (collectParentToolCallIds l) l)) (l, [])).1.map
        msgCore)[k]? = (l.map msgCore)[k]? := by rw [hcore]
    rw [List.getElem?_map, List.getElem?_map, hk] at h1
    cases hk2 : ((List.range l.length).foldl (normStep (collectParentToolCallIds l)
        (buildParentResultIndex (collectParentToolCallIds l) l)) (l, [])).1[k]? with
    | none =>
      rw [hk2] at h1
      exact absurd h1 (by simp)
    | some e2 =>
      rw [hk2] at h1
      simp only [Option.map_some'] at h1
      injection h1 with h2
      have hnotrm : ¬ k ∈ ((List.range l.length).foldl (normStep (collectParentToolCallIds l)
          (buildParentResultIndex (collectParentToolCallIds l) l)) (l, [])).2 := by
        intro hmem
        have := hrem k hmem
        rw [hk] at this
        simp only [Option.map_some'] at this
        injection this with h3
        exact hrole h3
      exact ⟨e2, keepIdx_mem_of_not_removed hk2 hnotrm, h2⟩

theorem normalize_ids_sublist (l : List PlatformMessage) :
    ((normalizeSnapshotMessages l).map (fun m => m.id)).Sublist
      (l.map (fun m => m.id)) := by
  unfold normalizeSnapshotMessages
  dsimp only
  split
  · exact List.Sublist.refl _
  · rw [List.map_map]
    have hsub : ((((List.range l.length).foldl (normStep (collectParentToolCallIds l)
        (buildParentResultIndex (collectParentToolCallIds l) l)) (l, [])).1.enum.filter
        (fun p => !(((List.range l.length).foldl (normStep (collectParentToolCallIds l)
          (buildParentResultIndex (collectParentToolCallIds l) l)) (l, [])).2.contains
          p.1))).map ((fun m => m.id) ∘ (fun p => p.2))).Sublist
        (((List.range l.length).foldl (normStep (collectParentToolCallIds l)
          (buildParentResultIndex (collectParentToolCallIds l) l)) (l, [])).1.enum.map
          ((fun m => m.id) ∘ (fun p => p.2))) :=
      (List.filter_sublist _).map _
    have heq : (((List.range l.length).foldl (normStep (collectParentToolCallIds l)
        (buildParentResultIndex (collectParentToolCallIds l) l)) (l, [])).1.enum.map
        ((fun m => m.id) ∘ (fun p => p.2))) = l.map (fun m => m.id) := by
      have h3 : (((List.range l.length).foldl (normStep (collectParentToolCallIds l)
          (buildParentResultIndex (collectParentToolCallIds l) l)) (l, [])).1.enum.map
          ((fun m => m.id) ∘ (fun p => p.2))) =
          ((((List.range l.length).foldl (normStep (collectParentToolCallIds l)
            (buildParentResultIndex (collectParentToolCallIds l) l)) (l, [])).1.enum.map
            Prod.snd).map (fun m => m.id)) := by
        rw [List.map_map]
      rw [h3, List.enum_map_snd]
      exact normFold_ids _ _ _ _
    rw [← heq]
    exact hsub

theorem aget_foldl_aset_of_none (l : List PlatformMessage) (acc : AList PlatformMessage)
    (k : String) (hnone : ∀ m ∈ l, m.id ≠ k) :
    aget (l.foldl (fun acc m => aset acc m.id m) acc) k = aget acc k := by
  induction l generalizing acc with
  | nil => rfl
  | cons x rest ih =>
    rw [List.foldl_cons, ih _ (fun m hm => hnone m (List.mem_cons_of_mem _ hm)),
      aget_aset_ne _ _ _ _ (fun he => hnone x (List.mem_cons_self _ _) he.symm)]

theorem aget_foldl_aset_of_mem (l : List PlatformMessage) (e : PlatformMessage)
    (he : e ∈ l) (hnd : (l.map (fun m => m.id)).Nodup) :
    ∀ acc, aget (l.foldl (fun acc m => aset acc m.id m) acc) e.id = some e := by
  induction l with
  | nil => cases he
  | cons x rest ih =>
    intro acc
    rw [List.foldl_cons]
    rcases List.mem_cons.mp he with he1 | he2
    · subst he1
      have hx : e.id ∉ rest.map (fun m => m.id) :=
        (List.nodup_cons.mp (by simpa using hnd)).1
      have hnone : ∀ m ∈ rest, m.id ≠ e.id := by
        intro m hm heq
        exact hx (by rw [← heq]; exact List.mem_map_of_mem _ hm)
      rw [aget_foldl_aset_of_none rest _ e.id hnone, aget_aset_self]
    · exact ih he2 (List.Nodup.of_cons (by simpa using hnd)) _

theorem buildSnapshotMap_aget_of_mem (l : List PlatformMessage) (e : PlatformMessage)
    (he : e ∈ l) (hnd : (l.map (fun m => m.id)).Nodup) :
    aget (buildSnapshotMap l) e.id = some e :=
  aget_foldl_aset_of_mem l e he hnd []

/-- The per-message in-place merge of `mergeExisting`, as a named function. -/
def mergeExistingEl (snapshotMap : AList PlatformMessage) (msg : PlatformMessage) :
    PlatformMessage :=
  match aget snapshotMap msg.id with
  | none => msg
  | some snapshotVersion =>
    if msg.role == "assistant" && !(msg.toolCalls.getD []).isEmpty &&
        !(snapshotVersion.toolCalls.getD []).isEmpty then
      { snapshotVersion with
        toolCalls :=
          some (mergeToolCalls (snapshotVersion.toolCalls.getD []) (msg.toolCalls.getD [])) }
    else snapshotVersion

theorem mergeExisting_eq_map (sm : AList PlatformMessage) (msgs : List PlatformMessage) :
    mergeExisting sm msgs = msgs.map (mergeExistingEl sm) := rfl

theorem mergeExistingEl_id (sm : AList PlatformMessage)
    (hsm : ∀ k v, aget sm k = some v → v.id = k) (msg : PlatformMessage) :
    (mergeExistingEl sm msg).id = msg.id := by
  unfold mergeExistingEl
  cases hget : aget sm msg.id with
  | none => rfl
  | some sv =>
    have hids := hsm _ _ hget
    dsimp only
    split <;> simp [hids]

/-- The per-message name-recovery function of `applyToolNames`, as a named
function. -/
def applyToolNamesEl (toolNameMap : AList String) (msg : PlatformMessage) :
    PlatformMessage :=
  if msg.role == "assistant" then
    match msg.toolCalls with
    | some tcs =>
      { msg with toolCalls := some (tcs.map (fun tc =>
          if tc.function.name == "" || tc.function.name == "tool" ||
              tc.function.name == "unknown_tool" then
            match aget toolNameMap tc.id with
            | some nm => { tc with function := { tc.function with name := nm } }
            | none => tc
          else tc)) }
    | none => msg
  else msg

theorem applyToolNames_eq_map (tm : AList String) (l : List PlatformMessage) :
    applyToolNames tm l = l.map (applyToolNamesEl tm) := rfl

theorem applyToolNamesEl_core (tm : AList String) (msg : PlatformMessage) :
    msgCore (applyToolNamesEl tm msg) = msgCore msg := by
  unfold applyToolNamesEl
  split
  · split <;> rfl
  · rfl

theorem applyToolNamesEl_id (tm : AList String) (msg : PlatformMessage) :
    (applyToolNamesEl tm msg).id = msg.id :=
  congrArg (fun c => c.1) (applyToolNamesEl_core tm msg)

theorem idFilter_map {f : PlatformMessage → PlatformMessage}
    (hf : ∀ x, (f x).id = x.id) (uuid : String) (l : List PlatformMessage) :
    (l.map f).filter (fun m => m.id == uuid) =
      (l.filter (fun m => m.id == uuid)).map f := by
  induction l with
  | nil => rfl
  | cons x xs ih =>
    rw [List.map_cons, List.filter_cons, List.filter_cons, hf]
    by_cases hp : (x.id == uuid) = true
    · rw [if_pos hp, if_pos hp, List.map_cons, ih]
    · rw [if_neg hp, if_neg hp, ih]

theorem spliceAt_filter_neg {α : Type} (p : α → Bool) (l : List α) (i : Nat) (x : α)
    (hx : p x = false) : (spliceAt l i x).filter p = l.filter p := by
  rw [spliceAt, List.filter_append, List.filter_cons]
  simp only [hx, Bool.false_eq_true, if_false]
  rw [← List.filter_append, List.take_append_drop]

theorem mergeInsert_filter (p : PlatformMessage → Bool) :
    ∀ toIns merged ids, (∀ m ∈ toIns, p m = true → ids.contains m.id = true) →
      (mergeInsert toIns merged ids).filter p = merged.filter p := by
  intro toIns
  induction toIns with
  | nil => intro merged ids _; rfl
  | cons m rest ih =>
    intro merged ids hh
    rw [mergeInsert]
    by_cases hc : ids.contains m.id = true
    · rw [if_pos hc]
      exact ih merged ids (fun x hx hpx => hh x (List.mem_cons_of_mem _ hx) hpx)
    · rw [if_neg hc]
      have hpm : p m = false := by
        cases hp : p m
        · rfl
        · exact absurd (hh m (List.mem_cons_self _ _) hp) hc
      have hmono : ∀ x ∈ rest, p x = true → (ids ++ [m.id]).contains x.id = true := by
        intro x hx hpx
        have hx2 := hh x (List.mem_cons_of_mem _ hx) hpx
        have hx3 : x.id ∈ ids := by simpa using hx2
        have hx4 : x.id ∈ ids ++ [m.id] := List.mem_append.mpr (Or.inl hx3)
        simpa using hx4
      dsimp only
      cases hfind : rest.find? (fun n => ids.contains n.id) with
      | none =>
        dsimp only
        rw [ih _ _ hmono, List.filter_append, List.filter_cons]
        simp only [hpm, Bool.false_eq_true, if_false]
        rw [List.filter_nil, List.append_nil]
      | some n =>
        dsimp only
        cases hidx : merged.findIdx? (fun x => x.id == n.id) with
        | none =>
          dsimp only
          rw [ih _ _ hmono, List.filter_append, List.filter_cons]
          simp only [hpm, Bool.false_eq_true, if_false]
          rw [List.filter_nil, List.append_nil]
        | some idx =>
          dsimp only
          rw [ih _ _ hmono, spliceAt_filter_neg _ _ _ _ hpm]

theorem pair_sublist_build {α : Type} (a b : α) (l1 l2 : List α) (hb : b ∈ l2) :
    [a, b].Sublist (l1 ++ a :: l2) :=
  (List.cons_sublist_cons.mpr (List.singleton_sublist.mpr hb)).trans
    (List.sublist_append_right l1 _)

theorem pair_sublist_of_sublist {α : Type} {l' l : List α} {a b : α}
    (hsub : l'.Sublist l) (hnd : l.Nodup) (ha : a ∈ l') (hb : b ∈ l')
    (hab : [a, b].Sublist l) : [a, b].Sublist l' := by
  induction hsub with
  | slnil => cases ha
  | cons x hs ih =>
    have hnd' := List.Nodup.of_cons hnd
    have hxnot := (List.nodup_cons.mp hnd).1
    cases hab with
    | cons _ hab2 => exact ih hnd' ha hb hab2
    | cons₂ _ hab2 =>
      exact absurd (List.Sublist.mem ha hs) hxnot
  | cons₂ x hs ih =>
    have hnd' := List.Nodup.of_cons hnd
    have hxnot := (List.nodup_cons.mp hnd).1
    cases hab with
    | cons _ hab2 =>
      rcases List.mem_cons.mp ha with h | ha2
      · exact absurd (List.Sublist.mem (List.mem_cons_self _ _) hab2)
          (by rw [h]; exact hxnot)
      · rcases List.mem_cons.mp hb with h | hb2
        · exact absurd (List.Sublist.mem (List.mem_cons_of_mem _
            (List.mem_singleton.mpr rfl)) hab2) (by rw [h]; exact hxnot)
        · exact List.Sublist.cons x (ih hnd' ha2 hb2 hab2)
    | cons₂ _ hab2 =>
      rcases List.mem_cons.mp hb with h | hb2
      · exact absurd (List.Sublist.mem (List.mem_singleton.mpr rfl) hab2)
          (by rw [h]; exact hxnot)
      · exact List.cons_sublist_cons.mpr (List.singleton_sublist.mpr hb2)

theorem sublist_split_mid {α : Type} {l' L1 L2 : List α} {x : α}
    (hsub : l'.Sublist (L1 ++ x :: L2)) (hnd : (L1 ++ x :: L2).Nodup) (hx : x ∈ l') :
    ∃ l1 l2, l' = l1 ++ x :: l2 ∧ l1.Sublist L1 ∧ l2.Sublist L2 := by
  rcases List.sublist_append_iff.mp hsub with ⟨r1, r2, heq, hr1, hr2⟩
  cases hr2 with
  | cons _ hr2b =>
    exfalso
    subst heq
    rcases List.mem_append.mp hx with h | h
    · exact (List.nodup_append.mp hnd).2.2 (List.Sublist.mem h hr1)
        (List.mem_cons_self _ _)
    · exact (List.nodup_cons.mp (List.nodup_append.mp hnd).2.1).1
        (List.Sublist.mem h hr2b)
  | cons₂ _ hr2b =>
    exact ⟨r1, _, heq, hr1, hr2b⟩

theorem find?_append_first {α : Type} (p : α → Bool) (y : α) :
    ∀ (X Z : List α), (∀ x ∈ X, p x = false) → p y = true →
      (X ++ y :: Z).find? p = some y := by
  intro X
  induction X with
  | nil =>
    intro Z _ hy
    rw [List.nil_append, List.find?_cons_of_pos _ hy]
  | cons a X2 ih =>
    intro Z hX hy
    rw [List.cons_append,
      List.find?_cons_of_neg _ (by simp [hX a (List.mem_cons_self _ _)])]
    exact ih Z (fun x hx => hX x (List.mem_cons_of_mem _ hx)) hy

theorem findIdx?_append_first {α : Type} (p : α → Bool) (y : α) (hy : p y = true) :
    ∀ (M R : List α) (i : Nat), (∀ x ∈ M, p x = false) →
      List.findIdx? p (M ++ y :: R) i = some (M.length + i) := by
  intro M
  induction M with
  | nil =>
    intro R i _
    rw [List.nil_append, List.findIdx?_cons, if_pos hy]
    simp
  | cons a M2 ih =>
    intro R i hM
    rw [List.cons_append, List.findIdx?_cons,
      if_neg (by simp [hM a (List.mem_cons_self _ _)])]
    rw [ih R (i + 1) (fun x hx => hM x (List.mem_cons_of_mem _ hx))]
    congr 1
    simp [List.length_cons]
    omega

theorem fresh_extend {rest : List PlatformMessage} {ids : List String} {bid : String}
    (hfresh : ∀ x ∈ rest, ids.contains x.id = false)
    (hnot : ∀ x ∈ rest, x.id ≠ bid) :
    ∀ x ∈ rest, (ids ++ [bid]).contains x.id = false := by
  intro x hx
  have h1m : ¬ x.id ∈ ids := by simpa using hfresh x hx
  have h2 : ¬ x.id ∈ ids ++ [bid] := by
    intro hmem
    rcases List.mem_append.mp hmem with hA | hB
    · exact h1m hA
    · exact hnot x hx (by simpa using hB)
  simpa using h2

theorem mergeInsert_all_fresh :
    ∀ (B merged : List PlatformMessage) (ids : List String),
      (∀ x ∈ B, ids.contains x.id = false) → ((B.map (fun m => m.id)).Nodup) →
      mergeInsert B merged ids = merged ++ B := by
  intro B
  induction B with
  | nil =>
    intro merged ids _ _
    rw [mergeInsert, List.append_nil]
  | cons b rest ih =>
    intro merged ids hfresh hnd
    have hnd2 : b.id ∉ rest.map (fun m => m.id) ∧ (rest.map (fun m => m.id)).Nodup := by
      rw [List.map_cons, List.nodup_cons] at hnd
      exact hnd
    rw [mergeInsert, if_neg (by simpa using hfresh b (List.mem_cons_self _ _))]
    dsimp only
    have hfind : rest.find? (fun n => ids.contains n.id) = none := by
      rw [List.find?_eq_none]
      intro x hx
      simpa using hfresh x (List.mem_cons_of_mem _ hx)
    rw [hfind]
    dsimp only
    have hnotb : ∀ x ∈ rest, x.id ≠ b.id := by
      intro x hx he
      exact hnd2.1 (by rw [← he]; exact List.mem_map_of_mem _ hx)
    rw [ih (merged ++ [b]) (ids ++ [b.id])
      (fresh_extend (fun x hx => hfresh x (List.mem_cons_of_mem _ hx)) hnotb)
      hnd2.2]
    rw [List.append_assoc, List.singleton_append]

theorem mergeInsert_echo_shape (eid : String) :
    ∀ (NA NB : List PlatformMessage) (x : PlatformMessage) (M : List PlatformMessage)
      (eel : PlatformMessage) (ids : List String),
      x.id = eid → eel.id = eid → ids.contains eid = true →
      (∀ y ∈ NA, ids.contains y.id = false) →
      (∀ y ∈ NB, ids.contains y.id = false) →
      (((NA ++ x :: NB).map (fun m => m.id)).Nodup) →
      (∀ i ∈ M.map (fun m => m.id), i ≠ eid) →
      mergeInsert (NA ++ x :: NB) (M ++ [eel]) ids = M ++ NA ++ eel :: NB := by
  intro NA
  induction NA with
  | nil =>
    intro NB x M eel ids hx heel hknown _ hNB hnd _
    have hnd2 : (NB.map (fun m => m.id)).Nodup := by
      rw [List.nil_append, List.map_cons, List.nodup_cons] at hnd
      exact hnd.2
    rw [List.nil_append, mergeInsert, if_pos (by rw [hx]; exact hknown)]
    rw [mergeInsert_all_fresh NB (M ++ [eel]) ids hNB hnd2]
    rw [List.append_assoc, List.singleton_append, List.append_nil]
  | cons a NA2 ih =>
    intro NB x M eel ids hx heel hknown hNA hNB hnd hM
    have hndc : a.id ∉ (NA2 ++ x :: NB).map (fun m => m.id) ∧
        ((NA2 ++ x :: NB).map (fun m => m.id)).Nodup := by
      rw [List.cons_append, List.map_cons, List.nodup_cons] at hnd
      exact hnd
    rw [List.cons_append, mergeInsert,
      if_neg (by simpa using hNA a (List.mem_cons_self _ _))]
    dsimp only
    have hfind : (NA2 ++ x :: NB).find? (fun n => ids.contains n.id) = some x := by
      apply find?_append_first
      · intro y hy
        simpa using hNA y (List.mem_cons_of_mem _ hy)
      · rw [hx]
        exact hknown
    rw [hfind]
    dsimp only
    have hMfalse : ∀ m ∈ M, ((fun z => z.id == x.id) m) = false := by
      intro m hm
      have h1 : m.id ≠ eid := hM m.id (List.mem_map_of_mem _ hm)
      dsimp only
      rw [hx]
      simp [h1]
    have hidx : (M ++ [eel]).findIdx? (fun z => z.id == x.id) = some M.length := by
      have h2 := findIdx?_append_first (fun z => z.id == x.id) eel
        (by dsimp only; rw [heel, hx]; simp) M [] 0 hMfalse
      simpa using h2
    rw [hidx]
    dsimp only
    have hsplice : spliceAt (M ++ [eel]) M.length a = (M ++ [a]) ++ [eel] := by
      rw [spliceAt, List.take_left, List.drop_left, List.append_assoc,
        List.singleton_append]
    rw [hsplice]
    have hafresh : ids.contains a.id = false := hNA a (List.mem_cons_self _ _)
    have hanot : a.id ≠ eid := by
      intro he
      have h3 : eid ∈ ids := by simpa using hknown
      have h4 : ¬ a.id ∈ ids := by simpa using hafresh
      rw [he] at h4
      exact h4 h3
    have hnotA : ∀ y ∈ NA2, y.id ≠ a.id := by
      intro y hy he
      exact hndc.1 (by
        rw [← he]
        exact List.mem_map_of_mem _ (List.mem_append.mpr (Or.inl hy)))
    have hnotB : ∀ y ∈ NB, y.id ≠ a.id := by
      intro y hy he
      exact hndc.1 (by
        rw [← he]
        exact List.mem_map_of_mem _
          (List.mem_append.mpr (Or.inr (List.mem_cons_of_mem _ hy))))
    have hknown2 : (ids ++ [a.id]).contains eid = true := by
      have h5 : eid ∈ ids := by simpa using hknown
      have h6 : eid ∈ ids ++ [a.id] := List.mem_append.mpr (Or.inl h5)
      simpa using h6
    have hM2 : ∀ i ∈ (M ++ [a]).map (fun m => m.id), i ≠ eid := by
      intro i hi
      rw [List.map_append] at hi
      rcases List.mem_append.mp hi with h7 | h7
      · exact hM i h7
      · have h8 : i = a.id := by simpa using h7
        rw [h8]
        exact hanot
    rw [ih NB x (M ++ [a]) eel (ids ++ [a.id]) hx heel hknown2
      (fresh_extend (fun y hy => hNA y (List.mem_cons_of_mem _ hy)) hnotA)
      (fresh_extend hNB hnotB) hndc.2 hM2]
    simp [List.append_assoc]

theorem filter_dropRedundant_of_role (merged : List PlatformMessage) (uuid : String)
    (h : ∀ m ∈ merged.filter (fun m => m.id == uuid), (m.role != "tool") = true) :
    (dropRedundantToolMessages merged).filter (fun m => m.id == uuid) =
      merged.filter (fun m => m.id == uuid) := by
  unfold dropRedundantToolMessages
  rw [List.filter_comm, List.filter_eq_self]
  intro m hm
  have hr := h m hm
  rw [hr]
  rfl

theorem dropRedundant_mem_of_role {merged : List PlatformMessage} {m : PlatformMessage}
    (hm : m ∈ merged) (hr : (m.role != "tool") = true) :
    m ∈ dropRedundantToolMessages merged := by
  unfold dropRedundantToolMessages
  refine List.mem_filter.mpr ⟨hm, ?_⟩
  dsimp only
  rw [hr]
  rfl

/-- The optimistic local user message inserted by `sendMessage`. -/
def c6um (uuid ts : String) : PlatformMessage :=
  { id := uuid, role := "user", content := "hello", timestamp := ts }

/-- C6: `sendMessage "hello"` synchronously appends exactly one optimistic
user-role message with the client-generated id before any network call; when a
messages snapshot then arrives of the form `A ++ echo :: B` — the echo carrying
that exact id, role `user` and content `"hello"`, the surrounding `A`/`B`
messages all carrying fresh ids — the merged messages list still contains
exactly one entry with that id, with role `user` and content `"hello"` (no
duplicate: the snapshot echo is merged in place), and every later-arriving
assistant reply from `B` is positioned after that entry (no reordering). -/
theorem c6_optimistic_send_snapshot (s0 : AGUIClientState) (uuid ts : String)
    (A B : List PlatformMessage) (e bm : PlatformMessage)
    (h0 : s0.messages.filter (fun m => m.id == uuid) = [])
    (hnd0 : (s0.messages.map (fun m => m.id)).Nodup)
    (heid : e.id = uuid) (herole : e.role = "user") (hecont : e.content = "hello")
    (hhidden : ∀ m ∈ A ++ e :: B, s0.hiddenMessageIds.contains m.id = false)
    (hnd : ((A ++ e :: B).map (fun m => m.id)).Nodup)
    (hfresh : ∀ m ∈ A ++ B, ¬ m.id ∈ s0.messages.map (fun m => m.id) ∧ m.id ≠ uuid)
    (hb : bm ∈ B) (hbrole : bm.role = "assistant") :
    (sendMessageOptimistic s0 "hello" uuid ts).messages
      = s0.messages ++ [c6um uuid ts] ∧
    ((processEvent (sendMessageOptimistic s0 "hello" uuid ts)
        (Event.messagesSnapshot (A ++ e :: B))).messages.filter
        (fun m => m.id == uuid)).map msgCore = [(uuid, "user", "hello")] ∧
    [uuid, bm.id].Sublist ((processEvent (sendMessageOptimistic s0 "hello" uuid ts)
        (Event.messagesSnapshot (A ++ e :: B))).messages.map (fun m => m.id)) := by
  set s1 := sendMessageOptimistic s0 "hello" uuid ts with hs1def
  set snap := A ++ e :: B with hsnap
  set vis := snap.filter (fun m => !(s1.hiddenMessageIds.contains m.id)) with hvis
  set norm := normalizeSnapshotMessages vis with hnorm
  set smap := buildSnapshotMap norm with hsmap
  set m1 := mergeExisting smap s1.messages with hm1
  set m2 := mergeInsert norm m1 (s1.messages.map (fun m => m.id)) with hm2
  set tnm := buildToolNameMap m2 s1.pendingToolCalls with htnm
  set m3 := applyToolNames tnm m2 with hm3
  have hr : (processEvent s1 (Event.messagesSnapshot snap)).messages =
      dropRedundantToolMessages m3 := rfl
  have hhid1 : s1.hiddenMessageIds = s0.hiddenMessageIds := rfl
  have hs1m : s1.messages = s0.messages ++ [c6um uuid ts] := rfl
  have hsm_spec : ∀ k v, aget smap k = some v → v.id = k :=
    fun k v h => (buildSnapshotMap_spec _ k v h).2
  have hs0ids : ∀ i ∈ s0.messages.map (fun m => m.id), i ≠ uuid := by
    intro i hi he2
    rcases List.mem_map.mp hi with ⟨m0, hm0, hid0⟩
    have hid0b : m0.id = i := hid0
    have h0b := List.filter_eq_nil_iff.mp h0 m0 hm0
    apply h0b
    rw [hid0b, he2]
    simp
  have huuidmem : uuid ∈ s1.messages.map (fun m => m.id) := by
    rw [hs1m, List.map_append]
    exact List.mem_append.mpr (Or.inr (by simp [c6um]))
  have hu_filter : s1.messages.filter (fun m => m.id == uuid) = [c6um uuid ts] := by
    rw [hs1m, List.filter_append, h0, List.nil_append, List.filter_cons]
    simp [c6um]
  have hesnap : e ∈ snap := by
    rw [hsnap]
    exact List.mem_append.mpr (Or.inr (List.mem_cons_self _ _))
  have hev : e ∈ vis := by
    rw [hvis]
    refine List.mem_filter.mpr ⟨hesnap, ?_⟩
    rw [hhid1]
    simpa using hhidden e hesnap
  obtain ⟨e2, he2mem, he2core⟩ :=
    normalize_keeps_nontool vis e hev (by rw [herole]; decide)
  have he2id : e2.id = uuid := by
    have h1 : e2.id = e.id := congrArg (fun c => c.1) he2core
    rw [h1, heid]
  have he2role : e2.role = "user" := by
    have h1 : e2.role = e.role := congrArg (fun c => c.2.1) he2core
    rw [h1, herole]
  have he2cont : e2.content = "hello" := by
    have h1 : e2.content = e.content := congrArg (fun c => c.2.2) he2core
    rw [h1, hecont]
  have hnd_snap : (snap.map (fun m => m.id)).Nodup := by rw [hsnap]; exact hnd
  have hnd_vis : (vis.map (fun m => m.id)).Nodup := by
    rw [hvis]
    exact List.Nodup.sublist ((List.filter_sublist _).map _) hnd_snap
  have hnd_norm : (norm.map (fun m => m.id)).Nodup := by
    rw [hnorm]
    exact List.Nodup.sublist (normalize_ids_sublist vis) hnd_vis
  have haget : aget smap uuid = some e2 := by
    rw [hsmap]
    have h1 := buildSnapshotMap_aget_of_mem norm e2 he2mem hnd_norm
    rw [he2id] at h1
    exact h1
  have hm1eq : m1 = s1.messages.map (mergeExistingEl smap) := by
    rw [hm1]
    exact mergeExisting_eq_map smap s1.messages
  have hm1f : m1.filter (fun m => m.id == uuid) =
      [mergeExistingEl smap (c6um uuid ts)] := by
    rw [hm1eq, idFilter_map (mergeExistingEl_id smap hsm_spec) uuid, hu_filter,
      List.map_cons, List.map_nil]
  have hElu : mergeExistingEl smap (c6um uuid ts) = e2 := by
    unfold mergeExistingEl
    have hag2 : aget smap (c6um uuid ts).id = some e2 := haget
    rw [hag2]
    rfl
  have hins : ∀ m ∈ norm, (m.id == uuid) = true →
      (s1.messages.map (fun m => m.id)).contains m.id = true := by
    intro m _ hp
    have h1 : m.id = uuid := by simpa using hp
    rw [h1]
    simpa using huuidmem
  have hm2f : m2.filter (fun m => m.id == uuid) = [e2] := by
    rw [hm2, mergeInsert_filter (fun m => m.id == uuid) norm m1 _ hins, hm1f, hElu]
  have hm3f : m3.filter (fun m => m.id == uuid) = [applyToolNamesEl tnm e2] := by
    rw [hm3, applyToolNames_eq_map, idFilter_map (applyToolNamesEl_id tnm) uuid,
      hm2f, List.map_cons, List.map_nil]
  have hrole3 : (applyToolNamesEl tnm e2).role = "user" := by
    have h1 : (applyToolNamesEl tnm e2).role = e2.role :=
      congrArg (fun c => c.2.1) (applyToolNamesEl_core tnm e2)
    rw [h1, he2role]
  have hcond : ∀ m ∈ m3.filter (fun m => m.id == uuid), (m.role != "tool") = true := by
    rw [hm3f]
    intro m hm
    have h1 : m = applyToolNamesEl tnm e2 := by simpa using hm
    rw [h1, hrole3]
    decide
  have hsnapids : snap.map (fun m => m.id) =
      A.map (fun m => m.id) ++ uuid :: B.map (fun m => m.id) := by
    rw [hsnap, List.map_append, List.map_cons, heid]
  have hsubn : (norm.map (fun m => m.id)).Sublist (snap.map (fun m => m.id)) := by
    rw [hnorm, hvis]
    exact (normalize_ids_sublist _).trans ((List.filter_sublist _).map _)
  have hxin : uuid ∈ norm.map (fun m => m.id) := by
    rw [← he2id]
    exact List.mem_map_of_mem _ he2mem
  have hndsnap2 : (A.map (fun m => m.id) ++ uuid :: B.map (fun m => m.id)).Nodup := by
    rw [← hsnapids]
    exact hnd_snap
  have hsubn2 : (norm.map (fun m => m.id)).Sublist
      (A.map (fun m => m.id) ++ uuid :: B.map (fun m => m.id)) := by
    rw [← hsnapids]
    exact hsubn
  obtain ⟨I1, I2, hnids, hI1, hI2⟩ := sublist_split_mid hsubn2 hndsnap2 hxin
  obtain ⟨NA, rest0, hsplit, hNAids, hrestids⟩ := List.map_eq_append_iff.mp hnids
  obtain ⟨x, NB, hrest, hxid, hNBids⟩ := List.map_eq_cons_iff.mp hrestids
  have hnormsplit : norm = NA ++ x :: NB := by rw [hsplit, hrest]
  have hxid2 : x.id = uuid := hxid
  have hs1ids : s1.messages.map (fun m => m.id) =
      s0.messages.map (fun m => m.id) ++ [uuid] := by
    rw [hs1m, List.map_append]
    rfl
  have hfreshid : ∀ i, (i ∈ A.map (fun m => m.id) ∨ i ∈ B.map (fun m => m.id)) →
      (s1.messages.map (fun m => m.id)).contains i = false := by
    intro i hi
    have hiAB : ∃ m0, m0 ∈ A ++ B ∧ m0.id = i := by
      rcases hi with h | h
      · rcases List.mem_map.mp h with ⟨m0, hm0, hid⟩
        exact ⟨m0, List.mem_append.mpr (Or.inl hm0), hid⟩
      · rcases List.mem_map.mp h with ⟨m0, hm0, hid⟩
        exact ⟨m0, List.mem_append.mpr (Or.inr hm0), hid⟩
    rcases hiAB with ⟨m0, hm0, hid⟩
    have hf := hfresh m0 hm0
    have h4 : ¬ i ∈ s1.messages.map (fun m => m.id) := by
      rw [hs1ids]
      intro hmem
      rcases List.mem_append.mp hmem with h | h
      · rw [← hid] at h
        exact hf.1 h
      · have h2 : i = uuid := by simpa using h
        exact hf.2 (by rw [hid]; exact h2)
    simpa using h4
  have hNAfresh : ∀ y ∈ NA, (s1.messages.map (fun m => m.id)).contains y.id = false := by
    intro y hy
    apply hfreshid
    left
    have h1 : y.id ∈ I1 := by rw [← hNAids]; exact List.mem_map_of_mem _ hy
    exact List.Sublist.mem h1 hI1
  have hNBfresh : ∀ y ∈ NB, (s1.messages.map (fun m => m.id)).contains y.id = false := by
    intro y hy
    apply hfreshid
    right
    have h1 : y.id ∈ I2 := by rw [← hNBids]; exact List.mem_map_of_mem _ hy
    exact List.Sublist.mem h1 hI2
  have hndnorm2 : (((NA ++ x :: NB).map (fun m => m.id)).Nodup) := by
    rw [← hnormsplit]
    exact hnd_norm
  have hMids : (s0.messages.map (mergeExistingEl smap)).map (fun m => m.id) =
      s0.messages.map (fun m => m.id) := by
    rw [List.map_map]
    apply List.map_congr_left
    intro m _
    exact mergeExistingEl_id smap hsm_spec m
  have hm1shape : m1 = (s0.messages.map (mergeExistingEl smap)) ++ [e2] := by
    rw [hm1eq, hs1m, List.map_append, List.map_cons, List.map_nil, hElu]
  have hknown : (s1.messages.map (fun m => m.id)).contains uuid = true := by
    simpa using huuidmem
  have hMnot : ∀ i ∈ (s0.messages.map (mergeExistingEl smap)).map (fun m => m.id),
      i ≠ uuid := by
    rw [hMids]
    exact hs0ids
  have hm2shape : m2 = (s0.messages.map (mergeExistingEl smap)) ++ NA ++ e2 :: NB := by
    rw [hm2, hnormsplit, hm1shape]
    exact mergeInsert_echo_shape uuid NA NB x _ e2 _ hxid2 he2id hknown hNAfresh
      hNBfresh hndnorm2 hMnot
  have hbsnap : bm ∈ snap := by
    rw [hsnap]
    exact List.mem_append.mpr (Or.inr (List.mem_cons_of_mem _ hb))
  have hbv : bm ∈ vis := by
    rw [hvis]
    refine List.mem_filter.mpr ⟨hbsnap, ?_⟩
    rw [hhid1]
    simpa using hhidden bm hbsnap
  obtain ⟨b2, hb2mem, hb2core⟩ :=
    normalize_keeps_nontool vis bm hbv (by rw [hbrole]; decide)
  have hb2id : b2.id = bm.id := congrArg (fun c => c.1) hb2core
  have hb2role : b2.role = "assistant" := by
    have h1 : b2.role = bm.role := congrArg (fun c => c.2.1) hb2core
    rw [h1, hbrole]
  have hbfresh := hfresh bm (List.mem_append.mpr (Or.inr hb))
  have hbnotuuid : bm.id ≠ uuid := hbfresh.2
  have hbnotA : ¬ bm.id ∈ A.map (fun m => m.id) := by
    intro hmem
    have hdisj := (List.nodup_append.mp hndsnap2).2.2
    exact hdisj hmem (List.mem_cons_of_mem _ (List.mem_map_of_mem _ hb))
  have hb2in : b2 ∈ NB := by
    have h1 : b2 ∈ NA ++ x :: NB := by rw [← hnormsplit]; exact hb2mem
    rcases List.mem_append.mp h1 with h | h
    · exfalso
      have h2 : b2.id ∈ I1 := by rw [← hNAids]; exact List.mem_map_of_mem _ h
      exact hbnotA (by rw [← hb2id]; exact List.Sublist.mem h2 hI1)
    · rcases List.mem_cons.mp h with h | h
      · exfalso
        apply hbnotuuid
        rw [← hb2id, h, hxid2]
      · exact h
  have hm3ids : m3.map (fun m => m.id) = m2.map (fun m => m.id) := by
    rw [hm3]
    exact applyToolNames_ids tnm m2
  have hm2ids : m2.map (fun m => m.id) =
      ((s0.messages.map (mergeExistingEl smap)).map (fun m => m.id) ++
        NA.map (fun m => m.id)) ++ uuid :: NB.map (fun m => m.id) := by
    rw [hm2shape, List.map_append, List.map_append, List.map_cons, he2id]
  have hpair : [uuid, bm.id].Sublist (m3.map (fun m => m.id)) := by
    rw [hm3ids, hm2ids]
    apply pair_sublist_build
    rw [← hb2id]
    exact List.mem_map_of_mem _ hb2in
  have hnormids2 : norm.map (fun m => m.id) = I1 ++ uuid :: I2 := hnids
  have hm2ids_alt : m2.map (fun m => m.id) =
      s0.messages.map (fun m => m.id) ++ norm.map (fun m => m.id) := by
    rw [hm2ids, hMids, hnormsplit, List.map_append, List.map_cons, hxid2,
      List.append_assoc]
  have hnd_m2ids : (m2.map (fun m => m.id)).Nodup := by
    rw [hm2ids_alt, List.nodup_append]
    refine ⟨hnd0, hnd_norm, ?_⟩
    intro i hiS hiN
    have h1 : i ∈ I1 ++ uuid :: I2 := by rw [← hnormids2]; exact hiN
    rcases List.mem_append.mp h1 with h | h
    · have h2 := List.Sublist.mem h hI1
      have h3 := hfreshid i (Or.inl h2)
      have h4 : ¬ i ∈ s1.messages.map (fun m => m.id) := by simpa using h3
      apply h4
      rw [hs1ids]
      exact List.mem_append.mpr (Or.inl hiS)
    · rcases List.mem_cons.mp h with h | h
      · exact hs0ids i hiS h
      · have h2 := List.Sublist.mem h hI2
        have h3 := hfreshid i (Or.inr h2)
        have h4 : ¬ i ∈ s1.messages.map (fun m => m.id) := by simpa using h3
        apply h4
        rw [hs1ids]
        exact List.mem_append.mpr (Or.inl hiS)
  have hnd_m3ids : (m3.map (fun m => m.id)).Nodup := by
    rw [hm3ids]
    exact hnd_m2ids
  have he2m2 : e2 ∈ m2 := by
    rw [hm2shape]
    exact List.mem_append.mpr (Or.inr (List.mem_cons_self _ _))
  have hb2m2 : b2 ∈ m2 := by
    rw [hm2shape]
    exact List.mem_append.mpr (Or.inr (List.mem_cons_of_mem _ hb2in))
  have he3 : applyToolNamesEl tnm e2 ∈ dropRedundantToolMessages m3 := by
    apply dropRedundant_mem_of_role
    · rw [hm3, applyToolNames_eq_map]
      exact List.mem_map_of_mem _ he2m2
    · rw [hrole3]
      decide
  have hb3role : (applyToolNamesEl tnm b2).role = "assistant" := by
    have h1 : (applyToolNamesEl tnm b2).role = b2.role :=
      congrArg (fun c => c.2.1) (applyToolNamesEl_core tnm b2)
    rw [h1, hb2role]
  have hb3 : applyToolNamesEl tnm b2 ∈ dropRedundantToolMessages m3 := by
    apply dropRedundant_mem_of_role
    · rw [hm3, applyToolNames_eq_map]
      exact List.mem_map_of_mem _ hb2m2
    · rw [hb3role]
      decide
  have he3id : uuid ∈ (dropRedundantToolMessages m3).map (fun m => m.id) := by
    have h1 : (applyToolNamesEl tnm e2).id = uuid := by
      rw [applyToolNamesEl_id, he2id]
    rw [← h1]
    exact List.mem_map_of_mem _ he3
  have hb3id : bm.id ∈ (dropRedundantToolMessages m3).map (fun m => m.id) := by
    have h1 : (applyToolNamesEl tnm b2).id = bm.id := by
      rw [applyToolNamesEl_id, hb2id]
    rw [← h1]
    exact List.mem_map_of_mem _ hb3
  have hdropsub : ((dropRedundantToolMessages m3).map (fun m => m.id)).Sublist
      (m3.map (fun m => m.id)) := by
    unfold dropRedundantToolMessages
    exact (List.filter_sublist _).map _
  refine ⟨hs1m, ?_, ?_⟩
  · rw [hr, filter_dropRedundant_of_role m3 uuid hcond, hm3f, List.map_cons,
      List.map_nil, applyToolNamesEl_core, he2core]
    unfold msgCore
    rw [heid, herole, hecont]
  · rw [hr]
    exact pair_sublist_of_sublist hdropsub hnd_m3ids he3id hb3id hpair

def c6e : PlatformMessage := { id := "u1", role := "user", content := "hello" }

def c6b : PlatformMessage := { id := "r1", role := "assistant", content := "the reply" }

theorem c6_witness :
    ((processEvent (sendMessageOptimistic initialState "hello" "u1" "t0")
        (Event.messagesSnapshot ([] ++ c6e :: [c6b]))).messages.filter
        (fun m => m.id == "u1")).map msgCore = [("u1", "user", "hello")] ∧
    ["u1", c6b.id].Sublist ((processEvent (sendMessageOptimistic initialState "hello" "u1" "t0")
        (Event.messagesSnapshot ([] ++ c6e :: [c6b]))).messages.map (fun m => m.id)) := by
  have h := c6_optimistic_send_snapshot initialState "u1" "t0" [] [c6b] c6e c6b
    (by decide) (by decide) rfl rfl rfl (by decide) (by decide) (by decide)
    (by decide) rfl
  exact ⟨h.2.1, h.2.2⟩


/-! ## C4: snapshot-merge ordering -/

theorem pair_sublist_cons_cases {α : Type} {a b x : α} {t : List α}
    (h : [a, b].Sublist (x :: t)) : (a = x ∧ [b].Sublist t) ∨ [a, b].Sublist t := by
  cases h with
  | cons _ h2 => exact Or.inr h2
  | cons₂ _ h2 => exact Or.inl ⟨rfl, h2⟩

theorem pair_sublist_decomp {α : Type} {a b : α} :
    ∀ (l : List α), [a, b].Sublist l → ∃ l1 l2, l = l1 ++ a :: l2 ∧ b ∈ l2 := by
  intro l
  induction l with
  | nil =>
    intro hab
    cases hab
  | cons x t ih =>
    intro hab
    rcases pair_sublist_cons_cases hab with ⟨he, h2⟩ | h2
    · exact ⟨[], t, by rw [he]; rfl, List.singleton_sublist.mp h2⟩
    · rcases ih h2 with ⟨l1, l2, heq, hb⟩
      exact ⟨x :: l1, l2, by rw [heq, List.cons_append], hb⟩

theorem find?_decomp {α : Type} {p : α → Bool} :
    ∀ {l : List α} {k : α}, l.find? p = some k →
      ∃ l1 l2, l = l1 ++ k :: l2 ∧ (∀ x ∈ l1, p x = false) ∧ p k = true := by
  intro l
  induction l with
  | nil =>
    intro k h
    exact absurd h (by simp)
  | cons x t ih =>
    intro k h
    by_cases hx : p x = true
    · rw [List.find?_cons_of_pos _ hx] at h
      injection h with h
      subst h
      exact ⟨[], t, rfl, fun y hy => absurd hy (List.not_mem_nil y), hx⟩
    · have hx2 : p x = false := by
        cases hpc : p x
        · rfl
        · exact absurd hpc hx
      rw [List.find?_cons_of_neg _ hx] at h
      rcases ih h with ⟨l1, l2, heq, hl1, hk⟩
      refine ⟨x :: l1, l2, by rw [heq, List.cons_append], ?_, hk⟩
      intro y hy
      rcases List.mem_cons.mp hy with h2 | h2
      · rw [h2]
        exact hx2
      · exact hl1 y h2

theorem sublist_spliceAt {α : Type} (l : List α) (i : Nat) (x : α) :
    l.Sublist (spliceAt l i x) := by
  rw [spliceAt]
  nth_rewrite 1 [← List.take_append_drop i l]
  exact List.Sublist.append_left (List.Sublist.cons x (List.Sublist.refl _)) _

theorem spliceAt_perm {α : Type} (L : List α) (i : Nat) (y : α) :
    (spliceAt L i y).Perm (y :: L) := by
  rw [spliceAt]
  have h1 := @List.perm_middle _ y (L.take i) (L.drop i)
  rw [List.take_append_drop] at h1
  exact h1

theorem spliceAt_map {α β : Type} (f : α → β) (l : List α) (i : Nat) (x : α) :
    (spliceAt l i x).map f = spliceAt (l.map f) i (f x) := by
  rw [spliceAt, spliceAt, List.map_append, List.map_cons, List.map_take,
    List.map_drop]

theorem mergeInsert_sublist :
    ∀ (toIns merged : List PlatformMessage) (ids : List String),
      merged.Sublist (mergeInsert toIns merged ids) := by
  intro toIns
  induction toIns with
  | nil =>
    intro merged ids
    exact List.Sublist.refl _
  | cons m rest ih =>
    intro merged ids
    rw [mergeInsert]
    by_cases hc : ids.contains m.id = true
    · rw [if_pos hc]
      exact ih merged ids
    · rw [if_neg hc]
      dsimp only
      cases hfind : rest.find? (fun n => ids.contains n.id) with
      | none =>
        dsimp only
        exact (List.sublist_append_left merged [m]).trans (ih _ _)
      | some n =>
        dsimp only
        cases hidx : merged.findIdx? (fun x => x.id == n.id) with
        | none =>
          dsimp only
          exact (List.sublist_append_left merged [m]).trans (ih _ _)
        | some idx =>
          dsimp only
          exact (sublist_spliceAt merged idx m).trans (ih _ _)

theorem mergeInsert_ids_nodup :
    ∀ (toIns merged : List PlatformMessage) (ids : List String),
      ((toIns.map (fun m => m.id)).Nodup) →
      ((merged.map (fun m => m.id)).Nodup) →
      (∀ i ∈ merged.map (fun m => m.id), i ∈ ids) →
      ((mergeInsert toIns merged ids).map (fun m => m.id)).Nodup := by
  intro toIns
  induction toIns with
  | nil =>
    intro merged ids _ hndM _
    exact hndM
  | cons m rest ih =>
    intro merged ids hndT hndM h3
    have hndTc : m.id ∉ rest.map (fun m => m.id) ∧ ((rest.map (fun m => m.id)).Nodup) := by
      rw [List.map_cons, List.nodup_cons] at hndT
      exact hndT
    rw [mergeInsert]
    by_cases hc : ids.contains m.id = true
    · rw [if_pos hc]
      exact ih merged ids hndTc.2 hndM h3
    · rw [if_neg hc]
      dsimp only
      have hmnot : m.id ∉ merged.map (fun m => m.id) := by
        intro hmem
        have h1 := h3 _ hmem
        exact hc (by simpa using h1)
      have hstep : ∀ merged2 : List PlatformMessage, merged2.Perm (m :: merged) →
          ((mergeInsert rest merged2 (ids ++ [m.id])).map (fun m => m.id)).Nodup := by
        intro merged2 hperm
        have hpermids : (merged2.map (fun m => m.id)).Perm
            (m.id :: merged.map (fun m => m.id)) := by
          have h4 := hperm.map (fun m => m.id)
          simpa using h4
        apply ih merged2 (ids ++ [m.id]) hndTc.2
        · exact hpermids.nodup_iff.mpr (List.nodup_cons.mpr ⟨hmnot, hndM⟩)
        · intro i hi
          rcases List.mem_cons.mp (hpermids.mem_iff.mp hi) with h5 | h5
          · rw [h5]
            exact List.mem_append.mpr (Or.inr (by simp))
          · exact List.mem_append.mpr (Or.inl (h3 _ h5))
      cases hfind : rest.find? (fun n => ids.contains n.id) with
      | none =>
        dsimp only
        exact hstep (merged ++ [m]) (List.perm_append_singleton _ _)
      | some n =>
        dsimp only
        cases hidx : merged.findIdx? (fun x => x.id == n.id) with
        | none =>
          dsimp only
          exact hstep (merged ++ [m]) (List.perm_append_singleton _ _)
        | some idx =>
          dsimp only
          exact hstep (spliceAt merged idx m) (spliceAt_perm _ _ _)

theorem mergeInsert_mem_new :
    ∀ (toIns merged : List PlatformMessage) (ids : List String) (n : PlatformMessage),
      n ∈ toIns → ((toIns.map (fun m => m.id)).Nodup) → ids.contains n.id = false →
      n ∈ mergeInsert toIns merged ids := by
  intro toIns
  induction toIns with
  | nil =>
    intro merged ids n hn _ _
    cases hn
  | cons m rest ih =>
    intro merged ids n hn hndT hfresh
    have hndTc : m.id ∉ rest.map (fun m => m.id) ∧ ((rest.map (fun m => m.id)).Nodup) := by
      rw [List.map_cons, List.nodup_cons] at hndT
      exact hndT
    rw [mergeInsert]
    rcases List.mem_cons.mp hn with he | hn2
    · subst he
      rw [if_neg (by rw [hfresh]; simp)]
      dsimp only
      have hmem2 : ∀ merged2 : List PlatformMessage, n ∈ merged2 →
          n ∈ mergeInsert rest merged2 (ids ++ [n.id]) := by
        intro merged2 h1
        exact (mergeInsert_sublist rest merged2 (ids ++ [n.id])).mem h1
      cases hfind : rest.find? (fun z => ids.contains z.id) with
      | none =>
        dsimp only
        exact hmem2 _ (List.mem_append.mpr (Or.inr (by simp)))
      | some k =>
        dsimp only
        cases hidx : merged.findIdx? (fun x => x.id == k.id) with
        | none =>
          dsimp only
          exact hmem2 _ (List.mem_append.mpr (Or.inr (by simp)))
        | some idx =>
          dsimp only
          apply hmem2
          rw [spliceAt]
          exact List.mem_append.mpr (Or.inr (List.mem_cons_self _ _))
    · by_cases hc : ids.contains m.id = true
      · rw [if_pos hc]
        exact ih merged ids n hn2 hndTc.2 hfresh
      · rw [if_neg hc]
        dsimp only
        have hne : n.id ≠ m.id := by
          intro he
          exact hndTc.1 (by rw [← he]; exact List.mem_map_of_mem _ hn2)
        have hfresh2 : (ids ++ [m.id]).contains n.id = false := by
          have h1 : ¬ n.id ∈ ids := by simpa using hfresh
          have h2 : ¬ n.id ∈ ids ++ [m.id] := by
            intro hmem
            rcases List.mem_append.mp hmem with h3 | h3
            · exact h1 h3
            · exact hne (by simpa using h3)
          simpa using h2
        cases hfind : rest.find? (fun z => ids.contains z.id) with
        | none =>
          dsimp only
          exact ih _ _ n hn2 hndTc.2 hfresh2
        | some k =>
          dsimp only
          cases hidx : merged.findIdx? (fun x => x.id == k.id) with
          | none =>
            dsimp only
            exact ih _ _ n hn2 hndTc.2 hfresh2
          | some idx =>
            dsimp only
            exact ih _ _ n hn2 hndTc.2 hfresh2
theorem mergeInsert_new_before_known (nid oid : String) :
    ∀ (toIns merged : List PlatformMessage) (ids : List String),
      ((toIns.map (fun m => m.id)).Nodup) →
      ((merged.map (fun m => m.id)).Nodup) →
      (∀ i ∈ merged.map (fun m => m.id), i ∈ ids) →
      (∀ i ∈ ids, i ∈ merged.map (fun m => m.id)) →
      (∀ a b : String, [a, b].Sublist (toIns.map (fun m => m.id)) → a ∈ ids →
        b ∈ ids → [a, b].Sublist (merged.map (fun m => m.id))) →
      ¬ nid ∈ ids → oid ∈ ids →
      [nid, oid].Sublist (toIns.map (fun m => m.id)) →
      [nid, oid].Sublist ((mergeInsert toIns merged ids).map (fun m => m.id)) := by
  intro toIns
  induction toIns with
  | nil =>
    intro merged ids _ _ _ _ _ _ _ hpair
    cases hpair
  | cons m rest ih =>
    intro merged ids hndT hndM h3 h4 h5 hn ho hpair
    have hndTc : m.id ∉ rest.map (fun m => m.id) ∧ ((rest.map (fun m => m.id)).Nodup) := by
      rw [List.map_cons, List.nodup_cons] at hndT
      exact hndT
    have hpairc : [nid, oid].Sublist (m.id :: rest.map (fun m => m.id)) := by
      rw [← List.map_cons]
      exact hpair
    rw [mergeInsert]
    by_cases hc : ids.contains m.id = true
    · rw [if_pos hc]
      have hmne : nid ≠ m.id := by
        intro he
        apply hn
        rw [he]
        simpa using hc
      rcases pair_sublist_cons_cases hpairc with ⟨he, _⟩ | h2
      · exact absurd he hmne
      · exact ih merged ids hndTc.2 hndM h3 h4
          (fun a b hab ha hb => h5 a b
            (by rw [List.map_cons]; exact List.Sublist.cons _ hab) ha hb)
          hn ho h2
    · rw [if_neg hc]
      dsimp only
      rcases pair_sublist_cons_cases hpairc with ⟨he, hbo⟩ | h2
      · -- the new message being inserted IS nid
        have hoidrest : oid ∈ rest.map (fun m => m.id) := List.singleton_sublist.mp hbo
        rcases List.mem_map.mp hoidrest with ⟨oel, hoel, hoelid⟩
        have hoelid2 : oel.id = oid := hoelid
        have hco : ids.contains oid = true := by simpa using ho
        cases hfind : rest.find? (fun n => ids.contains n.id) with
        | none =>
          exfalso
          have h6 := List.find?_eq_none.mp hfind oel hoel
          apply h6
          rw [hoelid2]
          exact hco
        | some k0 =>
          dsimp only
          rcases find?_decomp hfind with ⟨r1, r2, hreq, hr1, hpk⟩
          have hk0ids : k0.id ∈ ids := by simpa using hpk
          have hoelk : oel = k0 ∨ oel ∈ r2 := by
            rw [hreq] at hoel
            rcases List.mem_append.mp hoel with h7 | h7
            · exfalso
              have h8 := hr1 oel h7
              rw [hoelid2, hco] at h8
              exact Bool.noConfusion h8
            · rcases List.mem_cons.mp h7 with h7 | h7
              · exact Or.inl h7
              · exact Or.inr h7
          -- merged = P1 ++ kel :: P2 with kel.id = k0.id, first occurrence,
          -- and oid in the (kel :: P2) tail
          have hdec : ∃ P1 kel P2, merged = P1 ++ kel :: P2 ∧ kel.id = k0.id ∧
              (∀ x ∈ P1, (x.id == k0.id) = false) ∧
              oid ∈ (kel :: P2).map (fun m => m.id) := by
            rcases hoelk with hcase | hcase
            · -- k0 itself carries oid
              have hk0oid : k0.id = oid := by rw [← hcase, hoelid2]
              have homerged : oid ∈ merged.map (fun m => m.id) := h4 oid ho
              rcases List.mem_map.mp homerged with ⟨om, hom, homid⟩
              have homid2 : om.id = oid := homid
              rcases List.append_of_mem hom with ⟨P1, P2, hmeq⟩
              refine ⟨P1, om, P2, hmeq, by rw [homid2, hk0oid], ?_, ?_⟩
              · intro x hx
                have hndm2 : (merged.map (fun m => m.id)).Nodup := hndM
                rw [hmeq, List.map_append, List.map_cons, homid2] at hndm2
                have hdisj := (List.nodup_append.mp hndm2).2.2
                have hxne : x.id ≠ oid := by
                  intro hxe2
                  exact hdisj (by rw [← hxe2]; exact List.mem_map_of_mem _ hx)
                    (List.mem_cons_self _ _)
                rw [hk0oid]
                simp [hxne]
              · rw [List.map_cons, homid2]
                exact List.mem_cons_self _ _
            · -- oid sits strictly after k0 in rest: use the agreement invariant
              have hpairko : [k0.id, oid].Sublist (rest.map (fun m => m.id)) := by
                have h9 : rest.map (fun m => m.id) =
                    r1.map (fun m => m.id) ++ k0.id :: r2.map (fun m => m.id) := by
                  rw [hreq, List.map_append, List.map_cons]
                rw [h9]
                exact pair_sublist_build _ _ _ _
                  (by rw [← hoelid2]; exact List.mem_map_of_mem _ hcase)
              have hpairT : [k0.id, oid].Sublist ((m :: rest).map (fun m => m.id)) := by
                rw [List.map_cons]
                exact List.Sublist.cons _ hpairko
              have hpairM := h5 k0.id oid hpairT hk0ids ho
              rcases pair_sublist_decomp _ hpairM with ⟨L1, L2, hLeq, hoL2⟩
              rcases List.map_eq_append_iff.mp hLeq with ⟨P1, rest1, hPeq, hP1ids, hrest1ids⟩
              rcases List.map_eq_cons_iff.mp hrest1ids with ⟨kel, P2, hkeq, hkelid, hP2ids⟩
              refine ⟨P1, kel, P2, by rw [hPeq, hkeq], hkelid, ?_, ?_⟩
              · intro x hx
                have hk0L1 : k0.id ∉ L1 := by
                  have hndm2 : (merged.map (fun m => m.id)).Nodup := hndM
                  rw [hLeq] at hndm2
                  intro hmemL1
                  exact (List.nodup_append.mp hndm2).2.2 hmemL1 (List.mem_cons_self _ _)
                have hxne : x.id ≠ k0.id := by
                  intro hxe2
                  apply hk0L1
                  rw [← hP1ids, ← hxe2]
                  exact List.mem_map_of_mem _ hx
                simp [hxne]
              · rw [List.map_cons, hkelid]
                exact List.mem_cons_of_mem _ (by rw [hP2ids]; exact hoL2)
          rcases hdec with ⟨P1, kel, P2, hmeq, hkelid, hP1f, hotail⟩
          have hidx : merged.findIdx? (fun x => x.id == k0.id) = some P1.length := by
            rw [hmeq]
            have h10 := findIdx?_append_first (fun x => x.id == k0.id) kel
              (by dsimp only; rw [hkelid]; simp) P1 P2 0 hP1f
            simpa using h10
          rw [hidx]
          dsimp only
          have hsplice : spliceAt merged P1.length m = P1 ++ m :: kel :: P2 := by
            rw [hmeq, spliceAt, List.take_left, List.drop_left]
          have hpairm2 : [nid, oid].Sublist
              ((spliceAt merged P1.length m).map (fun m => m.id)) := by
            rw [hsplice, List.map_append, List.map_cons, ← he]
            exact pair_sublist_build _ _ _ _ hotail
          exact hpairm2.trans
            ((mergeInsert_sublist rest _ (ids ++ [m.id])).map (fun m => m.id))
      · -- nid sits further inside rest: recurse
        have hnidrest : nid ∈ rest.map (fun m => m.id) :=
          List.Sublist.mem (List.mem_cons_self _ _) h2
        have hmne : nid ≠ m.id := by
          intro heq
          exact hndTc.1 (by rw [← heq]; exact hnidrest)
        have hrec : ∀ merged2 : List PlatformMessage, merged2.Perm (m :: merged) →
            merged.Sublist merged2 →
            [nid, oid].Sublist
              ((mergeInsert rest merged2 (ids ++ [m.id])).map (fun m => m.id)) := by
          intro merged2 hperm hsub
          have hpermids : (merged2.map (fun m => m.id)).Perm
              (m.id :: merged.map (fun m => m.id)) := by
            have h11 := hperm.map (fun m => m.id)
            simpa using h11
          have hmnot : m.id ∉ merged.map (fun m => m.id) := by
            intro hmem
            exact hc (by simpa using h3 _ hmem)
          refine ih merged2 (ids ++ [m.id]) hndTc.2 ?_ ?_ ?_ ?_ ?_ ?_ h2
          · exact hpermids.nodup_iff.mpr (List.nodup_cons.mpr ⟨hmnot, hndM⟩)
          · intro i hi
            rcases List.mem_cons.mp (hpermids.mem_iff.mp hi) with h12 | h12
            · rw [h12]
              exact List.mem_append.mpr (Or.inr (by simp))
            · exact List.mem_append.mpr (Or.inl (h3 _ h12))
          · intro i hi
            rcases List.mem_append.mp hi with h12 | h12
            · exact (hsub.map (fun m => m.id)).mem (h4 _ h12)
            · have h13 : i = m.id := by simpa using h12
              rw [h13]
              exact hpermids.mem_iff.mpr (List.mem_cons_self _ _)
          · intro a b hab ha hb
            have hamem : a ∈ rest.map (fun m => m.id) :=
              List.Sublist.mem (List.mem_cons_self _ _) hab
            have hbmem : b ∈ rest.map (fun m => m.id) :=
              List.Sublist.mem (List.mem_cons_of_mem _ (by simp)) hab
            have hane : a ≠ m.id := by
              intro heq
              exact hndTc.1 (by rw [← heq]; exact hamem)
            have hbne : b ≠ m.id := by
              intro heq
              exact hndTc.1 (by rw [← heq]; exact hbmem)
            have ha2 : a ∈ ids := by
              rcases List.mem_append.mp ha with h14 | h14
              · exact h14
              · exact absurd (by simpa using h14) hane
            have hb2 : b ∈ ids := by
              rcases List.mem_append.mp hb with h14 | h14
              · exact h14
              · exact absurd (by simpa using h14) hbne
            have h15 := h5 a b
              (by rw [List.map_cons]; exact List.Sublist.cons _ hab) ha2 hb2
            exact h15.trans (hsub.map (fun m => m.id))
          · intro hmem
            rcases List.mem_append.mp hmem with h16 | h16
            · exact hn h16
            · exact hmne (by simpa using h16)
          · exact List.mem_append.mpr (Or.inl ho)
        cases hfind : rest.find? (fun z => ids.contains z.id) with
        | none =>
          dsimp only
          exact hrec (merged ++ [m]) (List.perm_append_singleton _ _)
            (List.sublist_append_left _ _)
        | some k =>
          dsimp only
          cases hidx : merged.findIdx? (fun x => x.id == k.id) with
          | none =>
            dsimp only
            exact hrec (merged ++ [m]) (List.perm_append_singleton _ _)
              (List.sublist_append_left _ _)
          | some idx =>
            dsimp only
            exact hrec (spliceAt merged idx m) (spliceAt_perm _ _ _)
              (sublist_spliceAt _ _ _)
/-- C4 (amended): the literal ordering claim is false (see the counterexample) —
the insertion loop deliberately places a NEW snapshot message BEFORE the next
already-known snapshot message.  What actually holds is the snapshot-order
agreement: for every state with no-duplicate message ids, every snapshot with
no-duplicate ids whose known ids appear in the state in the same relative
order, every hidden-free non-tool NEW snapshot message `nel` (id unknown to the
state) and every hidden-free non-tool KNOWN snapshot message `oel` (id already
present), if `nel` appears before `oel` in the snapshot then after the merge
`nel`'s id appears before `oel`'s id in the messages list. -/
theorem c4_snapshot_order_amended (s : AGUIClientState) (snap : List PlatformMessage)
    (nel oel : PlatformMessage)
    (hnd0 : (s.messages.map (fun m => m.id)).Nodup)
    (hnds : (snap.map (fun m => m.id)).Nodup)
    (hagr : ∀ a b : String, [a, b].Sublist (snap.map (fun m => m.id)) →
      a ∈ s.messages.map (fun m => m.id) → b ∈ s.messages.map (fun m => m.id) →
      [a, b].Sublist (s.messages.map (fun m => m.id)))
    (hnmem : nel ∈ snap) (homem : oel ∈ snap)
    (hnfresh : ¬ nel.id ∈ s.messages.map (fun m => m.id))
    (hoknown : oel.id ∈ s.messages.map (fun m => m.id))
    (hnrole : nel.role ≠ "tool") (horole : oel.role ≠ "tool")
    (hnhid : s.hiddenMessageIds.contains nel.id = false)
    (hohid : s.hiddenMessageIds.contains oel.id = false)
    (hpair : [nel.id, oel.id].Sublist (snap.map (fun m => m.id))) :
    [nel.id, oel.id].Sublist
      ((processEvent s (Event.messagesSnapshot snap)).messages.map (fun m => m.id)) := by
  set vis := snap.filter (fun m => !(s.hiddenMessageIds.contains m.id)) with hvis
  set norm := normalizeSnapshotMessages vis with hnorm
  set smap := buildSnapshotMap norm with hsmap
  set m1 := mergeExisting smap s.messages with hm1
  set m2 := mergeInsert norm m1 (s.messages.map (fun m => m.id)) with hm2
  set tnm := buildToolNameMap m2 s.pendingToolCalls with htnm
  set m3 := applyToolNames tnm m2 with hm3
  have hr : (processEvent s (Event.messagesSnapshot snap)).messages =
      dropRedundantToolMessages m3 := rfl
  have hsm_spec : ∀ k v, aget smap k = some v → v.id = k :=
    fun k v h => (buildSnapshotMap_spec _ k v h).2
  have hnv : nel ∈ vis := by
    rw [hvis]
    exact List.mem_filter.mpr ⟨hnmem, by simpa using hnhid⟩
  have hov : oel ∈ vis := by
    rw [hvis]
    exact List.mem_filter.mpr ⟨homem, by simpa using hohid⟩
  obtain ⟨n2, hn2mem, hn2core⟩ := normalize_keeps_nontool vis nel hnv hnrole
  obtain ⟨o2, ho2mem, ho2core⟩ := normalize_keeps_nontool vis oel hov horole
  have hn2id : n2.id = nel.id := congrArg (fun c => c.1) hn2core
  have ho2id : o2.id = oel.id := congrArg (fun c => c.1) ho2core
  have hn2role : n2.role = nel.role := congrArg (fun c => c.2.1) hn2core
  have ho2role : o2.role = oel.role := congrArg (fun c => c.2.1) ho2core
  have hnd_vis : (vis.map (fun m => m.id)).Nodup := by
    rw [hvis]
    exact List.Nodup.sublist ((List.filter_sublist _).map _) hnds
  have hnd_norm : (norm.map (fun m => m.id)).Nodup := by
    rw [hnorm]
    exact List.Nodup.sublist (normalize_ids_sublist vis) hnd_vis
  have hvsub : (vis.map (fun m => m.id)).Sublist (snap.map (fun m => m.id)) := by
    rw [hvis]
    exact (List.filter_sublist _).map _
  have hpair_vis : [nel.id, oel.id].Sublist (vis.map (fun m => m.id)) :=
    pair_sublist_of_sublist hvsub hnds (List.mem_map_of_mem _ hnv)
      (List.mem_map_of_mem _ hov) hpair
  have hnsub : (norm.map (fun m => m.id)).Sublist (vis.map (fun m => m.id)) := by
    rw [hnorm]
    exact normalize_ids_sublist vis
  have hnnorm_id : nel.id ∈ norm.map (fun m => m.id) := by
    rw [← hn2id]
    exact List.mem_map_of_mem _ hn2mem
  have honorm_id : oel.id ∈ norm.map (fun m => m.id) := by
    rw [← ho2id]
    exact List.mem_map_of_mem _ ho2mem
  have hpair_norm : [nel.id, oel.id].Sublist (norm.map (fun m => m.id)) :=
    pair_sublist_of_sublist hnsub hnd_vis hnnorm_id honorm_id hpair_vis
  have hm1eq : m1 = s.messages.map (mergeExistingEl smap) := by
    rw [hm1]
    exact mergeExisting_eq_map smap s.messages
  have hm1ids : m1.map (fun m => m.id) = s.messages.map (fun m => m.id) := by
    rw [hm1eq, List.map_map]
    apply List.map_congr_left
    intro m _
    exact mergeExistingEl_id smap hsm_spec m
  have h5 : ∀ a b : String, [a, b].Sublist (norm.map (fun m => m.id)) →
      a ∈ s.messages.map (fun m => m.id) → b ∈ s.messages.map (fun m => m.id) →
      [a, b].Sublist (m1.map (fun m => m.id)) := by
    intro a b hab ha hb
    rw [hm1ids]
    exact hagr a b (hab.trans (hnsub.trans hvsub)) ha hb
  have hmain := mergeInsert_new_before_known nel.id oel.id norm m1
    (s.messages.map (fun m => m.id)) hnd_norm (by rw [hm1ids]; exact hnd0)
    (by rw [hm1ids]; exact fun i hi => hi) (fun i hi => by rw [hm1ids]; exact hi)
    h5 hnfresh hoknown hpair_norm
  have hpair_m2 : [nel.id, oel.id].Sublist (m2.map (fun m => m.id)) := by
    rw [hm2]
    exact hmain
  have hm3ids : m3.map (fun m => m.id) = m2.map (fun m => m.id) := by
    rw [hm3]
    exact applyToolNames_ids tnm m2
  have hpair_m3 : [nel.id, oel.id].Sublist (m3.map (fun m => m.id)) := by
    rw [hm3ids]
    exact hpair_m2
  have hnd_m2 : (m2.map (fun m => m.id)).Nodup := by
    rw [hm2]
    exact mergeInsert_ids_nodup norm m1 _ hnd_norm (by rw [hm1ids]; exact hnd0)
      (by rw [hm1ids]; exact fun i hi => hi)
  have hnd_m3 : (m3.map (fun m => m.id)).Nodup := by
    rw [hm3ids]
    exact hnd_m2
  have hn2m2 : n2 ∈ m2 := by
    rw [hm2]
    apply mergeInsert_mem_new norm m1 _ n2 hn2mem hnd_norm
    rw [hn2id]
    simpa using hnfresh
  rcases List.mem_map.mp hoknown with ⟨omsg, homsg, homsgid⟩
  have homsgid2 : omsg.id = oel.id := homsgid
  have hago : aget smap omsg.id = some o2 := by
    rw [homsgid2, ← ho2id, hsmap]
    exact buildSnapshotMap_aget_of_mem norm o2 ho2mem hnd_norm
  have homEl : (mergeExistingEl smap omsg).role = o2.role := by
    unfold mergeExistingEl
    rw [hago]
    dsimp only
    split <;> rfl
  have homElid : (mergeExistingEl smap omsg).id = omsg.id :=
    mergeExistingEl_id smap hsm_spec omsg
  have hoEl_m1 : mergeExistingEl smap omsg ∈ m1 := by
    rw [hm1eq]
    exact List.mem_map_of_mem _ homsg
  have hoEl_m2 : mergeExistingEl smap omsg ∈ m2 := by
    rw [hm2]
    exact (mergeInsert_sublist norm m1 _).mem hoEl_m1
  have hnd3mem : applyToolNamesEl tnm n2 ∈ dropRedundantToolMessages m3 := by
    apply dropRedundant_mem_of_role
    · rw [hm3, applyToolNames_eq_map]
      exact List.mem_map_of_mem _ hn2m2
    · have h1 : (applyToolNamesEl tnm n2).role = nel.role := by
        have h2 : (applyToolNamesEl tnm n2).role = n2.role :=
          congrArg (fun c => c.2.1) (applyToolNamesEl_core tnm n2)
        rw [h2, hn2role]
      rw [h1]
      simpa using hnrole
  have hod3mem : applyToolNamesEl tnm (mergeExistingEl smap omsg) ∈
      dropRedundantToolMessages m3 := by
    apply dropRedundant_mem_of_role
    · rw [hm3, applyToolNames_eq_map]
      exact List.mem_map_of_mem _ hoEl_m2
    · have h1 : (applyToolNamesEl tnm (mergeExistingEl smap omsg)).role = oel.role := by
        have h2 : (applyToolNamesEl tnm (mergeExistingEl smap omsg)).role =
            (mergeExistingEl smap omsg).role :=
          congrArg (fun c => c.2.1) (applyToolNamesEl_core tnm _)
        rw [h2, homEl, ho2role]
      rw [h1]
      simpa using horole
  have hnid_f : nel.id ∈ (dropRedundantToolMessages m3).map (fun m => m.id) := by
    have h1 : (applyToolNamesEl tnm n2).id = nel.id := by
      rw [applyToolNamesEl_id, hn2id]
    rw [← h1]
    exact List.mem_map_of_mem _ hnd3mem
  have hoid_f : oel.id ∈ (dropRedundantToolMessages m3).map (fun m => m.id) := by
    have h1 : (applyToolNamesEl tnm (mergeExistingEl smap omsg)).id = oel.id := by
      rw [applyToolNamesEl_id, homElid, homsgid2]
    rw [← h1]
    exact List.mem_map_of_mem _ hod3mem
  have hdropsub : ((dropRedundantToolMessages m3).map (fun m => m.id)).Sublist
      (m3.map (fun m => m.id)) := by
    unfold dropRedundantToolMessages
    exact (List.filter_sublist _).map _
  rw [hr]
  exact pair_sublist_of_sublist hdropsub hnd_m3 hnid_f hoid_f hpair_m3

def c4os : PlatformMessage := { id := "O", role := "assistant", content := "old reply" }

def c4ns : PlatformMessage := { id := "N", role := "assistant", content := "new reply" }

def c4ws : AGUIClientState := { initialState with messages := [c4os] }

theorem c4_witness :
    [c4ns.id, c4os.id].Sublist
      ((processEvent c4ws (Event.messagesSnapshot [c4ns, c4os])).messages.map
        (fun m => m.id)) :=
  c4_snapshot_order_amended c4ws [c4ns, c4os] c4ns c4os (by decide) (by decide)
    (fun a b hab ha hb => by
      have ha2 : a = "O" := by simpa [c4ws, c4os] using ha
      have hb2 : b = "O" := by simpa [c4ws, c4os] using hb
      subst ha2
      subst hb2
      exact absurd hab (by decide))
    (by decide) (by decide) (by decide) (by decide) (by decide) (by decide)
    (by decide) (by decide) (by decide)
end AGUI
